import Mathlib

/-!
# Build orchestration of `manifest/build.go`

A shallow embedding of `Manifest.Build` and `buildArgs`, and what holds of them.

* Go strings are `String`s, read as valid UTF-8 text; the work on characters is
  done on `List Char`.  Go maps are association lists with unique keys.
* The standard library functions the source calls (`strings.Split`,
  `strings.SplitN`, `strings.Contains`, `strings.Fields`, `bufio.Scanner`) are
  embedded as far as the source uses them.
* What `build.go` calls and does not define is given from outside:
  `Manifest.runOrder` is a field of `Manifest`; `Service.Tag`, `Build.Hash`,
  `filepath.Join`, the verb `%q`, `ioutil.ReadFile`, the runner behind
  `DefaultRunner` and `Docker`, and the order in which `range` visits a map are
  the fields of `Env`; `coalesce` is defined as the spec describes it.
* A run of `Build` is its trace, the list of runner calls in order, with what
  was printed and how the call ended: `nil`, an error, or a panic.
-/

set_option autoImplicit false

namespace manifest

/-! ## Go standard library: package `strings` -/

namespace strings

/-- The Go function `strings.Split(s, sep)` for a separator of one character:
all pieces of `s` between occurrences of `sep`, never an empty list. -/
def Split (sep : Char) : List Char → List (List Char)
  | [] => [[]]
  | c :: cs =>
    if c = sep then [] :: Split sep cs
    else
      match Split sep cs with
      | [] => [[c]]
      | p :: ps => (c :: p) :: ps

/-- The Go function `strings.SplitN(s, sep, n)` for a separator of one
character and `n ≥ 0`: at most `n` pieces, the last one being the unsplit
remainder; `n = 0` gives no piece. -/
def SplitN (sep : Char) : Nat → List Char → List (List Char)
  | 0, _ => []
  | 1, s => [s]
  | _ + 2, [] => [[]]
  | n + 2, c :: cs =>
    if c = sep then [] :: SplitN sep (n + 1) cs
    else
      match SplitN sep (n + 2) cs with
      | [] => [[c]]
      | p :: ps => (c :: p) :: ps

/-- The Go function `strings.Contains(s, substr)` for a substring of one
character. -/
def Contains (s : List Char) (c : Char) : Bool :=
  s.elem c

/-- The Go function `unicode.IsSpace`: the code points with the Unicode
White_Space property. -/
def IsSpace (c : Char) : Bool :=
  let n := c.toNat
  (0x09 ≤ n && n ≤ 0x0D) || n == 0x20 || n == 0x85 || n == 0xA0 || n == 0x1680 ||
  (0x2000 ≤ n && n ≤ 0x200A) || n == 0x2028 || n == 0x2029 || n == 0x202F ||
  n == 0x205F || n == 0x3000

/-- Loop of `strings.Fields`: `cur` is the field being read, reversed. -/
def FieldsAux : List Char → List Char → List (List Char)
  | [], cur => if cur.isEmpty then [] else [cur.reverse]
  | c :: cs, cur =>
    if IsSpace c then
      if cur.isEmpty then FieldsAux cs [] else cur.reverse :: FieldsAux cs []
    else FieldsAux cs (c :: cur)

/-- The Go function `strings.Fields(s)`: the maximal runs of non-space
characters of `s`, in order. -/
def Fields (s : List Char) : List (List Char) :=
  FieldsAux s []

end strings

/-! ## Go standard library: `bufio.Scanner` with the default `ScanLines` -/

namespace bufio

/-- The Go constant `bufio.MaxScanTokenSize`, the buffer limit of a Scanner
that was given no buffer of its own. -/
def MaxScanTokenSize : Nat := 64 * 1024

/-- Length in bytes of the UTF-8 encoding. -/
def byteLen (s : List Char) : Nat :=
  (s.map Char.utf8Size).sum

/-- The unexported `dropCR` of package bufio: one trailing carriage return is
removed. -/
def dropCR (line : List Char) : List Char :=
  if line.getLast? = some '\r' then line.dropLast else line

/-- The raw lines of the data: the pieces between newlines, without a last
empty piece (data that is empty or ends in a newline has no line after it). -/
def rawLines (data : List Char) : List (List Char) :=
  let pieces := strings.Split '\n' data
  if pieces.getLast? = some [] then pieces.dropLast else pieces

/-- The tokens that successive `scanner.Scan()` calls deliver for a Scanner
over `data`: the raw lines, each without its trailing carriage return, up to
the first line that does not fit the buffer (`MaxScanTokenSize` bytes or more
before its newline).  At such a line `Scan` returns false and records
`ErrTooLong`, so the loop `for scanner.Scan()` ends there. -/
def Scan (data : List Char) : List (List Char) :=
  ((rawLines data).takeWhile (fun l => decide (byteLen l < MaxScanTokenSize))).map dropCR

end bufio

/-! ## `buildArgs` -/

/-- What a Go call can end in: a value, a returned `error` (its message), or a
run-time panic (its message). -/
inductive Outcome (α : Type) where
  | ok (val : α)
  | err (msg : String)
  | panic (msg : String)
  deriving DecidableEq, Repr

/-- Body of the `for scanner.Scan()` loop of `buildArgs` for one line
(build.go 125-134): the `args` slice after the line, or `none` when the index
expression `parts[1]` is out of range. -/
def buildArgsLine (args : List String) (text : List Char) : Option (List String) :=
  let parts := strings.Fields text
  if parts.length < 1 then some args
  else
    if parts[0]? = some "ARG".data then
      match parts[1]? with
      | none => none
      | some p1 => some (args ++ [String.mk ((strings.SplitN '=' 2 p1).headD [])])
    else some args

/-- The loop `for scanner.Scan()` of `buildArgs` over the delivered lines. -/
def buildArgsLoop : List (List Char) → List String → Outcome (List String)
  | [], args => .ok args
  | text :: rest, args =>
    match buildArgsLine args text with
    | none => .panic "runtime error: index out of range [1] with length 1"
    | some args1 => buildArgsLoop rest args1

/-- The Go function `buildArgs(dockerfile)` (build.go 114-138); `ReadFile` is
`ioutil.ReadFile` on the file system of the run.  The error of the Scanner
is never looked at, as in the source. -/
def buildArgs (ReadFile : String → Except String String) (dockerfile : String) :
    Outcome (List String) :=
  match ReadFile dockerfile with
  | .error e => .err e
  | .ok data => buildArgsLoop (bufio.Scan data.data) []

/-! ## Data model -/

/-- The build spec of a service (the type of the field `Service.Build`); the
fields `build.go` reads. -/
structure ServiceBuild where
  Context : String
  Dockerfile : String
  deriving DecidableEq, Repr

/-- A service of the manifest; the fields `build.go` reads, and the name. -/
structure Service where
  Name : String
  Image : String
  Dockerfile : String
  Build : ServiceBuild
  deriving DecidableEq, Repr

/-- The Go struct `BuildOptions` (build.go 12-16); the map `Environment` is
its lookup function. -/
structure BuildOptions where
  Cache : Bool
  Environment : String → Option String
  Service : String

/-- Of a `*Manifest` the function `Build` uses only the method `runOrder`,
which is declared outside build.go: the resolved services or an error. -/
structure Manifest where
  runOrder : String → Except String (List Service)

/-- Which method of `DefaultRunner` a call went through. -/
inductive Via where
  | Run
  | CombinedOutput
  deriving DecidableEq, Repr

/-- One call of the runner: the method and the arguments given to `Docker`. -/
structure Call where
  via : Via
  args : List String
  deriving DecidableEq, Repr

/-- A Go map with string keys: an association list with unique keys, kept in
order of first insertion. -/
abbrev GoMap (α : Type) := List (String × α)

/-- Map lookup `v, ok := m[k]`. -/
def GoMap.get? {α : Type} : GoMap α → String → Option α
  | [], _ => none
  | (k1, v) :: m, k => if k1 = k then some v else GoMap.get? m k

/-- Map assignment `m[k] = v`. -/
def GoMap.set {α : Type} : GoMap α → String → α → GoMap α
  | [], k, v => [(k, v)]
  | (k1, v1) :: m, k, v => if k1 = k then (k, v) :: m else (k1, v1) :: GoMap.set m k v

/-- What `build.go` uses without defining it. `Run` and `CombinedOutput` give
the result of `DefaultRunner.Run(s, Docker(args...))` and of
`DefaultRunner.CombinedOutput(Docker(args...))` after the calls made so far
(`none` is a nil error); `rangeOrder` is the order in which `range` visits a
map in this run, some permutation of its entries. -/
structure Env where
  Tag : Service → String → String
  Hash : ServiceBuild → String
  Join : String → String → String
  Quote : String → String
  ReadFile : String → Except String String
  Run : List Call → List String → Option String
  CombinedOutput : List Call → List String → Except String String
  rangeOrder : GoMap (List String) → GoMap (List String)
  rangeOrder_perm : ∀ m, (rangeOrder m).Perm m

/-- Modelled from the spec: `coalesce`, a helper of the package that is not in
build.go; "build-spec override → service-level override → default filename"
and "declared context, default \".\"": the first argument unless it is empty,
else the second. -/
def coalesce (a b : String) : String :=
  if a ≠ "" then a else b

/-- The effects of a run so far: the runner calls, in order, and what
`fmt.Printf` wrote to standard output. -/
structure State where
  calls : List Call
  stdout : List String
  deriving DecidableEq, Repr

/-- The state after one more runner call. -/
def State.call (st : State) (via : Via) (args : List String) : State :=
  { st with calls := st.calls ++ [⟨via, args⟩] }

/-- The state after one more `fmt.Printf`. -/
def State.print (st : State) (line : String) : State :=
  { st with stdout := st.stdout ++ [line] }

/-! ## `Manifest.Build` -/

/-- Lines 34-37 of build.go: "make the implicit :latest explicit".  `Split`
never returns an empty slice, so the index `sp[len(sp)-1]` is in range. -/
def normalizeImage (image : String) : String :=
  let sp := strings.Split '/' image.data
  if !strings.Contains (sp.getLastD []) ':' then image ++ ":latest" else image

/-- Body of the first loop (build.go 27-42) for one service.  The local
`dockerFile` of lines 28-31 is computed and never read. -/
def classifyStep (e : Env) (appName : String)
    (acc : GoMap (List String) × List Service) (service : Service) :
    GoMap (List String) × List Service :=
  if service.Image ≠ "" then
    let image := normalizeImage service.Image
    (acc.1.set image (((acc.1.get? image).getD []) ++ [e.Tag service appName]), acc.2)
  else
    (acc.1, acc.2 ++ [service])

/-- The first loop (build.go 19-42): the maps `pulls` and the slice `builds`. -/
def classify (e : Env) (appName : String) (services : List Service) :
    GoMap (List String) × List Service :=
  services.foldl (classifyStep e appName) ([], [])

/-- Lines 60 of build.go: the context of a build. -/
def buildContext (e : Env) (dir : String) (service : Service) : String :=
  e.Join dir (coalesce service.Build.Context ".")

/-- Lines 62-64 of build.go: the dockerfile of a build. -/
def buildDockerfile (e : Env) (dir : String) (service : Service) : String :=
  let dockerFile := coalesce service.Dockerfile "Dockerfile"
  let dockerFile := coalesce service.Build.Dockerfile dockerFile
  e.Join (buildContext e dir service) dockerFile

/-- Body of the loop of lines 72-76 for one declared name. -/
def buildArgFlag (e : Env) (opts : BuildOptions) (args : List String) (ba : String) :
    List String :=
  match opts.Environment ba with
  | some v => args ++ ["--build-arg", ba ++ "=" ++ e.Quote v]
  | none => args

/-- Lines 54-58 and 72-80 of build.go: the arguments of the build command of
a service whose dockerfile declares `bargs`. -/
def buildCommand (e : Env) (dir appName : String) (opts : BuildOptions)
    (service : Service) (bargs : List String) : List String :=
  let args := ["build"]
  let args := if !opts.Cache then args ++ ["--no-cache"] else args
  let args := bargs.foldl (buildArgFlag e opts) args
  let args := args ++ ["-f", buildDockerfile e dir service]
  let args := args ++ ["-t", e.Tag service appName]
  args ++ [buildContext e dir service]

/-- Body of the second loop (build.go 46-87) for one service: the effects,
and the build cache to go on with or how `Build` ends. -/
def buildService (e : Env) (dir appName : String) (opts : BuildOptions)
    (service : Service) (buildCache : GoMap String) (st : State) :
    State × Outcome (GoMap String) :=
  match buildCache.get? (e.Hash service.Build) with
  | some bc =>
    let cmd := ["tag", bc, e.Tag service appName]
    match e.Run st.calls cmd with
    | some err => (st.call .Run cmd, .err ("build error: " ++ err))
    | none => (st.call .Run cmd, .ok buildCache)
  | none =>
    let st := st.print ("context = " ++ buildContext e dir service ++ "\n")
    let st := st.print ("dockerFile = " ++ buildDockerfile e dir service ++ "\n")
    match buildArgs e.ReadFile (buildDockerfile e dir service) with
    | .err msg => (st, .err msg)
    | .panic msg => (st, .panic msg)
    | .ok bargs =>
      let args := buildCommand e dir appName opts service bargs
      match e.Run st.calls args with
      | some err => (st.call .Run args, .err ("build error: " ++ err))
      | none =>
        (st.call .Run args, .ok (buildCache.set (e.Hash service.Build) (e.Tag service appName)))

/-- The second loop (build.go 46-87) over `builds`. -/
def runBuilds (e : Env) (dir appName : String) (opts : BuildOptions) :
    List Service → GoMap String → State → State × Outcome Unit
  | [], _, st => (st, .ok ())
  | service :: rest, buildCache, st =>
    match buildService e dir appName opts service buildCache st with
    | (st1, .ok buildCache1) => runBuilds e dir appName opts rest buildCache1 st1
    | (st1, .err msg) => (st1, .err msg)
    | (st1, .panic msg) => (st1, .panic msg)

/-- The loop of lines 104-108: one `tag` per recorded destination. -/
def tagAll (e : Env) (image : String) : List String → State → State × Outcome Unit
  | [], st => (st, .ok ())
  | tag :: rest, st =>
    let cmd := ["tag", image, tag]
    match e.Run st.calls cmd with
    | some err => (st.call .Run cmd, .err ("build error: " ++ err))
    | none => tagAll e image rest (st.call .Run cmd)

/-- Body of the third loop (build.go 89-109) for one entry of `pulls`. -/
def pullImage (e : Env) (opts : BuildOptions) (image : String) (tags : List String)
    (st : State) : State × Outcome Unit :=
  let inspect := ["images", "-q", image]
  match e.CombinedOutput st.calls inspect with
  | .error err => (st.call .CombinedOutput inspect, .err err)
  | .ok output =>
    let st := st.call .CombinedOutput inspect
    if !opts.Cache || output.length == 0 then
      match e.Run st.calls ["pull", image] with
      | some err => (st.call .Run ["pull", image], .err ("build error: " ++ err))
      | none => tagAll e image tags (st.call .Run ["pull", image])
    else tagAll e image tags st

/-- The third loop (build.go 89-109) over the entries of `pulls` in the order
`range` visits them. -/
def runPulls (e : Env) (opts : BuildOptions) :
    GoMap (List String) → State → State × Outcome Unit
  | [], st => (st, .ok ())
  | (image, tags) :: rest, st =>
    match pullImage e opts image tags st with
    | (st1, .ok _) => runPulls e opts rest st1
    | (st1, r) => (st1, r)

/-- The Go method `(m *Manifest) Build(dir, appName, s, opts)` (build.go
18-112).  The stream `s` is only handed on to the runner. -/
def Manifest.Build (m : Manifest) (e : Env) (dir appName : String) (opts : BuildOptions) :
    State × Outcome Unit :=
  match m.runOrder opts.Service with
  | .error err => (⟨[], []⟩, .err err)
  | .ok services =>
    let pb := classify e appName services
    match runBuilds e dir appName opts pb.2 [] ⟨[], []⟩ with
    | (st, .ok _) => runPulls e opts (e.rangeOrder pb.1) st
    | (st, r) => (st, r)

/-! ## Environments and inputs of the examples -/

/-- A service that is built: no image. -/
def exampleBuilt (name context : String) : Service :=
  ⟨name, "", "", ⟨context, ""⟩⟩

/-- A service that runs an external image. -/
def exampleExternal (name image : String) : Service :=
  ⟨name, image, "", ⟨"", ""⟩⟩

/-- Loop of `filepath.Clean` over the elements of a path, the cleaned elements
so far reversed in `out`: empty and `.` elements are dropped, `..` removes the
element before it, or stays when nothing but `..` precedes it in a path that
is not rooted. -/
def cleanParts (rooted : Bool) : List (List Char) → List (List Char) → List (List Char)
  | [], out => out.reverse
  | p :: ps, out =>
    if p = [] ∨ p = ['.'] then cleanParts rooted ps out
    else if p = ['.', '.'] then
      match out with
      | [] => if rooted then cleanParts rooted ps [] else cleanParts rooted ps [p]
      | q :: qs => if q = ['.', '.'] then cleanParts rooted ps (p :: out) else cleanParts rooted ps qs
    else cleanParts rooted ps (p :: out)

/-- The Go function `filepath.Clean` where the separator is the slash. -/
def filepathClean (path : List Char) : List Char :=
  let rooted := path.head? = some '/'
  let out := (if rooted then ['/'] else []) ++
    ['/'].intercalate (cleanParts rooted (strings.Split '/' path) [])
  if out.isEmpty then ['.'] else out

/-- The Go function `filepath.Join` of two elements where the separator is the
slash. -/
def filepathJoin (a b : String) : String :=
  if a ≠ "" then String.mk (filepathClean (a.data ++ '/' :: b.data))
  else if b ≠ "" then String.mk (filepathClean b.data)
  else ""

/-- An environment for the examples: tags are `app/name`, the signature of a
build spec is its two fields, paths are joined as on Unix, a value is quoted
by enclosing it in double quotes (what `%q` gives for letters, digits and
dots), maps are visited in insertion order; the file system and the runner
are given. -/
def exampleEnv (ReadFile : String → Except String String)
    (Run : List Call → List String → Option String)
    (CombinedOutput : List Call → List String → Except String String) : Env where
  Tag := fun service appName => appName ++ "/" ++ service.Name
  Hash := fun b => b.Context ++ "|" ++ b.Dockerfile
  Join := filepathJoin
  Quote := fun v => "\"" ++ v ++ "\""
  ReadFile := ReadFile
  Run := Run
  CombinedOutput := CombinedOutput
  rangeOrder := fun m => m
  rangeOrder_perm := fun m => List.Perm.refl m

/-- A runner for the examples that fails every command whose first argument
is `verb` and succeeds on all others. -/
def exampleFailOn (verb : String) : List Call → List String → Option String :=
  fun _ args => if args.head? = some verb then some "exit status 1" else none

/-- The environment map `{"VERSION": "2.0"}` of the examples. -/
def exampleVersion : String → Option String :=
  fun k => if k = "VERSION" then some "2.0" else none

/-- An environment for the examples in which every dockerfile has the lines
`ARG VERSION=1.0` and `ARG TOKEN`, every command succeeds and no image is
present locally. -/
def exampleArgEnv : Env :=
  exampleEnv (fun _ => .ok "ARG VERSION=1.0\nARG TOKEN\n") (fun _ _ => none) (fun _ _ => .ok "")

/-- An inspection for the examples: `nginx:latest` is present locally (the
output is its image id), no other image is. -/
def exampleLocalNginx : List Call → List String → Except String String :=
  fun _ args => if args = ["images", "-q", "nginx:latest"] then .ok "605c77e624dd\n" else .ok ""

/-- A manifest whose resolved order is the given list. -/
def exampleManifest (services : List Service) : Manifest :=
  ⟨fun _ => .ok services⟩

/-- Options of the examples: the given cache switch and environment. -/
def exampleOpts (cache : Bool) (environment : String → Option String) : BuildOptions :=
  ⟨cache, environment, ""⟩

/-! ## The argument extractor in the words of the spec (§4.3) -/

/-- The lines of a build file, "splits into lines": the raw lines without
their line ending. -/
def specLines (data : String) : List (List Char) :=
  (bufio.rawLines data.data).map bufio.dropCR

/-- What one line declares: "a line whose first token is the
build-argument-declaration keyword contributes the name portion of its second
token (split on the first `=`)"; any other line, nothing. -/
def specDeclaredName (line : List Char) : Option String :=
  match strings.Fields line with
  | first :: second :: _ =>
    if first = "ARG".data then some (String.mk (second.takeWhile (fun c => decide (c ≠ '='))))
    else none
  | _ => none

/-- A build file with one line of `n` letters before the line `ARG X`. -/
def longLineFile (n : Nat) : String :=
  String.mk (List.replicate n 'a' ++ "\nARG X".data)

/-! ## Runner calls and their results -/

/-- The call `DefaultRunner.CombinedOutput(Docker("images", "-q", image))` of
line 92. -/
def inspectCall (image : String) : Call :=
  ⟨.CombinedOutput, ["images", "-q", image]⟩

/-- The call `DefaultRunner.Run(s, Docker("pull", image))` of line 100. -/
def pullCall (image : String) : Call :=
  ⟨.Run, ["pull", image]⟩

/-- The call `DefaultRunner.Run(s, Docker("tag", source, target))` of lines 48
and 105. -/
def tagCall (source target : String) : Call :=
  ⟨.Run, ["tag", source, target]⟩

/-- Whether the runner fails the call `c` when it is made after the calls
`pre`. -/
def failed (e : Env) (pre : List Call) (c : Call) : Bool :=
  match c.via with
  | .Run => (e.Run pre c.args).isSome
  | .CombinedOutput =>
    match e.CombinedOutput pre c.args with
    | .ok _ => false
    | .error _ => true

/-- No call of the trace failed. -/
def AllOk (e : Env) (calls : List Call) : Prop :=
  ∀ pre c post, calls = pre ++ c :: post → failed e pre c = false

/-- A failed call of the trace is its last call, and the result is an error. -/
def Stopped {α : Type} (e : Env) (calls : List Call) (r : Outcome α) : Prop :=
  ∀ pre c post, calls = pre ++ c :: post → failed e pre c = true →
    post = [] ∧ ∃ msg, r = .err msg

/-- A trace with its result: a failed call ends the trace with an error, and
a trace that goes on has no failed call. -/
def Sound {α : Type} (e : Env) (calls : List Call) (r : Outcome α) : Prop :=
  Stopped e calls r ∧ ∀ v, r = .ok v → AllOk e calls

/-! ## The build path in the words of the claims -/

/-- The names `buildArgs` returns for the dockerfile of a service, none when it
does not return. -/
def declaredArgs (e : Env) (dir : String) (service : Service) : List String :=
  match buildArgs e.ReadFile (buildDockerfile e dir service) with
  | .ok bargs => bargs
  | _ => []

/-- The commands of the build path when nothing fails, for the services that
follow the services `earlier`: a service whose signature is that of an earlier
one gets `tag <tag of the first such service> <its own tag>`, any other
service its build command. -/
def specBuildCallsFrom (e : Env) (dir appName : String) (opts : BuildOptions) :
    List Service → List Service → List Call
  | _, [] => []
  | earlier, service :: rest =>
    (match earlier.find? (fun t => decide (e.Hash t.Build = e.Hash service.Build)) with
      | some first => tagCall (e.Tag first appName) (e.Tag service appName)
      | none => ⟨.Run, buildCommand e dir appName opts service (declaredArgs e dir service)⟩)
      :: specBuildCallsFrom e dir appName opts (earlier ++ [service]) rest

/-- The commands of the build path over the whole build list. -/
def specBuildCalls (e : Env) (dir appName : String) (opts : BuildOptions)
    (builds : List Service) : List Call :=
  specBuildCallsFrom e dir appName opts [] builds

/-- Whether a call is a `build` command. -/
def isBuildCall (c : Call) : Bool :=
  decide (c.args.head? = some "build")

/-- Whether, after the calls `pre`, the inspection of `image` succeeds and line
99 asks for the pull: caching is off or the inspection output is empty. -/
def pullDue (e : Env) (opts : BuildOptions) (pre : List Call) (image : String) : Bool :=
  match e.CombinedOutput pre ["images", "-q", image] with
  | .ok output => !opts.Cache || output.length == 0
  | .error _ => false

/-- What the calls `new`, made after the calls `base` by the third loop over
the images `keys`, satisfy: only images of `keys` are inspected or pulled,
none is inspected twice, each is inspected when the loop ran to its end
(`complete`), and an inspected image is pulled exactly when the pull was due
at its inspection, the pull being the call that follows the inspection. -/
def PullTrace (e : Env) (opts : BuildOptions) (keys : List String)
    (base new : List Call) (complete : Prop) : Prop :=
  (∀ image, image ∉ keys →
    new.count (inspectCall image) = 0 ∧ new.count (pullCall image) = 0) ∧
  (∀ image, new.count (inspectCall image) ≤ 1) ∧
  (complete → ∀ image ∈ keys, new.count (inspectCall image) = 1) ∧
  (∀ pre post image, new = pre ++ inspectCall image :: post →
    new.count (pullCall image) = (if pullDue e opts (base ++ pre) image then 1 else 0) ∧
    (pullDue e opts (base ++ pre) image = true → post.head? = some (pullCall image)))

/-! ## The pull aggregation in the words of the claims -/

/-- The destination tags of the resolved services that carry an image whose
normalized reference is `key`, in resolved order. -/
def specTagsFor (e : Env) (appName : String) (services : List Service) (key : String) :
    List String :=
  (services.filter (fun s => decide (s.Image ≠ "" ∧ normalizeImage s.Image = key))).map
    (fun s => e.Tag s appName)

/-- The call `c` is a command of the build path for `service`: the re-tag of
line 48 to its destination tag, or its build command of line 82. -/
def CommandOf (e : Env) (dir appName : String) (opts : BuildOptions) (c : Call)
    (service : Service) : Prop :=
  (∃ bc, c = tagCall bc (e.Tag service appName)) ∨
  ∃ bargs, buildArgs e.ReadFile (buildDockerfile e dir service) = .ok bargs ∧
    c = ⟨.Run, buildCommand e dir appName opts service bargs⟩

/-- The error `Build` returns when the call `c`, made after the calls `pre`,
fails: `fmt.Errorf("build error: %s", err)` of lines 49, 83, 101 and 106 for a
call through `Run`, the error itself (line 94) for the inspection. -/
def failureMessage (e : Env) (pre : List Call) (c : Call) : String :=
  match c.via with
  | .Run => "build error: " ++ (e.Run pre c.args).getD ""
  | .CombinedOutput =>
    match e.CombinedOutput pre c.args with
    | .ok _ => ""
    | .error err => err

/-- A trace with its result, as `Sound`, the error being the one of the
failed call. -/
def Reported {α : Type} (e : Env) (calls : List Call) (r : Outcome α) : Prop :=
  (∀ pre c post, calls = pre ++ c :: post → failed e pre c = true →
    post = [] ∧ r = .err (failureMessage e pre c)) ∧
  ∀ v, r = .ok v → AllOk e calls

/-- The environment of another run on the same inputs: the same functions, file
system and runner, but `range` visits a map in the order `order`. -/
def Env.withRange (e : Env) (order : GoMap (List String) → GoMap (List String))
    (horder : ∀ m, (order m).Perm m) : Env :=
  { e with rangeOrder := order, rangeOrder_perm := horder }

/-- A build file whose first line has `n` letters and ends in a carriage
return and a line feed, before the line `ARG X`. -/
def crLineFile (n : Nat) : String :=
  String.mk (List.replicate n 'a' ++ "\r\nARG X".data)

/-- An environment for the examples in which every dockerfile has the lines
`ARG A=1`, `ARG B` and `ARG A=2`, every command succeeds and no image is
present locally. -/
def exampleRepeatEnv : Env :=
  exampleEnv (fun _ => .ok "ARG A=1\nARG B\nARG A=2\n") (fun _ _ => none) (fun _ _ => .ok "")

/-- The environment map `{"A": "1"}` of the examples. -/
def exampleOnlyA : String → Option String :=
  fun k => if k = "A" then some "1" else none

/-! ## Lemmas on the string functions -/

theorem strings_Split_ne_nil (sep : Char) (s : List Char) : strings.Split sep s ≠ [] := by
  induction s with
  | nil => simp [strings.Split]
  | cons c cs ih =>
    unfold strings.Split
    split
    · simp
    · cases h : strings.Split sep cs <;> simp

theorem getLast?_cons_of_getLast? {α : Type} (c a : α) (p : List α)
    (h : p.getLast? = some a) : (c :: p).getLast? = some a := by
  cases p with
  | nil => simp at h
  | cons b bs => simpa [List.getLast?_cons_cons] using h

/-- The last piece of `Split`, with the number of pieces: one piece is the
whole string, with more pieces a separator stands before the last one. -/
theorem strings_Split_last_aux (sep : Char) (s : List Char) :
    ∃ p, s = p ++ (strings.Split sep s).getLastD [] ∧
      sep ∉ (strings.Split sep s).getLastD [] ∧
      ((p = [] ∧ (strings.Split sep s).length = 1) ∨
        (p.getLast? = some sep ∧ 2 ≤ (strings.Split sep s).length)) := by
  induction s with
  | nil => exact ⟨[], by simp [strings.Split]⟩
  | cons c cs ih =>
    obtain ⟨p, hp, hsep, hlast⟩ := ih
    unfold strings.Split
    split
    · rename_i hc
      cases h : strings.Split sep cs with
      | nil => exact absurd h (strings_Split_ne_nil sep cs)
      | cons q qs =>
        rw [h] at hp hsep hlast
        refine ⟨c :: p, ?_, ?_, Or.inr ⟨?_, by simp⟩⟩
        · simpa [List.getLastD_cons] using hp
        · simpa [List.getLastD_cons] using hsep
        · rcases hlast with ⟨rfl, _⟩ | ⟨hlast, _⟩
          · simp [hc]
          · exact getLast?_cons_of_getLast? c sep p hlast
    · rename_i hc
      cases h : strings.Split sep cs with
      | nil => exact absurd h (strings_Split_ne_nil sep cs)
      | cons q qs =>
        rw [h] at hp hsep hlast
        cases qs with
        | nil =>
          simp only [List.getLastD_cons, List.getLastD_nil] at hp hsep ⊢
          rcases hlast with ⟨rfl, _⟩ | ⟨_, hlen⟩
          · refine ⟨[], ?_, ?_, Or.inl ⟨rfl, by simp⟩⟩
            · simpa using hp
            · simp only [List.mem_cons, not_or]
              exact ⟨fun h => hc h.symm, hsep⟩
          · simp at hlen
        | cons r rs =>
          simp only [List.getLastD_cons] at hp hsep ⊢
          rcases hlast with ⟨_, hlen⟩ | ⟨hlast, _⟩
          · simp at hlen
          · refine ⟨c :: p, ?_, hsep, Or.inr ⟨?_, by simp⟩⟩
            · simpa using hp
            · exact getLast?_cons_of_getLast? c sep p hlast

/-- The last piece of `Split` is the part of the string after its last
separator. -/
theorem strings_Split_getLastD (sep : Char) (s : List Char) :
    ∃ p, s = p ++ (strings.Split sep s).getLastD [] ∧
      sep ∉ (strings.Split sep s).getLastD [] ∧ (p = [] ∨ p.getLast? = some sep) := by
  obtain ⟨p, h1, h2, h3⟩ := strings_Split_last_aux sep s
  exact ⟨p, h1, h2, h3.elim (fun h => Or.inl h.1) (fun h => Or.inr h.1)⟩

theorem afterLast_unique_aux (sep : Char) (p a b c : List Char) (ha : sep ∉ a)
    (hq : p ++ c = [] ∨ (p ++ c).getLast? = some sep) (hab : a = c ++ b) : a = b := by
  cases c with
  | nil => simpa using hab
  | cons x xs =>
    exfalso
    rcases hq with hq | hq
    · simp at hq
    · rw [List.getLast?_append_of_ne_nil _ (by simp)] at hq
      have hmem : sep ∈ x :: xs := List.mem_of_getLast?_eq_some hq
      exact ha (by rw [hab]; exact List.mem_append_left _ hmem)

/-- The part after the last separator is determined by the string. -/
theorem afterLast_unique (sep : Char) (p q a b : List Char) (h : p ++ a = q ++ b)
    (ha : sep ∉ a) (hb : sep ∉ b) (hp : p = [] ∨ p.getLast? = some sep)
    (hq : q = [] ∨ q.getLast? = some sep) : a = b := by
  rcases List.append_eq_append_iff.mp h with ⟨c, hqc, hac⟩ | ⟨c, hpc, hbc⟩
  · exact afterLast_unique_aux sep p a b c ha (hqc ▸ hq) hac
  · exact (afterLast_unique_aux sep q b a c hb (hpc ▸ hp) hbc).symm

/-- The first piece of `SplitN` into two is the part before the first
separator. -/
theorem strings_SplitN_two_headD (sep : Char) (s : List Char) :
    (strings.SplitN sep 2 s).headD [] = s.takeWhile (fun c => decide (c ≠ sep)) := by
  induction s with
  | nil => simp [strings.SplitN]
  | cons c cs ih =>
    unfold strings.SplitN
    split
    · rename_i hc
      simp [hc]
    · rename_i hc
      have hd : decide (c ≠ sep) = true := by simpa using hc
      rw [List.takeWhile_cons, hd, ← ih]
      cases h : strings.SplitN sep 2 cs <;> rfl

/-! ## Lemmas on maps -/

theorem GoMap_get?_set_self {α : Type} (m : GoMap α) (k : String) (v : α) :
    (m.set k v).get? k = some v := by
  induction m with
  | nil => simp [GoMap.set, GoMap.get?]
  | cons kv m ih =>
    obtain ⟨k1, v1⟩ := kv
    by_cases h : k1 = k
    · simp [GoMap.set, GoMap.get?, h]
    · simp [GoMap.set, GoMap.get?, h, ih]

theorem GoMap_get?_set_ne {α : Type} (m : GoMap α) (k k2 : String) (v : α) (hk : k ≠ k2) :
    (m.set k v).get? k2 = m.get? k2 := by
  induction m with
  | nil => simp [GoMap.set, GoMap.get?, hk]
  | cons kv m ih =>
    obtain ⟨k1, v1⟩ := kv
    by_cases h : k1 = k
    · subst h
      simp [GoMap.set, GoMap.get?, hk]
    · by_cases h2 : k1 = k2
      · subst h2
        simp [GoMap.set, GoMap.get?, h]
      · simp [GoMap.set, GoMap.get?, h, h2, ih]

/-! ## Image normalization (C8) -/

theorem normalizeImage_eq (image : String) (p seg : List Char)
    (hsplit : image.data = p ++ seg) (hseg : '/' ∉ seg)
    (hp : p = [] ∨ p.getLast? = some '/') :
    normalizeImage image = if ':' ∈ seg then image else image ++ ":latest" := by
  obtain ⟨q, hq1, hq2, hq3⟩ := strings_Split_getLastD '/' image.data
  have hseg2 : (strings.Split '/' image.data).getLastD [] = seg :=
    afterLast_unique '/' q p _ seg (hq1.symm.trans hsplit) hq2 hseg hq3 hp
  unfold normalizeImage
  simp only [hseg2]
  by_cases hc : ':' ∈ seg
  · simp [strings.Contains, hc]
  · simp [strings.Contains, hc]

/-- C8: for a service with a non-empty image reference, the key under which
the first loop records its destination tag is the reference with ":latest"
appended when the segment after the last "/" (the `seg` with the reference
equal to `p ++ seg`, no "/" in `seg`, and `p` empty or ending in "/") contains
no ":", and the reference unchanged otherwise; the build list is left as it
is. -/
theorem classifyStep_key (e : Env) (appName : String)
    (acc : GoMap (List String) × List Service) (service : Service) (p seg : List Char)
    (himage : service.Image ≠ "") (hsplit : service.Image.data = p ++ seg)
    (hseg : '/' ∉ seg) (hp : p = [] ∨ p.getLast? = some '/') :
    normalizeImage service.Image
        = (if ':' ∈ seg then service.Image else service.Image ++ ":latest") ∧
      (classifyStep e appName acc service).1.get?
          (if ':' ∈ seg then service.Image else service.Image ++ ":latest")
        = some ((acc.1.get? (if ':' ∈ seg then service.Image else service.Image ++ ":latest")).getD []
            ++ [e.Tag service appName]) ∧
      (classifyStep e appName acc service).2 = acc.2 := by
  have hn := normalizeImage_eq service.Image p seg hsplit hseg hp
  refine ⟨hn, ?_, ?_⟩
  · rw [← hn]
    simp [classifyStep, himage, GoMap_get?_set_self]
  · simp [classifyStep, himage]

/-- C8, the examples of the claim: "nginx" is recorded under "nginx:latest",
"localhost:5000/app" under "localhost:5000/app:latest" and "nginx:1.2" under
"nginx:1.2". -/
theorem classifyStep_key_witness :
    let e := exampleEnv (fun _ => .ok "") (fun _ _ => none) (fun _ _ => .ok "")
    (normalizeImage "nginx" = "nginx:latest" ∧
      (classifyStep e "app" ([], []) (exampleExternal "web" "nginx")).1.get? "nginx:latest"
        = some ["app/web"]) ∧
    (normalizeImage "localhost:5000/app" = "localhost:5000/app:latest" ∧
      (classifyStep e "app" ([], []) (exampleExternal "web" "localhost:5000/app")).1.get?
          "localhost:5000/app:latest" = some ["app/web"]) ∧
    (normalizeImage "nginx:1.2" = "nginx:1.2" ∧
      (classifyStep e "app" ([], []) (exampleExternal "web" "nginx:1.2")).1.get? "nginx:1.2"
        = some ["app/web"]) := by
  intro e
  have h1 := classifyStep_key e "app" ([], []) (exampleExternal "web" "nginx")
    [] "nginx".data (by decide) rfl (by decide) (Or.inl rfl)
  have h2 := classifyStep_key e "app" ([], []) (exampleExternal "web" "localhost:5000/app")
    "localhost:5000/".data "app".data (by decide) rfl (by decide) (Or.inr (by decide))
  have h3 := classifyStep_key e "app" ([], []) (exampleExternal "web" "nginx:1.2")
    [] "nginx:1.2".data (by decide) rfl (by decide) (Or.inl rfl)
  exact ⟨⟨h1.1, h1.2.1⟩, ⟨h2.1, h2.2.1⟩, ⟨h3.1, h3.2.1⟩⟩

/-! ## The argument extractor (C1, C9) -/

/-- C1: on the build file with the lines `ARG` and `ARG TOKEN` the function
`buildArgs` does not return `["TOKEN"]`: the index `parts[1]` is out of range
on the first line and the call panics. -/
theorem buildArgs_bare_ARG_panics :
    buildArgs (fun _ => .ok "ARG\nARG TOKEN") "Dockerfile"
      = .panic "runtime error: index out of range [1] with length 1" := by
  decide

/-- A line that is the keyword alone makes `buildArgs` panic, wherever it
stands in the file. -/
theorem buildArgsLoop_panics (lines : List (List Char)) (args : List String)
    (h : ∃ l ∈ lines, strings.Fields l = ["ARG".data]) :
    ∃ msg, buildArgsLoop lines args = .panic msg := by
  induction lines generalizing args with
  | nil => simp at h
  | cons text rest ih =>
    unfold buildArgsLoop
    cases hline : buildArgsLine args text with
    | none => exact ⟨_, rfl⟩
    | some args1 =>
      obtain ⟨l, hl, hfields⟩ := h
      rcases List.mem_cons.mp hl with rfl | hrest
      · simp [buildArgsLine, hfields] at hline
      · exact ih args1 ⟨l, hrest, hfields⟩

theorem buildArgsLine_eq_spec (args : List String) (text : List Char)
    (htok : (strings.Fields text).head? = some "ARG".data → 2 ≤ (strings.Fields text).length) :
    buildArgsLine args text = some (args ++ (specDeclaredName text).toList) := by
  unfold buildArgsLine specDeclaredName
  cases h : strings.Fields text with
  | nil => simp
  | cons first rest =>
    rw [h] at htok
    by_cases hfirst : first = "ARG".data
    · cases rest with
      | nil => exact absurd (htok (by simp [hfirst])) (by simp)
      | cons second more =>
        have h2 : (strings.SplitN '=' 2 second).head?.getD []
            = List.takeWhile (fun c => !decide (c = '=')) second := by
          simpa using strings_SplitN_two_headD '=' second
        simp [hfirst, h2]
    · cases rest with
      | nil => simp [hfirst]
      | cons second more => simp [hfirst]

theorem buildArgsLoop_eq_spec (lines : List (List Char)) (args : List String)
    (htok : ∀ l ∈ lines,
      (strings.Fields l).head? = some "ARG".data → 2 ≤ (strings.Fields l).length) :
    buildArgsLoop lines args = .ok (args ++ lines.filterMap specDeclaredName) := by
  induction lines generalizing args with
  | nil => simp [buildArgsLoop]
  | cons text rest ih =>
    have h1 := buildArgsLine_eq_spec args text (htok text (List.mem_cons_self _ _))
    have h2 := ih (args ++ (specDeclaredName text).toList)
      (fun l hl => htok l (List.mem_cons_of_mem _ hl))
    unfold buildArgsLoop
    rw [h1]
    simp only [h2]
    cases hd : specDeclaredName text <;> simp [List.filterMap_cons, hd]

theorem bufio_Scan_eq_specLines (data : String)
    (hfit : ∀ l ∈ bufio.rawLines data.data, bufio.byteLen l < bufio.MaxScanTokenSize) :
    bufio.Scan data.data = specLines data := by
  unfold bufio.Scan specLines
  rw [List.takeWhile_eq_self_iff.mpr]
  intro l hl
  simpa using hfit l hl

/-- C9, amended: for a readable build file in which every line as the Scanner
reads it (`bufio.rawLines`: the bytes before the line feed, a carriage return
that precedes the line feed counted) has fewer than `bufio.MaxScanTokenSize`
bytes and every line whose first token is `ARG` has a second token,
`buildArgs` returns, in line order, exactly one entry per line whose first
token is `ARG`: the part of its second token before the first `=`; other lines
contribute nothing. -/
theorem buildArgs_eq_spec (ReadFile : String → Except String String)
    (dockerfile data : String) (hread : ReadFile dockerfile = .ok data)
    (hfit : ∀ l ∈ bufio.rawLines data.data, bufio.byteLen l < bufio.MaxScanTokenSize)
    (htok : ∀ l ∈ specLines data,
      (strings.Fields l).head? = some "ARG".data → 2 ≤ (strings.Fields l).length) :
    buildArgs ReadFile dockerfile = .ok ((specLines data).filterMap specDeclaredName) := by
  unfold buildArgs
  rw [hread]
  simp only [bufio_Scan_eq_specLines data hfit]
  simpa using buildArgsLoop_eq_spec (specLines data) [] htok

/-- C9, the example of the claim: `ARG VERSION=1.0` / `ARG TOKEN` gives
`["VERSION", "TOKEN"]`. -/
theorem buildArgs_eq_spec_witness :
    (specLines "ARG VERSION=1.0\nARG TOKEN").filterMap specDeclaredName = ["VERSION", "TOKEN"] ∧
    buildArgs (fun _ => .ok "ARG VERSION=1.0\nARG TOKEN") "Dockerfile"
      = .ok ((specLines "ARG VERSION=1.0\nARG TOKEN").filterMap specDeclaredName) :=
  ⟨by decide,
    buildArgs_eq_spec (fun _ => .ok "ARG VERSION=1.0\nARG TOKEN") "Dockerfile"
      "ARG VERSION=1.0\nARG TOKEN" rfl (by decide) (by decide)⟩

theorem strings_Split_replicate (n : Nat) (rest : List Char) :
    strings.Split '\n' (List.replicate n 'a' ++ '\n' :: rest)
      = List.replicate n 'a' :: strings.Split '\n' rest := by
  induction n with
  | zero => simp [strings.Split]
  | succ n ih =>
    rw [List.replicate_succ, List.cons_append, strings.Split, ih]
    simp

theorem byteLen_replicate (n : Nat) : bufio.byteLen (List.replicate n 'a') = n := by
  induction n with
  | zero => rfl
  | succ n ih =>
    unfold bufio.byteLen at ih ⊢
    rw [List.replicate_succ, List.map_cons, List.sum_cons, ih]
    have h : Char.utf8Size 'a' = 1 := by decide
    omega

theorem dropCR_replicate (n : Nat) :
    bufio.dropCR (List.replicate n 'a') = List.replicate n 'a' := by
  unfold bufio.dropCR
  split
  · rename_i h
    have hmem := List.mem_of_getLast?_eq_some h
    exact absurd (List.eq_of_mem_replicate hmem) (by decide)
  · rfl

theorem strings_FieldsAux_no_space (l cur : List Char)
    (h : ∀ c ∈ l, strings.IsSpace c = false) (hne : l ≠ [] ∨ cur ≠ []) :
    strings.FieldsAux l cur = [cur.reverse ++ l] := by
  induction l generalizing cur with
  | nil =>
    have hcur : cur ≠ [] := hne.resolve_left (by simp)
    simp [strings.FieldsAux, hcur]
  | cons c cs ih =>
    have hc : strings.IsSpace c = false := h c (List.mem_cons_self _ _)
    unfold strings.FieldsAux
    simp only [hc]
    rw [ih (c :: cur) (fun d hd => h d (List.mem_cons_of_mem _ hd)) (Or.inr (by simp))]
    simp

theorem strings_Fields_replicate (n : Nat) (hn : 0 < n) :
    strings.Fields (List.replicate n 'a') = [List.replicate n 'a'] := by
  unfold strings.Fields
  rw [strings_FieldsAux_no_space]
  · simp
  · intro c hc
    rw [List.eq_of_mem_replicate hc]
    decide
  · left
    cases n with
    | zero => omega
    | succ n => simp [List.replicate_succ]

theorem rawLines_longLineFile (n : Nat) :
    bufio.rawLines (longLineFile n).data = [List.replicate n 'a', "ARG X".data] := by
  have h1 : (longLineFile n).data = List.replicate n 'a' ++ '\n' :: "ARG X".data := rfl
  have h2 : strings.Split '\n' "ARG X".data = ["ARG X".data] := by decide
  unfold bufio.rawLines
  simp only [h1, strings_Split_replicate, h2]
  have h3 : [List.replicate n 'a', "ARG X".data].getLast? ≠ some [] := by
    rw [List.getLast?_cons_cons]
    decide
  simp only [h3, if_false]

theorem specLines_longLineFile (n : Nat) :
    specLines (longLineFile n) = [List.replicate n 'a', "ARG X".data] := by
  have h : bufio.dropCR "ARG X".data = "ARG X".data := by decide
  unfold specLines
  rw [rawLines_longLineFile]
  simp only [List.map_cons, List.map_nil, dropCR_replicate, h]

theorem buildArgs_longLineFile (n : Nat) (hn : bufio.MaxScanTokenSize ≤ n) :
    (∀ l ∈ specLines (longLineFile n),
      (strings.Fields l).head? = some "ARG".data → 2 ≤ (strings.Fields l).length) ∧
    (specLines (longLineFile n)).filterMap specDeclaredName = ["X"] ∧
    buildArgs (fun _ => .ok (longLineFile n)) "Dockerfile" = .ok [] := by
  have hpos : 0 < n := Nat.lt_of_lt_of_le (by decide) hn
  have hfields := strings_Fields_replicate n hpos
  have hx : strings.Fields "ARG X".data = ["ARG".data, "X".data] := by decide
  refine ⟨?_, ?_, ?_⟩
  · rw [specLines_longLineFile]
    intro l hl
    simp only [List.mem_cons, List.mem_singleton, List.not_mem_nil, or_false] at hl
    rcases hl with rfl | rfl
    · rw [hfields]
      intro h
      exfalso
      simp only [List.head?_cons, Option.some.injEq] at h
      have hlen : n = 3 := by simpa using congrArg List.length h
      have h4 : 3 < bufio.MaxScanTokenSize := by decide
      omega
    · rw [hx]
      intro _
      simp
  · rw [specLines_longLineFile]
    have h1 : specDeclaredName (List.replicate n 'a') = none := by
      unfold specDeclaredName
      rw [hfields]
    have h2 : specDeclaredName "ARG X".data = some "X" := by decide
    simp [List.filterMap_cons, h1, h2]
  · unfold buildArgs bufio.Scan
    simp only [rawLines_longLineFile]
    have hnot : ¬ bufio.byteLen (List.replicate n 'a') < bufio.MaxScanTokenSize := by
      rw [byteLen_replicate]
      omega
    simp [List.takeWhile_cons, hnot, buildArgsLoop]

/-- C9, counterexample: a build file whose first line has 65536 letters and
whose second line is `ARG X`.  Every `ARG` line has a second token and the
lines declare `X`, but the Scanner stops at the first line and `buildArgs`
returns no name. -/
theorem buildArgs_long_line_counterexample :
    (∀ l ∈ specLines (longLineFile 65536),
      (strings.Fields l).head? = some "ARG".data → 2 ≤ (strings.Fields l).length) ∧
    (specLines (longLineFile 65536)).filterMap specDeclaredName = ["X"] ∧
    buildArgs (fun _ => .ok (longLineFile 65536)) "Dockerfile" = .ok [] :=
  buildArgs_longLineFile 65536 (by decide)

theorem strings_Split_replicate_cr (n : Nat) (rest : List Char) :
    strings.Split '\n' (List.replicate n 'a' ++ '\r' :: '\n' :: rest)
      = (List.replicate n 'a' ++ ['\r']) :: strings.Split '\n' rest := by
  induction n with
  | zero => simp [strings.Split]
  | succ n ih =>
    rw [List.replicate_succ, List.cons_append, strings.Split, ih]
    simp

theorem byteLen_replicate_cr (n : Nat) :
    bufio.byteLen (List.replicate n 'a' ++ ['\r']) = n + 1 := by
  have h := byteLen_replicate n
  unfold bufio.byteLen at h ⊢
  rw [List.map_append, List.sum_append, h]
  rfl

theorem dropCR_replicate_cr (n : Nat) :
    bufio.dropCR (List.replicate n 'a' ++ ['\r']) = List.replicate n 'a' := by
  unfold bufio.dropCR
  simp

theorem rawLines_crLineFile (n : Nat) :
    bufio.rawLines (crLineFile n).data = [List.replicate n 'a' ++ ['\r'], "ARG X".data] := by
  have h1 : (crLineFile n).data = List.replicate n 'a' ++ '\r' :: '\n' :: "ARG X".data := rfl
  have h2 : strings.Split '\n' "ARG X".data = ["ARG X".data] := by decide
  unfold bufio.rawLines
  simp only [h1, strings_Split_replicate_cr, h2]
  have h3 : [List.replicate n 'a' ++ ['\r'], "ARG X".data].getLast? ≠ some [] := by
    rw [List.getLast?_cons_cons]
    decide
  simp only [h3, if_false]

theorem specLines_crLineFile (n : Nat) :
    specLines (crLineFile n) = [List.replicate n 'a', "ARG X".data] := by
  have h : bufio.dropCR "ARG X".data = "ARG X".data := by decide
  unfold specLines
  rw [rawLines_crLineFile]
  simp only [List.map_cons, List.map_nil, dropCR_replicate_cr, h]

/-- The carriage return of a line counts for the Scanner: in a build file
whose first line has `n` letters before its carriage return and line feed,
with `n + 1` equal to `bufio.MaxScanTokenSize`, every line without its line
ending is shorter than `bufio.MaxScanTokenSize` bytes and the lines declare
`X`, but the first line does not fit the buffer and `buildArgs` returns no
name. -/
theorem buildArgs_crLineFile (n : Nat) (hn : n + 1 = bufio.MaxScanTokenSize) :
    (∀ l ∈ specLines (crLineFile n), bufio.byteLen l < bufio.MaxScanTokenSize) ∧
    (∀ l ∈ specLines (crLineFile n),
      (strings.Fields l).head? = some "ARG".data → 2 ≤ (strings.Fields l).length) ∧
    (specLines (crLineFile n)).filterMap specDeclaredName = ["X"] ∧
    buildArgs (fun _ => .ok (crLineFile n)) "Dockerfile" = .ok [] := by
  have hmax : 5 < bufio.MaxScanTokenSize := by decide
  have hpos : 0 < n := by omega
  have hfields := strings_Fields_replicate n hpos
  have hx : strings.Fields "ARG X".data = ["ARG".data, "X".data] := by decide
  have hlenx : bufio.byteLen "ARG X".data = 5 := by decide
  refine ⟨?_, ?_, ?_, ?_⟩
  · rw [specLines_crLineFile]
    intro l hl
    simp only [List.mem_cons, List.mem_singleton, List.not_mem_nil, or_false] at hl
    rcases hl with rfl | rfl
    · rw [byteLen_replicate]
      omega
    · rw [hlenx]
      exact hmax
  · rw [specLines_crLineFile]
    intro l hl
    simp only [List.mem_cons, List.mem_singleton, List.not_mem_nil, or_false] at hl
    rcases hl with rfl | rfl
    · rw [hfields]
      intro h
      exfalso
      simp only [List.head?_cons, Option.some.injEq] at h
      have hlen : n = 3 := by simpa using congrArg List.length h
      omega
    · rw [hx]
      intro _
      simp
  · rw [specLines_crLineFile]
    have h1 : specDeclaredName (List.replicate n 'a') = none := by
      unfold specDeclaredName
      rw [hfields]
    have h2 : specDeclaredName "ARG X".data = some "X" := by decide
    simp [List.filterMap_cons, h1, h2]
  · unfold buildArgs bufio.Scan
    simp only [rawLines_crLineFile]
    have hnot : ¬ bufio.byteLen (List.replicate n 'a' ++ ['\r']) < bufio.MaxScanTokenSize := by
      rw [byteLen_replicate_cr]
      omega
    simp [List.takeWhile_cons, hnot, buildArgsLoop]

/-- The build file of 65535 letters, a carriage return and a line feed,
followed by `ARG X`: no line without its line ending has 65536 bytes, the
first line with its carriage return has, and `buildArgs` returns no name
although the lines declare `X`. -/
theorem buildArgs_carriage_return_counts :
    (∀ l ∈ specLines (crLineFile 65535), bufio.byteLen l < bufio.MaxScanTokenSize) ∧
    (∀ l ∈ specLines (crLineFile 65535),
      (strings.Fields l).head? = some "ARG".data → 2 ≤ (strings.Fields l).length) ∧
    (specLines (crLineFile 65535)).filterMap specDeclaredName = ["X"] ∧
    buildArgs (fun _ => .ok (crLineFile 65535)) "Dockerfile" = .ok [] :=
  buildArgs_crLineFile 65535 (by decide)

/-! ## Classification (C10) -/

theorem classify_foldl_builds (e : Env) (appName : String) (services : List Service)
    (acc : GoMap (List String) × List Service) :
    (services.foldl (classifyStep e appName) acc).2
      = acc.2 ++ services.filter (fun s => decide (s.Image = "")) := by
  induction services generalizing acc with
  | nil => simp
  | cons s rest ih =>
    rw [List.foldl_cons, ih]
    by_cases h : s.Image = ""
    · simp [classifyStep, h]
    · simp [classifyStep, h]

/-- The number of destination tags recorded in the map `pulls`. -/
theorem totalTags_set_append (m : GoMap (List String)) (k t : String) :
    ((m.set k ((m.get? k).getD [] ++ [t])).map (fun kv => kv.2.length)).sum
      = (m.map (fun kv => kv.2.length)).sum + 1 := by
  induction m with
  | nil => simp [GoMap.set, GoMap.get?]
  | cons kv m ih =>
    obtain ⟨k1, v1⟩ := kv
    by_cases h : k1 = k
    · simp [GoMap.set, GoMap.get?, h]
      omega
    · simp only [GoMap.set, GoMap.get?, h, if_false, List.map_cons, List.sum_cons, ih]
      omega

theorem classify_foldl_totalTags (e : Env) (appName : String) (services : List Service)
    (acc : GoMap (List String) × List Service) :
    (((services.foldl (classifyStep e appName) acc).1).map (fun kv => kv.2.length)).sum
      = (acc.1.map (fun kv => kv.2.length)).sum
        + (services.filter (fun s => decide (s.Image ≠ ""))).length := by
  induction services generalizing acc with
  | nil => simp
  | cons s rest ih =>
    rw [List.foldl_cons, ih]
    by_cases h : s.Image = ""
    · simp [classifyStep, h]
    · simp [classifyStep, h, totalTags_set_append]
      omega

theorem classify_foldl_get?_mono (e : Env) (appName : String) (services : List Service)
    (acc : GoMap (List String) × List Service) (k t : String) (tags : List String)
    (hk : acc.1.get? k = some tags) (ht : t ∈ tags) :
    ∃ tags1, (services.foldl (classifyStep e appName) acc).1.get? k = some tags1 ∧ t ∈ tags1 := by
  induction services generalizing acc tags with
  | nil => exact ⟨tags, hk, ht⟩
  | cons s rest ih =>
    rw [List.foldl_cons]
    by_cases h : s.Image = ""
    · exact ih _ tags (by simpa [classifyStep, h] using hk) ht
    · by_cases hkey : normalizeImage s.Image = k
      · refine ih _ (tags ++ [e.Tag s appName]) ?_ (List.mem_append_left _ ht)
        simp [classifyStep, h, hkey, GoMap_get?_set_self, hk]
      · refine ih _ tags ?_ ht
        simp [classifyStep, h, GoMap_get?_set_ne _ _ _ _ hkey, hk]

theorem classify_foldl_recorded (e : Env) (appName : String) (services : List Service)
    (acc : GoMap (List String) × List Service) (s : Service) (hs : s ∈ services)
    (himage : s.Image ≠ "") :
    ∃ tags, (services.foldl (classifyStep e appName) acc).1.get? (normalizeImage s.Image)
        = some tags ∧ e.Tag s appName ∈ tags := by
  induction services generalizing acc with
  | nil => simp at hs
  | cons s1 rest ih =>
    rw [List.foldl_cons]
    rcases List.mem_cons.mp hs with rfl | hrest
    · refine classify_foldl_get?_mono e appName rest _ _ (e.Tag s appName)
        ((acc.1.get? (normalizeImage s.Image)).getD [] ++ [e.Tag s appName]) ?_ (by simp)
      simp [classifyStep, himage, GoMap_get?_set_self]
    · exact ih _ hrest

/-- C10: classification looks at the image reference only.  The build list is
exactly the resolved services with an empty `Image`, in resolved order; a
service with a non-empty `Image` has its destination tag recorded in the pull
aggregation under its normalized reference and is not in the build list,
whatever its build spec; and the pull aggregation holds one tag per service
with a non-empty `Image`, so each resolved service is counted in exactly one
of the two. -/
theorem classify_partition (e : Env) (appName : String) (services : List Service) :
    (classify e appName services).2 = services.filter (fun s => decide (s.Image = "")) ∧
    (∀ s ∈ services, s.Image ≠ "" →
      s ∉ (classify e appName services).2 ∧
      ∃ tags, (classify e appName services).1.get? (normalizeImage s.Image) = some tags ∧
        e.Tag s appName ∈ tags) ∧
    (∀ s ∈ services, s.Image = "" → s ∈ (classify e appName services).2) ∧
    (((classify e appName services).1).map (fun kv => kv.2.length)).sum
        = (services.filter (fun s => decide (s.Image ≠ ""))).length ∧
    (((classify e appName services).1).map (fun kv => kv.2.length)).sum
        + (classify e appName services).2.length = services.length := by
  have hb : (classify e appName services).2
      = services.filter (fun s => decide (s.Image = "")) := by
    simpa [classify] using classify_foldl_builds e appName services ([], [])
  have ht : (((classify e appName services).1).map (fun kv => kv.2.length)).sum
      = (services.filter (fun s => decide (s.Image ≠ ""))).length := by
    simpa [classify] using classify_foldl_totalTags e appName services ([], [])
  refine ⟨hb, ?_, ?_, ht, ?_⟩
  · intro s hs himage
    refine ⟨?_, classify_foldl_recorded e appName services ([], []) s hs himage⟩
    rw [hb]
    simp [himage]
  · intro s hs himage
    rw [hb]
    simp [hs, himage]
  · rw [ht, hb]
    have h := List.length_eq_length_filter_add (l := services)
      (fun s : Service => decide (s.Image ≠ ""))
    simp only [decide_not, Bool.not_not] at h ⊢
    omega

/-- C10 on an example: of three resolved services the one with an image (and a
build spec as well) is recorded for pulling and the other two, in order, are
the build list. -/
theorem classify_partition_witness :
    classify (exampleEnv (fun _ => .ok "") (fun _ _ => none) (fun _ _ => .ok "")) "app"
        [exampleBuilt "a" ".", ⟨"w", "nginx", "Dockerfile.w", ⟨"ctx", "Dockerfile.b"⟩⟩,
          exampleBuilt "b" "."]
      = ([("nginx:latest", ["app/w"])], [exampleBuilt "a" ".", exampleBuilt "b" "."]) ∧
    (classify (exampleEnv (fun _ => .ok "") (fun _ _ => none) (fun _ _ => .ok "")) "app"
        [exampleBuilt "a" ".", ⟨"w", "nginx", "Dockerfile.w", ⟨"ctx", "Dockerfile.b"⟩⟩,
          exampleBuilt "b" "."]).2
      = [exampleBuilt "a" ".", ⟨"w", "nginx", "Dockerfile.w", ⟨"ctx", "Dockerfile.b"⟩⟩,
          exampleBuilt "b" "."].filter (fun s => decide (s.Image = "")) :=
  ⟨by decide,
    (classify_partition (exampleEnv (fun _ => .ok "") (fun _ _ => none) (fun _ _ => .ok ""))
      "app" [exampleBuilt "a" ".", ⟨"w", "nginx", "Dockerfile.w", ⟨"ctx", "Dockerfile.b"⟩⟩,
        exampleBuilt "b" "."]).1⟩

/-! ## Context and dockerfile of a build (C7) -/

/-- C7: the context of a build is the working directory joined with the
declared `Build.Context`, or with "." when that is empty; the dockerfile is
that context joined with the first non-empty of `Build.Dockerfile`,
`Service.Dockerfile` and "Dockerfile", so the override of the build spec wins
over that of the service; and these two paths are what the build command
carries after `-f` and as its last argument. -/
theorem build_paths (e : Env) (dir appName : String) (opts : BuildOptions)
    (service : Service) (bargs : List String) :
    buildContext e dir service
      = e.Join dir (if service.Build.Context = "" then "." else service.Build.Context) ∧
    buildDockerfile e dir service
      = e.Join (e.Join dir (if service.Build.Context = "" then "." else service.Build.Context))
          (if service.Build.Dockerfile ≠ "" then service.Build.Dockerfile
            else if service.Dockerfile ≠ "" then service.Dockerfile else "Dockerfile") ∧
    ∃ front, buildCommand e dir appName opts service bargs
      = front ++ ["-f", buildDockerfile e dir service, "-t", e.Tag service appName,
          buildContext e dir service] := by
  refine ⟨?_, ?_, ?_⟩
  · unfold buildContext coalesce
    by_cases h : service.Build.Context = "" <;> simp [h]
  · unfold buildDockerfile buildContext coalesce
    by_cases h : service.Build.Context = "" <;>
      by_cases h1 : service.Build.Dockerfile = "" <;>
        by_cases h2 : service.Dockerfile = "" <;> simp [h, h1, h2]
  · unfold buildCommand
    refine ⟨bargs.foldl (buildArgFlag e opts)
      (if (!opts.Cache) = true then ["build"] ++ ["--no-cache"] else ["build"]), ?_⟩
    simp [List.append_assoc]

/-- C7 on examples: with both overrides set the one of the build spec is used;
with none the default name in the default context. -/
theorem build_paths_witness :
    buildDockerfile (exampleEnv (fun _ => .ok "") (fun _ _ => none) (fun _ _ => .ok "")) "/src"
        ⟨"web", "", "Dockerfile.service", ⟨"sub", "Dockerfile.build"⟩⟩
      = "/src/sub/Dockerfile.build" ∧
    buildDockerfile (exampleEnv (fun _ => .ok "") (fun _ _ => none) (fun _ _ => .ok "")) "/src"
        ⟨"web", "", "Dockerfile.service", ⟨"", ""⟩⟩
      = "/src/Dockerfile.service" ∧
    buildDockerfile (exampleEnv (fun _ => .ok "") (fun _ _ => none) (fun _ _ => .ok "")) "/src"
        ⟨"web", "", "", ⟨"", ""⟩⟩
      = "/src/Dockerfile" ∧
    buildContext (exampleEnv (fun _ => .ok "") (fun _ _ => none) (fun _ _ => .ok "")) "/src"
        ⟨"web", "", "", ⟨"", ""⟩⟩
      = (exampleEnv (fun _ => .ok "") (fun _ _ => none) (fun _ _ => .ok "")).Join "/src" "." :=
  ⟨by decide, by decide, by decide,
    (build_paths (exampleEnv (fun _ => .ok "") (fun _ _ => none) (fun _ _ => .ok "")) "/src"
      "app" (exampleOpts true (fun _ => none)) ⟨"web", "", "", ⟨"", ""⟩⟩ []).1⟩

/-! ## The runner calls of a run -/

theorem append_singleton_eq_append_cons {α : Type} (l pre post : List α) (c x : α)
    (h : l ++ [c] = pre ++ x :: post) :
    (post = [] ∧ pre = l ∧ x = c) ∨ ∃ post1, post = post1 ++ [c] ∧ l = pre ++ x :: post1 := by
  rcases List.eq_nil_or_concat post with rfl | ⟨post1, y, rfl⟩
  · left
    have h2 : l ++ [c] = pre ++ [x] := h
    obtain ⟨h3, h4⟩ := List.append_inj' h2 rfl
    exact ⟨rfl, h3.symm, by simpa using h4.symm⟩
  · right
    have h2 : l ++ [c] = (pre ++ x :: post1) ++ [y] := by simpa using h
    obtain ⟨h3, h4⟩ := List.append_inj' h2 rfl
    refine ⟨post1, ?_, h3⟩
    have : c = y := by simpa using h4
    rw [this, List.concat_eq_append]

theorem State_call_calls (st : State) (via : Via) (args : List String) :
    (st.call via args).calls = st.calls ++ [⟨via, args⟩] := rfl

theorem State_print_calls (st : State) (line : String) : (st.print line).calls = st.calls := rfl

/-- The ways one pass of the `tag` loop of lines 104-108 can go. -/
theorem tagAll_cons_cases (e : Env) (image tag : String) (rest : List String) (st : State) :
    (∃ err, e.Run st.calls ["tag", image, tag] = some err ∧
      tagAll e image (tag :: rest) st
        = (st.call .Run ["tag", image, tag], .err ("build error: " ++ err))) ∨
    (e.Run st.calls ["tag", image, tag] = none ∧
      tagAll e image (tag :: rest) st
        = tagAll e image rest (st.call .Run ["tag", image, tag])) := by
  cases h : e.Run st.calls ["tag", image, tag] with
  | some err => exact Or.inl ⟨err, rfl, by simp [tagAll, h]⟩
  | none => exact Or.inr ⟨rfl, by simp [tagAll, h]⟩

/-- The ways the body of the third loop can go: the inspection fails; the
pull is made and fails; the pull is made and the tags follow; no pull is made
and the tags follow. -/
theorem pullImage_cases (e : Env) (opts : BuildOptions) (image : String)
    (tags : List String) (st : State) :
    (∃ err, e.CombinedOutput st.calls ["images", "-q", image] = .error err ∧
      pullImage e opts image tags st
        = (st.call .CombinedOutput ["images", "-q", image], .err err)) ∨
    (∃ output err, e.CombinedOutput st.calls ["images", "-q", image] = .ok output ∧
      (opts.Cache = false ∨ output.length = 0) ∧
      e.Run (st.calls ++ [inspectCall image]) ["pull", image] = some err ∧
      pullImage e opts image tags st
        = ((st.call .CombinedOutput ["images", "-q", image]).call .Run ["pull", image],
            .err ("build error: " ++ err))) ∨
    (∃ output, e.CombinedOutput st.calls ["images", "-q", image] = .ok output ∧
      (opts.Cache = false ∨ output.length = 0) ∧
      e.Run (st.calls ++ [inspectCall image]) ["pull", image] = none ∧
      pullImage e opts image tags st
        = tagAll e image tags
            ((st.call .CombinedOutput ["images", "-q", image]).call .Run ["pull", image])) ∨
    (∃ output, e.CombinedOutput st.calls ["images", "-q", image] = .ok output ∧
      ¬ (opts.Cache = false ∨ output.length = 0) ∧
      pullImage e opts image tags st
        = tagAll e image tags (st.call .CombinedOutput ["images", "-q", image])) := by
  cases h : e.CombinedOutput st.calls ["images", "-q", image] with
  | error err => exact Or.inl ⟨err, rfl, by simp [pullImage, h]⟩
  | ok output =>
    right
    by_cases hc : opts.Cache = false ∨ output.length = 0
    · have hc2 : (!opts.Cache || output.length == 0) = true := by
        rcases hc with hc | hc <;> simp [hc]
      cases h2 : e.Run (st.calls ++ [inspectCall image]) ["pull", image] with
      | some err =>
        refine Or.inl ⟨output, err, rfl, hc, rfl, ?_⟩
        have h3 : e.Run (st.call .CombinedOutput ["images", "-q", image]).calls ["pull", image]
            = some err := h2
        simp [pullImage, h, hc2, h3]
      | none =>
        refine Or.inr (Or.inl ⟨output, rfl, hc, rfl, ?_⟩)
        have h3 : e.Run (st.call .CombinedOutput ["images", "-q", image]).calls ["pull", image]
            = none := h2
        simp [pullImage, h, hc2, h3]
    · refine Or.inr (Or.inr ⟨output, rfl, hc, ?_⟩)
      have hc2 : ¬ (!opts.Cache || output.length == 0) = true := by
        intro h3
        apply hc
        simpa using h3
      simp [pullImage, h, hc2]

/-- The ways the body of the second loop can go: a cached signature and the
re-tag fails or succeeds; `buildArgs` returns an error or panics; the build
fails or succeeds. -/
theorem buildService_cases (e : Env) (dir appName : String) (opts : BuildOptions)
    (service : Service) (buildCache : GoMap String) (st : State) :
    (∃ bc err, buildCache.get? (e.Hash service.Build) = some bc ∧
      e.Run st.calls ["tag", bc, e.Tag service appName] = some err ∧
      buildService e dir appName opts service buildCache st
        = (st.call .Run ["tag", bc, e.Tag service appName],
            .err ("build error: " ++ err))) ∨
    (∃ bc, buildCache.get? (e.Hash service.Build) = some bc ∧
      e.Run st.calls ["tag", bc, e.Tag service appName] = none ∧
      buildService e dir appName opts service buildCache st
        = (st.call .Run ["tag", bc, e.Tag service appName], .ok buildCache)) ∨
    (∃ msg st1, buildCache.get? (e.Hash service.Build) = none ∧
      buildArgs e.ReadFile (buildDockerfile e dir service) = .err msg ∧
      st1.calls = st.calls ∧
      buildService e dir appName opts service buildCache st = (st1, .err msg)) ∨
    (∃ msg st1, buildCache.get? (e.Hash service.Build) = none ∧
      buildArgs e.ReadFile (buildDockerfile e dir service) = .panic msg ∧
      st1.calls = st.calls ∧
      buildService e dir appName opts service buildCache st = (st1, .panic msg)) ∨
    (∃ bargs err st1, buildCache.get? (e.Hash service.Build) = none ∧
      buildArgs e.ReadFile (buildDockerfile e dir service) = .ok bargs ∧
      e.Run st.calls (buildCommand e dir appName opts service bargs) = some err ∧
      st1.calls = st.calls ++ [⟨.Run, buildCommand e dir appName opts service bargs⟩] ∧
      buildService e dir appName opts service buildCache st
        = (st1, .err ("build error: " ++ err))) ∨
    (∃ bargs st1, buildCache.get? (e.Hash service.Build) = none ∧
      buildArgs e.ReadFile (buildDockerfile e dir service) = .ok bargs ∧
      e.Run st.calls (buildCommand e dir appName opts service bargs) = none ∧
      st1.calls = st.calls ++ [⟨.Run, buildCommand e dir appName opts service bargs⟩] ∧
      buildService e dir appName opts service buildCache st
        = (st1, .ok (buildCache.set (e.Hash service.Build) (e.Tag service appName)))) := by
  cases hc : buildCache.get? (e.Hash service.Build) with
  | some bc =>
    cases h : e.Run st.calls ["tag", bc, e.Tag service appName] with
    | some err => exact Or.inl ⟨bc, err, rfl, h, by simp [buildService, hc, h]⟩
    | none => exact Or.inr (Or.inl ⟨bc, rfl, h, by simp [buildService, hc, h]⟩)
  | none =>
    right; right
    cases hb : buildArgs e.ReadFile (buildDockerfile e dir service) with
    | err msg =>
      exact Or.inl ⟨msg, (st.print ("context = " ++ buildContext e dir service ++ "\n")).print
        ("dockerFile = " ++ buildDockerfile e dir service ++ "\n"), rfl, rfl, rfl,
        by simp [buildService, hc, hb]⟩
    | panic msg =>
      exact Or.inr (Or.inl ⟨msg,
        (st.print ("context = " ++ buildContext e dir service ++ "\n")).print
          ("dockerFile = " ++ buildDockerfile e dir service ++ "\n"), rfl, rfl, rfl,
        by simp [buildService, hc, hb]⟩)
    | ok bargs =>
      right; right
      cases h : e.Run st.calls (buildCommand e dir appName opts service bargs) with
      | some err =>
        exact Or.inl ⟨bargs, err,
          ((st.print ("context = " ++ buildContext e dir service ++ "\n")).print
            ("dockerFile = " ++ buildDockerfile e dir service ++ "\n")).call .Run
            (buildCommand e dir appName opts service bargs), rfl, rfl, h, rfl,
          by simp [buildService, hc, hb, State_print_calls, h]⟩
      | none =>
        exact Or.inr ⟨bargs,
          ((st.print ("context = " ++ buildContext e dir service ++ "\n")).print
            ("dockerFile = " ++ buildDockerfile e dir service ++ "\n")).call .Run
            (buildCommand e dir appName opts service bargs), rfl, rfl, h, rfl,
          by simp [buildService, hc, hb, State_print_calls, h]⟩

theorem runBuilds_cons_ok (e : Env) (dir appName : String) (opts : BuildOptions)
    (service : Service) (rest : List Service) (buildCache cache1 : GoMap String)
    (st st1 : State)
    (h : buildService e dir appName opts service buildCache st = (st1, .ok cache1)) :
    runBuilds e dir appName opts (service :: rest) buildCache st
      = runBuilds e dir appName opts rest cache1 st1 := by
  simp [runBuilds, h]

theorem runBuilds_cons_err (e : Env) (dir appName : String) (opts : BuildOptions)
    (service : Service) (rest : List Service) (buildCache : GoMap String)
    (st st1 : State) (msg : String)
    (h : buildService e dir appName opts service buildCache st = (st1, .err msg)) :
    runBuilds e dir appName opts (service :: rest) buildCache st = (st1, .err msg) := by
  simp [runBuilds, h]

theorem runBuilds_cons_panic (e : Env) (dir appName : String) (opts : BuildOptions)
    (service : Service) (rest : List Service) (buildCache : GoMap String)
    (st st1 : State) (msg : String)
    (h : buildService e dir appName opts service buildCache st = (st1, .panic msg)) :
    runBuilds e dir appName opts (service :: rest) buildCache st = (st1, .panic msg) := by
  simp [runBuilds, h]

theorem runPulls_cons_ok (e : Env) (opts : BuildOptions) (image : String)
    (tags : List String) (rest : GoMap (List String)) (st st1 : State) (u : Unit)
    (h : pullImage e opts image tags st = (st1, .ok u)) :
    runPulls e opts ((image, tags) :: rest) st = runPulls e opts rest st1 := by
  simp [runPulls, h]

theorem runPulls_cons_not_ok (e : Env) (opts : BuildOptions) (image : String)
    (tags : List String) (rest : GoMap (List String)) (st st1 : State) (r : Outcome Unit)
    (h : pullImage e opts image tags st = (st1, r)) (hr : ∀ u, r ≠ .ok u) :
    runPulls e opts ((image, tags) :: rest) st = (st1, r) := by
  cases r with
  | ok u => exact absurd rfl (hr u)
  | err msg => simp [runPulls, h]
  | panic msg => simp [runPulls, h]

/-! ## A failed call ends the run (C4) -/

theorem AllOk_nil (e : Env) : AllOk e [] := by
  intro pre c post h
  simp at h

theorem AllOk_snoc (e : Env) (l : List Call) (c : Call) (hl : AllOk e l)
    (hc : failed e l c = false) : AllOk e (l ++ [c]) := by
  intro pre x post h
  rcases append_singleton_eq_append_cons l pre post c x h with ⟨_, rfl, rfl⟩ | ⟨post1, _, h2⟩
  · exact hc
  · exact hl pre x post1 h2

theorem Sound_of_AllOk {α : Type} (e : Env) (l : List Call) (r : Outcome α)
    (hl : AllOk e l) : Sound e l r := by
  refine ⟨?_, fun _ _ => hl⟩
  intro pre c post h hf
  rw [hl pre c post h] at hf
  exact absurd hf (by simp)

theorem Sound_snoc_err {α : Type} (e : Env) (l : List Call) (c : Call) (msg : String)
    (hl : AllOk e l) : Sound e (l ++ [c]) (Outcome.err msg : Outcome α) := by
  refine ⟨?_, fun v hv => by simp at hv⟩
  intro pre x post h hf
  rcases append_singleton_eq_append_cons l pre post c x h with ⟨hp, _, _⟩ | ⟨post1, _, h2⟩
  · exact ⟨hp, msg, rfl⟩
  · rw [hl pre x post1 h2] at hf
    exact absurd hf (by simp)

theorem failed_Run_none (e : Env) (l : List Call) (args : List String)
    (h : e.Run l args = none) : failed e l ⟨.Run, args⟩ = false := by
  simp [failed, h]

theorem tagAll_Sound (e : Env) (image : String) (tags : List String) (st : State)
    (hst : AllOk e st.calls) :
    Sound e (tagAll e image tags st).1.calls (tagAll e image tags st).2 := by
  induction tags generalizing st with
  | nil => exact Sound_of_AllOk e _ _ hst
  | cons tag rest ih =>
    rcases tagAll_cons_cases e image tag rest st with ⟨err, _, h⟩ | ⟨hrun, h⟩
    · rw [h]
      exact Sound_snoc_err e _ _ _ hst
    · rw [h]
      exact ih _ (AllOk_snoc e _ _ hst (failed_Run_none e _ _ hrun))

theorem pullImage_Sound (e : Env) (opts : BuildOptions) (image : String)
    (tags : List String) (st : State) (hst : AllOk e st.calls) :
    Sound e (pullImage e opts image tags st).1.calls (pullImage e opts image tags st).2 := by
  have hinspect : ∀ output, e.CombinedOutput st.calls ["images", "-q", image] = .ok output →
      AllOk e (st.call .CombinedOutput ["images", "-q", image]).calls := by
    intro output h
    exact AllOk_snoc e _ _ hst (by simp [failed, h])
  rcases pullImage_cases e opts image tags st with
    ⟨err, _, h⟩ | ⟨output, err, hout, _, _, h⟩ | ⟨output, hout, _, hrun, h⟩ | ⟨output, hout, _, h⟩
  · rw [h]
    exact Sound_snoc_err e _ _ _ hst
  · rw [h]
    exact Sound_snoc_err e _ _ _ (hinspect output hout)
  · rw [h]
    exact tagAll_Sound e image tags _
      (AllOk_snoc e _ _ (hinspect output hout) (failed_Run_none e _ _ hrun))
  · rw [h]
    exact tagAll_Sound e image tags _ (hinspect output hout)

theorem runPulls_Sound (e : Env) (opts : BuildOptions) (pulls : GoMap (List String))
    (st : State) (hst : AllOk e st.calls) :
    Sound e (runPulls e opts pulls st).1.calls (runPulls e opts pulls st).2 := by
  induction pulls generalizing st with
  | nil => exact Sound_of_AllOk e _ _ hst
  | cons kv rest ih =>
    obtain ⟨image, tags⟩ := kv
    have h := pullImage_Sound e opts image tags st hst
    cases hr : pullImage e opts image tags st with
    | mk st1 r =>
      rw [hr] at h
      cases r with
      | ok u =>
        rw [runPulls_cons_ok e opts image tags rest st st1 u hr]
        exact ih st1 (h.2 u rfl)
      | err msg =>
        rw [runPulls_cons_not_ok e opts image tags rest st st1 _ hr (by simp)]
        exact h
      | panic msg =>
        rw [runPulls_cons_not_ok e opts image tags rest st st1 _ hr (by simp)]
        exact h

theorem buildService_Sound (e : Env) (dir appName : String) (opts : BuildOptions)
    (service : Service) (buildCache : GoMap String) (st : State) (hst : AllOk e st.calls) :
    Sound e (buildService e dir appName opts service buildCache st).1.calls
      (buildService e dir appName opts service buildCache st).2 := by
  rcases buildService_cases e dir appName opts service buildCache st with
    ⟨bc, err, _, _, h⟩ | ⟨bc, _, hrun, h⟩ | ⟨msg, st1, _, _, hst1, h⟩ |
    ⟨msg, st1, _, _, hst1, h⟩ | ⟨bargs, err, st1, _, _, _, hst1, h⟩ |
    ⟨bargs, st1, _, _, hrun, hst1, h⟩
  · rw [h]
    exact Sound_snoc_err e _ _ _ hst
  · rw [h]
    exact Sound_of_AllOk e _ _ (AllOk_snoc e _ _ hst (failed_Run_none e _ _ hrun))
  · rw [h]
    exact Sound_of_AllOk e _ _ (hst1 ▸ hst)
  · rw [h]
    exact Sound_of_AllOk e _ _ (hst1 ▸ hst)
  · rw [h]
    dsimp only
    rw [hst1]
    exact Sound_snoc_err e _ _ _ hst
  · rw [h]
    dsimp only
    rw [hst1]
    exact Sound_of_AllOk e _ _ (AllOk_snoc e _ _ hst (failed_Run_none e _ _ hrun))

theorem runBuilds_Sound (e : Env) (dir appName : String) (opts : BuildOptions)
    (builds : List Service) (buildCache : GoMap String) (st : State)
    (hst : AllOk e st.calls) :
    Sound e (runBuilds e dir appName opts builds buildCache st).1.calls
      (runBuilds e dir appName opts builds buildCache st).2 := by
  induction builds generalizing buildCache st with
  | nil => exact Sound_of_AllOk e _ _ hst
  | cons service rest ih =>
    have h := buildService_Sound e dir appName opts service buildCache st hst
    cases hr : buildService e dir appName opts service buildCache st with
    | mk st1 r =>
      rw [hr] at h
      cases r with
      | ok cache1 =>
        rw [runBuilds_cons_ok e dir appName opts service rest buildCache cache1 st st1 hr]
        exact ih cache1 st1 (h.2 cache1 rfl)
      | err msg =>
        rw [runBuilds_cons_err e dir appName opts service rest buildCache st st1 msg hr]
        exact ⟨fun pre c post hc hf => by
          obtain ⟨h1, m1, _⟩ := h.1 pre c post hc hf
          exact ⟨h1, msg, rfl⟩, fun v hv => by simp at hv⟩
      | panic msg =>
        rw [runBuilds_cons_panic e dir appName opts service rest buildCache st st1 msg hr]
        exact ⟨fun pre c post hc hf => by
          obtain ⟨_, m1, hm⟩ := h.1 pre c post hc hf
          simp at hm, fun v hv => by simp at hv⟩

theorem Build_Sound (m : Manifest) (e : Env) (dir appName : String) (opts : BuildOptions) :
    Sound e (m.Build e dir appName opts).1.calls (m.Build e dir appName opts).2 := by
  unfold Manifest.Build
  cases horder : m.runOrder opts.Service with
  | error err => exact Sound_of_AllOk e _ _ (AllOk_nil e)
  | ok services =>
    dsimp only
    have h := runBuilds_Sound e dir appName opts (classify e appName services).2 []
      ⟨[], []⟩ (AllOk_nil e)
    cases hr : runBuilds e dir appName opts (classify e appName services).2 [] ⟨[], []⟩ with
    | mk st r =>
      rw [hr] at h
      cases r with
      | ok u => exact runPulls_Sound e opts _ st (h.2 u rfl)
      | err msg => exact h
      | panic msg => exact h

/-- C4: if a call that `Build` made of the runner (a build, a re-tag, an
inspection, a pull or a tag) failed, then it is the last call of the trace
(no command is issued after it) and `Build` returns an error. -/
theorem Build_stops_at_failure (m : Manifest) (e : Env) (dir appName : String)
    (opts : BuildOptions) (pre post : List Call) (c : Call)
    (hcalls : (m.Build e dir appName opts).1.calls = pre ++ c :: post)
    (hfailed : failed e pre c = true) :
    post = [] ∧ ∃ msg, (m.Build e dir appName opts).2 = .err msg :=
  (Build_Sound m e dir appName opts).1 pre c post hcalls hfailed

/-- C4 on an example: the services `a` and `b` have the same signature and
`w` runs an external image; the runner fails every `tag`.  The re-tag of `b`
fails, it is the last call, nothing is inspected, pulled or tagged for `w`,
and `Build` returns an error. -/
theorem Build_stops_at_failure_witness :
    ((exampleManifest [exampleBuilt "a" ".", exampleExternal "w" "nginx",
        exampleBuilt "b" "."]).Build
      (exampleEnv (fun _ => .ok "FROM scratch\n") (exampleFailOn "tag") (fun _ _ => .ok ""))
      "/src" "app" (exampleOpts true (fun _ => none))).1.calls
      = [⟨.Run, ["build", "-f", "/src/Dockerfile", "-t", "app/a", "/src"]⟩]
          ++ tagCall "app/a" "app/b" :: [] ∧
    failed (exampleEnv (fun _ => .ok "FROM scratch\n") (exampleFailOn "tag") (fun _ _ => .ok ""))
      [⟨.Run, ["build", "-f", "/src/Dockerfile", "-t", "app/a", "/src"]⟩]
      (tagCall "app/a" "app/b") = true ∧
    (([] : List Call) = [] ∧
      ∃ msg, ((exampleManifest [exampleBuilt "a" ".", exampleExternal "w" "nginx",
          exampleBuilt "b" "."]).Build
        (exampleEnv (fun _ => .ok "FROM scratch\n") (exampleFailOn "tag") (fun _ _ => .ok ""))
        "/src" "app" (exampleOpts true (fun _ => none))).2 = .err msg) :=
  ⟨by decide, by decide,
    Build_stops_at_failure
      (exampleManifest [exampleBuilt "a" ".", exampleExternal "w" "nginx", exampleBuilt "b" "."])
      (exampleEnv (fun _ => .ok "FROM scratch\n") (exampleFailOn "tag") (fun _ _ => .ok ""))
      "/src" "app" (exampleOpts true (fun _ => none))
      [⟨.Run, ["build", "-f", "/src/Dockerfile", "-t", "app/a", "/src"]⟩] []
      (tagCall "app/a" "app/b") (by decide) (by decide)⟩

/-! ## The calls of the two phases -/

theorem tagAll_calls_mem (e : Env) (image : String) (tags : List String) (st : State)
    (c : Call) (hc : c ∈ (tagAll e image tags st).1.calls) :
    c ∈ st.calls ∨ ∃ t ∈ tags, c = tagCall image t := by
  induction tags generalizing st with
  | nil => exact Or.inl hc
  | cons tag rest ih =>
    rcases tagAll_cons_cases e image tag rest st with ⟨err, _, h⟩ | ⟨_, h⟩
    · rw [h] at hc
      rcases List.mem_append.mp hc with h1 | h1
      · exact Or.inl h1
      · exact Or.inr ⟨tag, List.mem_cons_self _ _, by simpa [tagCall] using h1⟩
    · rw [h] at hc
      rcases ih _ hc with h1 | ⟨t, ht, h1⟩
      · rcases List.mem_append.mp h1 with h2 | h2
        · exact Or.inl h2
        · exact Or.inr ⟨tag, List.mem_cons_self _ _, by simpa [tagCall] using h2⟩
      · exact Or.inr ⟨t, List.mem_cons_of_mem _ ht, h1⟩

theorem pullImage_calls_mem (e : Env) (opts : BuildOptions) (image : String)
    (tags : List String) (st : State) (c : Call)
    (hc : c ∈ (pullImage e opts image tags st).1.calls) :
    c ∈ st.calls ∨ c = inspectCall image ∨ c = pullCall image ∨
      ∃ t ∈ tags, c = tagCall image t := by
  have hmem : ∀ st1 : State,
      (∀ x ∈ st1.calls, x ∈ st.calls ∨ x = inspectCall image ∨ x = pullCall image) →
      c ∈ (tagAll e image tags st1).1.calls →
      c ∈ st.calls ∨ c = inspectCall image ∨ c = pullCall image ∨
        ∃ t ∈ tags, c = tagCall image t := by
    intro st1 h1 h2
    rcases tagAll_calls_mem e image tags st1 c h2 with h3 | h3
    · rcases h1 c h3 with h4 | h4 | h4
      · exact Or.inl h4
      · exact Or.inr (Or.inl h4)
      · exact Or.inr (Or.inr (Or.inl h4))
    · exact Or.inr (Or.inr (Or.inr h3))
  rcases pullImage_cases e opts image tags st with
    ⟨err, _, h⟩ | ⟨output, err, _, _, _, h⟩ | ⟨output, _, _, _, h⟩ | ⟨output, _, _, h⟩
  · rw [h] at hc
    rcases List.mem_append.mp hc with h1 | h1
    · exact Or.inl h1
    · exact Or.inr (Or.inl (by simpa [inspectCall] using h1))
  · rw [h] at hc
    simp only [State_call_calls, List.mem_append, List.mem_singleton] at hc
    rcases hc with (h1 | h1) | h1
    · exact Or.inl h1
    · exact Or.inr (Or.inl h1)
    · exact Or.inr (Or.inr (Or.inl h1))
  · rw [h] at hc
    refine hmem _ ?_ hc
    intro x hx
    simp only [State_call_calls, List.mem_append, List.mem_singleton] at hx
    rcases hx with (h1 | h1) | h1
    · exact Or.inl h1
    · exact Or.inr (Or.inl h1)
    · exact Or.inr (Or.inr h1)
  · rw [h] at hc
    refine hmem _ ?_ hc
    intro x hx
    simp only [State_call_calls, List.mem_append, List.mem_singleton] at hx
    rcases hx with h1 | h1
    · exact Or.inl h1
    · exact Or.inr (Or.inl h1)

theorem runPulls_calls_mem (e : Env) (opts : BuildOptions) (pulls : GoMap (List String))
    (st : State) (c : Call) (hc : c ∈ (runPulls e opts pulls st).1.calls) :
    c ∈ st.calls ∨ ∃ kv ∈ pulls, c = inspectCall kv.1 ∨ c = pullCall kv.1 ∨
      ∃ t ∈ kv.2, c = tagCall kv.1 t := by
  induction pulls generalizing st with
  | nil => exact Or.inl hc
  | cons kv rest ih =>
    obtain ⟨image, tags⟩ := kv
    have hone : ∀ st1 r, pullImage e opts image tags st = (st1, r) → c ∈ st1.calls →
        c ∈ st.calls ∨ ∃ kv ∈ (image, tags) :: rest, c = inspectCall kv.1 ∨
          c = pullCall kv.1 ∨ ∃ t ∈ kv.2, c = tagCall kv.1 t := by
      intro st1 r hr h1
      have h2 := pullImage_calls_mem e opts image tags st c (by rw [hr]; exact h1)
      rcases h2 with h3 | h3
      · exact Or.inl h3
      · exact Or.inr ⟨(image, tags), List.mem_cons_self _ _, h3⟩
    cases hr : pullImage e opts image tags st with
    | mk st1 r =>
      cases r with
      | ok u =>
        rw [runPulls_cons_ok e opts image tags rest st st1 u hr] at hc
        rcases ih st1 hc with h1 | ⟨kv, hkv, h1⟩
        · exact hone st1 _ hr h1
        · exact Or.inr ⟨kv, List.mem_cons_of_mem _ hkv, h1⟩
      | err msg =>
        rw [runPulls_cons_not_ok e opts image tags rest st st1 _ hr (by simp)] at hc
        exact hone st1 _ hr hc
      | panic msg =>
        rw [runPulls_cons_not_ok e opts image tags rest st st1 _ hr (by simp)] at hc
        exact hone st1 _ hr hc

theorem buildService_calls_mem (e : Env) (dir appName : String) (opts : BuildOptions)
    (service : Service) (buildCache : GoMap String) (st : State) (c : Call)
    (hc : c ∈ (buildService e dir appName opts service buildCache st).1.calls) :
    c ∈ st.calls ∨ (∃ bc, c = tagCall bc (e.Tag service appName)) ∨
      ∃ bargs, buildArgs e.ReadFile (buildDockerfile e dir service) = .ok bargs ∧
        c = ⟨.Run, buildCommand e dir appName opts service bargs⟩ := by
  rcases buildService_cases e dir appName opts service buildCache st with
    ⟨bc, err, _, _, h⟩ | ⟨bc, _, _, h⟩ | ⟨msg, st1, _, _, hst1, h⟩ |
    ⟨msg, st1, _, _, hst1, h⟩ | ⟨bargs, err, st1, _, hb, _, hst1, h⟩ |
    ⟨bargs, st1, _, hb, _, hst1, h⟩
  · rw [h] at hc
    rcases List.mem_append.mp hc with h1 | h1
    · exact Or.inl h1
    · exact Or.inr (Or.inl ⟨bc, by simpa [tagCall] using h1⟩)
  · rw [h] at hc
    rcases List.mem_append.mp hc with h1 | h1
    · exact Or.inl h1
    · exact Or.inr (Or.inl ⟨bc, by simpa [tagCall] using h1⟩)
  · rw [h] at hc
    exact Or.inl (hst1 ▸ hc)
  · rw [h] at hc
    exact Or.inl (hst1 ▸ hc)
  · rw [h] at hc
    dsimp only at hc
    rw [hst1] at hc
    rcases List.mem_append.mp hc with h1 | h1
    · exact Or.inl h1
    · exact Or.inr (Or.inr ⟨bargs, hb, by simpa using h1⟩)
  · rw [h] at hc
    dsimp only at hc
    rw [hst1] at hc
    rcases List.mem_append.mp hc with h1 | h1
    · exact Or.inl h1
    · exact Or.inr (Or.inr ⟨bargs, hb, by simpa using h1⟩)

theorem runBuilds_calls_mem (e : Env) (dir appName : String) (opts : BuildOptions)
    (builds : List Service) (buildCache : GoMap String) (st : State) (c : Call)
    (hc : c ∈ (runBuilds e dir appName opts builds buildCache st).1.calls) :
    c ∈ st.calls ∨ (∃ service ∈ builds, ∃ bc, c = tagCall bc (e.Tag service appName)) ∨
      ∃ service ∈ builds, ∃ bargs,
        buildArgs e.ReadFile (buildDockerfile e dir service) = .ok bargs ∧
        c = ⟨.Run, buildCommand e dir appName opts service bargs⟩ := by
  induction builds generalizing buildCache st with
  | nil => exact Or.inl hc
  | cons service rest ih =>
    have hone : ∀ st1 r, buildService e dir appName opts service buildCache st = (st1, r) →
        c ∈ st1.calls →
        c ∈ st.calls ∨
          (∃ s ∈ service :: rest, ∃ bc, c = tagCall bc (e.Tag s appName)) ∨
          ∃ s ∈ service :: rest, ∃ bargs,
            buildArgs e.ReadFile (buildDockerfile e dir s) = .ok bargs ∧
            c = ⟨.Run, buildCommand e dir appName opts s bargs⟩ := by
      intro st1 r hr h1
      rcases buildService_calls_mem e dir appName opts service buildCache st c
        (by rw [hr]; exact h1) with h2 | h2 | h2
      · exact Or.inl h2
      · exact Or.inr (Or.inl ⟨service, List.mem_cons_self _ _, h2⟩)
      · exact Or.inr (Or.inr ⟨service, List.mem_cons_self _ _, h2⟩)
    cases hr : buildService e dir appName opts service buildCache st with
    | mk st1 r =>
      cases r with
      | ok cache1 =>
        rw [runBuilds_cons_ok e dir appName opts service rest buildCache cache1 st st1 hr] at hc
        rcases ih cache1 st1 hc with h1 | ⟨s, hs, h1⟩ | ⟨s, hs, h1⟩
        · exact hone st1 _ hr h1
        · exact Or.inr (Or.inl ⟨s, List.mem_cons_of_mem _ hs, h1⟩)
        · exact Or.inr (Or.inr ⟨s, List.mem_cons_of_mem _ hs, h1⟩)
      | err msg =>
        rw [runBuilds_cons_err e dir appName opts service rest buildCache st st1 msg hr] at hc
        exact hone st1 _ hr hc
      | panic msg =>
        rw [runBuilds_cons_panic e dir appName opts service rest buildCache st st1 msg hr] at hc
        exact hone st1 _ hr hc

theorem Build_calls_mem (m : Manifest) (e : Env) (dir appName : String) (opts : BuildOptions)
    (services : List Service) (horder : m.runOrder opts.Service = .ok services) (c : Call)
    (hc : c ∈ (m.Build e dir appName opts).1.calls) :
    ((∃ service ∈ (classify e appName services).2, ∃ bc,
        c = tagCall bc (e.Tag service appName)) ∨
      ∃ service ∈ (classify e appName services).2, ∃ bargs,
        buildArgs e.ReadFile (buildDockerfile e dir service) = .ok bargs ∧
        c = ⟨.Run, buildCommand e dir appName opts service bargs⟩) ∨
    ∃ kv ∈ e.rangeOrder (classify e appName services).1,
      c = inspectCall kv.1 ∨ c = pullCall kv.1 ∨ ∃ t ∈ kv.2, c = tagCall kv.1 t := by
  unfold Manifest.Build at hc
  rw [horder] at hc
  dsimp only at hc
  have hb := runBuilds_calls_mem e dir appName opts (classify e appName services).2 []
    ⟨[], []⟩ c
  cases hr : runBuilds e dir appName opts (classify e appName services).2 [] ⟨[], []⟩ with
  | mk st r =>
    rw [hr] at hc hb
    have hb2 : c ∈ st.calls → _ := fun h => (hb h).resolve_left (by simp)
    cases r with
    | ok u =>
      rcases runPulls_calls_mem e opts _ st c hc with h1 | h1
      · exact Or.inl (hb2 h1)
      · exact Or.inr h1
    | err msg => exact Or.inl (hb2 hc)
    | panic msg => exact Or.inl (hb2 hc)

theorem foldl_buildArgFlag (e : Env) (opts : BuildOptions) (bargs init : List String) :
    bargs.foldl (buildArgFlag e opts) init
      = init ++ bargs.flatMap (fun ba =>
          match opts.Environment ba with
          | some v => ["--build-arg", ba ++ "=" ++ e.Quote v]
          | none => []) := by
  induction bargs generalizing init with
  | nil => simp
  | cons ba rest ih =>
    rw [List.foldl_cons, ih, List.flatMap_cons]
    unfold buildArgFlag
    cases opts.Environment ba <;> simp

theorem buildCommand_eq (e : Env) (dir appName : String) (opts : BuildOptions)
    (service : Service) (bargs : List String) :
    buildCommand e dir appName opts service bargs
      = ["build"] ++ (if opts.Cache = false then ["--no-cache"] else [])
        ++ bargs.flatMap (fun ba =>
            match opts.Environment ba with
            | some v => ["--build-arg", ba ++ "=" ++ e.Quote v]
            | none => [])
        ++ ["-f", buildDockerfile e dir service, "-t", e.Tag service appName,
            buildContext e dir service] := by
  unfold buildCommand
  simp only [foldl_buildArgFlag]
  cases opts.Cache <;> simp

theorem Build_build_call (m : Manifest) (e : Env) (dir appName : String) (opts : BuildOptions)
    (services : List Service) (horder : m.runOrder opts.Service = .ok services) (c : Call)
    (hc : c ∈ (m.Build e dir appName opts).1.calls) (hbuild : c.args.head? = some "build") :
    ∃ service ∈ (classify e appName services).2, ∃ bargs,
      buildArgs e.ReadFile (buildDockerfile e dir service) = .ok bargs ∧
      c = ⟨.Run, buildCommand e dir appName opts service bargs⟩ := by
  rcases Build_calls_mem m e dir appName opts services horder c hc with
    (⟨s, _, bc, h⟩ | h) | ⟨kv, _, h | h | ⟨t, _, h⟩⟩
  · rw [h] at hbuild
    exact absurd hbuild (by simp [tagCall])
  · exact h
  · rw [h] at hbuild
    exact absurd hbuild (by simp [inspectCall])
  · rw [h] at hbuild
    exact absurd hbuild (by simp [pullCall])
  · rw [h] at hbuild
    exact absurd hbuild (by simp [tagCall])

/-! ## The build command (C5, C6) -/

/-- C6: every `build` command of a run is the command of a service of the
build list whose dockerfile was read, it goes through `Run`, and its arguments
are exactly `build`, then `--no-cache` if and only if `opts.Cache` is false,
then the build-arg flags, then `-f` and the dockerfile, `-t` and the
destination tag of the service, and last the context. -/
theorem Build_build_command_shape (m : Manifest) (e : Env) (dir appName : String)
    (opts : BuildOptions) (services : List Service)
    (horder : m.runOrder opts.Service = .ok services) (c : Call)
    (hc : c ∈ (m.Build e dir appName opts).1.calls) (hbuild : c.args.head? = some "build") :
    ∃ service ∈ (classify e appName services).2, ∃ bargs,
      buildArgs e.ReadFile (buildDockerfile e dir service) = .ok bargs ∧
      c.via = .Run ∧
      c.args = ["build"] ++ (if opts.Cache = false then ["--no-cache"] else [])
        ++ bargs.foldl (buildArgFlag e opts) []
        ++ ["-f", buildDockerfile e dir service, "-t", e.Tag service appName,
            buildContext e dir service] ∧
      c.args.getLast? = some (buildContext e dir service) := by
  obtain ⟨service, hs, bargs, hb, rfl⟩ :=
    Build_build_call m e dir appName opts services horder c hc hbuild
  refine ⟨service, hs, bargs, hb, rfl, ?_, ?_⟩
  · simp only [buildCommand_eq, foldl_buildArgFlag, List.nil_append]
  · have h : buildCommand e dir appName opts service bargs
        = (["build"] ++ (if opts.Cache = false then ["--no-cache"] else [])
            ++ bargs.foldl (buildArgFlag e opts) []
            ++ ["-f", buildDockerfile e dir service, "-t", e.Tag service appName])
          ++ [buildContext e dir service] := by
      simp only [buildCommand_eq, foldl_buildArgFlag, List.nil_append]
      simp
    show (buildCommand e dir appName opts service bargs).getLast? = _
    rw [h, List.getLast?_append_of_ne_nil _ (by simp)]
    rfl

/-- C5: in every `build` command of a run, between the leading `build`
(with `--no-cache` or not) and the trailing `-f ... -t ... context`, stand
exactly the pairs `--build-arg`, `NAME=` followed by the quoted value, one for
each name that `buildArgs` returned for the dockerfile of the service and that
has an entry in `opts.Environment`, in the order `buildArgs` returned them;
every flag value comes from such a name, so neither a declared name without
entry nor an entry that is not declared gives a flag. -/
theorem Build_build_arg_flags (m : Manifest) (e : Env) (dir appName : String)
    (opts : BuildOptions) (services : List Service)
    (horder : m.runOrder opts.Service = .ok services) (c : Call)
    (hc : c ∈ (m.Build e dir appName opts).1.calls) (hbuild : c.args.head? = some "build") :
    ∃ service ∈ (classify e appName services).2, ∃ bargs front flags,
      buildArgs e.ReadFile (buildDockerfile e dir service) = .ok bargs ∧
      c.args = front ++ flags
        ++ ["-f", buildDockerfile e dir service, "-t", e.Tag service appName,
            buildContext e dir service] ∧
      (front = ["build"] ∨ front = ["build", "--no-cache"]) ∧
      flags = (bargs.filterMap (fun ba => (opts.Environment ba).map (fun v => (ba, v)))).flatMap
        (fun p => ["--build-arg", p.1 ++ "=" ++ e.Quote p.2]) ∧
      flags.length = 2 * (bargs.filter (fun ba => (opts.Environment ba).isSome)).length ∧
      ∀ x ∈ flags, x = "--build-arg" ∨
        ∃ ba ∈ bargs, ∃ v, opts.Environment ba = some v ∧ x = ba ++ "=" ++ e.Quote v := by
  obtain ⟨service, hs, bargs, hb, rfl⟩ :=
    Build_build_call m e dir appName opts services horder c hc hbuild
  have hflags : ∀ l : List String,
      l.flatMap (fun ba =>
          match opts.Environment ba with
          | some v => ["--build-arg", ba ++ "=" ++ e.Quote v]
          | none => [])
        = (l.filterMap (fun ba => (opts.Environment ba).map (fun v => (ba, v)))).flatMap
            (fun p => ["--build-arg", p.1 ++ "=" ++ e.Quote p.2]) := by
    intro l
    induction l with
    | nil => rfl
    | cons ba rest ih =>
      rw [List.flatMap_cons, ih, List.filterMap_cons]
      cases opts.Environment ba <;> simp
  have hlen : ∀ l : List String,
      ((l.filterMap (fun ba => (opts.Environment ba).map (fun v => (ba, v)))).flatMap
            (fun p => ["--build-arg", p.1 ++ "=" ++ e.Quote p.2])).length
        = 2 * (l.filter (fun ba => (opts.Environment ba).isSome)).length := by
    intro l
    induction l with
    | nil => rfl
    | cons ba rest ih =>
      rw [List.filterMap_cons, List.filter_cons]
      cases h : opts.Environment ba with
      | none => simpa using ih
      | some v =>
        simp only [Option.map_some', List.flatMap_cons, List.length_append, ih,
          Option.isSome_some, if_true, List.length_cons, List.length_nil]
        omega
  refine ⟨service, hs, bargs,
    ["build"] ++ (if opts.Cache = false then ["--no-cache"] else []), _, hb, ?_, ?_, rfl,
    hlen bargs, ?_⟩
  · rw [buildCommand_eq, hflags]
  · cases opts.Cache <;> simp
  · intro x hx
    simp only [List.mem_flatMap, List.mem_filterMap, Option.map_eq_some'] at hx
    obtain ⟨p, ⟨ba, hba, v, hv, rfl⟩, hx⟩ := hx
    simp only [List.mem_cons, List.mem_singleton, List.not_mem_nil, or_false] at hx
    rcases hx with rfl | rfl
    · exact Or.inl rfl
    · exact Or.inr ⟨ba, hba, v, hv, rfl⟩

/-- C6 on an example: with `Cache` false the build of the one service is
`build --no-cache --build-arg VERSION="2.0" -f /src/Dockerfile -t app/a /src`. -/
theorem Build_build_command_shape_witness :
    ((exampleManifest [exampleBuilt "a" "."]).Build exampleArgEnv "/src" "app"
        (exampleOpts false exampleVersion)).1.calls
      = [⟨.Run, ["build", "--no-cache", "--build-arg", "VERSION=\"2.0\"", "-f",
          "/src/Dockerfile", "-t", "app/a", "/src"]⟩] ∧
    ∃ service ∈ (classify exampleArgEnv "app" [exampleBuilt "a" "."]).2, ∃ bargs,
      buildArgs exampleArgEnv.ReadFile (buildDockerfile exampleArgEnv "/src" service)
        = .ok bargs ∧
      Via.Run = Via.Run ∧
      ["build", "--no-cache", "--build-arg", "VERSION=\"2.0\"", "-f", "/src/Dockerfile", "-t",
          "app/a", "/src"]
        = ["build"] ++ (if (exampleOpts false exampleVersion).Cache = false
            then ["--no-cache"] else [])
          ++ bargs.foldl (buildArgFlag exampleArgEnv (exampleOpts false exampleVersion)) []
          ++ ["-f", buildDockerfile exampleArgEnv "/src" service, "-t",
              exampleArgEnv.Tag service "app", buildContext exampleArgEnv "/src" service] ∧
      ["build", "--no-cache", "--build-arg", "VERSION=\"2.0\"", "-f", "/src/Dockerfile", "-t",
          "app/a", "/src"].getLast? = some (buildContext exampleArgEnv "/src" service) :=
  ⟨by decide,
    Build_build_command_shape (exampleManifest [exampleBuilt "a" "."]) exampleArgEnv "/src"
      "app" (exampleOpts false exampleVersion) [exampleBuilt "a" "."] rfl
      ⟨.Run, ["build", "--no-cache", "--build-arg", "VERSION=\"2.0\"", "-f", "/src/Dockerfile",
        "-t", "app/a", "/src"]⟩ (by decide) (by decide)⟩

/-- C5, the example of the claim: the dockerfile declares `VERSION` and
`TOKEN`, the environment is `{"VERSION": "2.0"}`; the build command carries
`--build-arg VERSION="2.0"` and nothing for `TOKEN`. -/
theorem Build_build_arg_flags_witness :
    ((exampleManifest [exampleBuilt "a" "."]).Build exampleArgEnv "/src" "app"
        (exampleOpts true exampleVersion)).1.calls
      = [⟨.Run, ["build", "--build-arg", "VERSION=\"2.0\"", "-f", "/src/Dockerfile", "-t",
          "app/a", "/src"]⟩] ∧
    buildArgs exampleArgEnv.ReadFile "/src/Dockerfile" = .ok ["VERSION", "TOKEN"] ∧
    ∃ service ∈ (classify exampleArgEnv "app" [exampleBuilt "a" "."]).2, ∃ bargs front flags,
      buildArgs exampleArgEnv.ReadFile (buildDockerfile exampleArgEnv "/src" service)
        = .ok bargs ∧
      ["build", "--build-arg", "VERSION=\"2.0\"", "-f", "/src/Dockerfile", "-t", "app/a", "/src"]
        = front ++ flags
          ++ ["-f", buildDockerfile exampleArgEnv "/src" service, "-t",
              exampleArgEnv.Tag service "app", buildContext exampleArgEnv "/src" service] ∧
      (front = ["build"] ∨ front = ["build", "--no-cache"]) ∧
      flags = (bargs.filterMap
          (fun ba => ((exampleOpts true exampleVersion).Environment ba).map
            (fun v => (ba, v)))).flatMap
        (fun p => ["--build-arg", p.1 ++ "=" ++ exampleArgEnv.Quote p.2]) ∧
      flags.length = 2 * (bargs.filter
        (fun ba => ((exampleOpts true exampleVersion).Environment ba).isSome)).length ∧
      ∀ x ∈ flags, x = "--build-arg" ∨
        ∃ ba ∈ bargs, ∃ v, (exampleOpts true exampleVersion).Environment ba = some v ∧
          x = ba ++ "=" ++ exampleArgEnv.Quote v :=
  ⟨by decide, by decide,
    Build_build_arg_flags (exampleManifest [exampleBuilt "a" "."]) exampleArgEnv "/src"
      "app" (exampleOpts true exampleVersion) [exampleBuilt "a" "."] rfl
      ⟨.Run, ["build", "--build-arg", "VERSION=\"2.0\"", "-f", "/src/Dockerfile", "-t",
        "app/a", "/src"]⟩ (by decide) (by decide)⟩

/-! ## The calls a loop adds to the trace -/

theorem tagAll_calls_ext (e : Env) (image : String) (tags : List String) (st : State) :
    ∃ new, (tagAll e image tags st).1.calls = st.calls ++ new ∧
      ∀ c ∈ new, ∃ t ∈ tags, c = tagCall image t := by
  induction tags generalizing st with
  | nil => exact ⟨[], by simp [tagAll], by simp⟩
  | cons tag rest ih =>
    rcases tagAll_cons_cases e image tag rest st with ⟨err, _, h⟩ | ⟨_, h⟩
    · rw [h]
      refine ⟨[tagCall image tag], rfl, ?_⟩
      intro c hc
      exact ⟨tag, List.mem_cons_self _ _, by simpa using hc⟩
    · rw [h]
      obtain ⟨new, h1, h2⟩ := ih (st.call .Run ["tag", image, tag])
      refine ⟨tagCall image tag :: new, ?_, ?_⟩
      · rw [h1, State_call_calls]
        simp [tagCall]
      · intro c hc
        rcases List.mem_cons.mp hc with rfl | hc
        · exact ⟨tag, List.mem_cons_self _ _, rfl⟩
        · obtain ⟨t, ht, h3⟩ := h2 c hc
          exact ⟨t, List.mem_cons_of_mem _ ht, h3⟩

/-- The calls of one pass of the third loop: the inspection, the pull when it
is due, and tags of the image. -/
theorem pullImage_calls_ext (e : Env) (opts : BuildOptions) (image : String)
    (tags : List String) (st : State) :
    ∃ new, (∀ c ∈ new, ∃ t ∈ tags, c = tagCall image t) ∧
      (pullImage e opts image tags st).1.calls
        = st.calls ++ inspectCall image ::
            ((if pullDue e opts st.calls image then [pullCall image] else []) ++ new) := by
  rcases pullImage_cases e opts image tags st with
    ⟨err, hout, h⟩ | ⟨output, err, hout, hc, _, h⟩ | ⟨output, hout, hc, _, h⟩ |
    ⟨output, hout, hc, h⟩
  · refine ⟨[], by simp, ?_⟩
    rw [h]
    simp [pullDue, hout, State_call_calls, inspectCall]
  · refine ⟨[], by simp, ?_⟩
    have hdue : pullDue e opts st.calls image = true := by
      rcases hc with hc | hc <;> simp [pullDue, hout, hc]
    rw [h, hdue]
    simp [State_call_calls, inspectCall, pullCall]
  · obtain ⟨new, h1, h2⟩ := tagAll_calls_ext e image tags
      ((st.call .CombinedOutput ["images", "-q", image]).call .Run ["pull", image])
    refine ⟨new, h2, ?_⟩
    have hdue : pullDue e opts st.calls image = true := by
      rcases hc with hc | hc <;> simp [pullDue, hout, hc]
    rw [h, h1, hdue]
    simp [State_call_calls, inspectCall, pullCall]
  · obtain ⟨new, h1, h2⟩ := tagAll_calls_ext e image tags
      (st.call .CombinedOutput ["images", "-q", image])
    refine ⟨new, h2, ?_⟩
    have hdue : pullDue e opts st.calls image = false := by
      have h3 : opts.Cache = true := by
        cases h4 : opts.Cache
        · exact absurd (Or.inl h4) hc
        · rfl
      have h5 : output.length ≠ 0 := fun h6 => hc (Or.inr h6)
      simp [pullDue, hout, h3, h5]
    rw [h, h1, hdue]
    simp [State_call_calls, inspectCall]

theorem buildService_calls_ext (e : Env) (dir appName : String) (opts : BuildOptions)
    (service : Service) (buildCache : GoMap String) (st : State) :
    ∃ new, (buildService e dir appName opts service buildCache st).1.calls = st.calls ++ new ∧
      ∀ c ∈ new, c.via = .Run ∧ (c.args.head? = some "tag" ∨ c.args.head? = some "build") := by
  have hcmd : ∀ bargs, (buildCommand e dir appName opts service bargs).head? = some "build" := by
    intro bargs
    rw [buildCommand_eq]
    rfl
  rcases buildService_cases e dir appName opts service buildCache st with
    ⟨bc, err, _, _, h⟩ | ⟨bc, _, _, h⟩ | ⟨msg, st1, _, _, hst1, h⟩ |
    ⟨msg, st1, _, _, hst1, h⟩ | ⟨bargs, err, st1, _, hb, _, hst1, h⟩ |
    ⟨bargs, st1, _, hb, _, hst1, h⟩
  · rw [h]
    exact ⟨[tagCall bc (e.Tag service appName)], rfl, by simp [tagCall]⟩
  · rw [h]
    exact ⟨[tagCall bc (e.Tag service appName)], rfl, by simp [tagCall]⟩
  · rw [h]
    exact ⟨[], by simp [hst1], by simp⟩
  · rw [h]
    exact ⟨[], by simp [hst1], by simp⟩
  · rw [h]
    exact ⟨[⟨.Run, buildCommand e dir appName opts service bargs⟩], hst1, by simp [hcmd]⟩
  · rw [h]
    exact ⟨[⟨.Run, buildCommand e dir appName opts service bargs⟩], hst1, by simp [hcmd]⟩

theorem runBuilds_calls_ext (e : Env) (dir appName : String) (opts : BuildOptions)
    (builds : List Service) (buildCache : GoMap String) (st : State) :
    ∃ new, (runBuilds e dir appName opts builds buildCache st).1.calls = st.calls ++ new ∧
      ∀ c ∈ new, c.via = .Run ∧ (c.args.head? = some "tag" ∨ c.args.head? = some "build") := by
  induction builds generalizing buildCache st with
  | nil => exact ⟨[], by simp [runBuilds], by simp⟩
  | cons service rest ih =>
    obtain ⟨new, h1, h2⟩ := buildService_calls_ext e dir appName opts service buildCache st
    cases hr : buildService e dir appName opts service buildCache st with
    | mk st1 r =>
      rw [hr] at h1
      cases r with
      | ok cache1 =>
        rw [runBuilds_cons_ok e dir appName opts service rest buildCache cache1 st st1 hr]
        obtain ⟨new1, h3, h4⟩ := ih cache1 st1
        refine ⟨new ++ new1, ?_, ?_⟩
        · rw [h3]
          dsimp only at h1
          rw [h1, List.append_assoc]
        · intro c hc
          rcases List.mem_append.mp hc with hc | hc
          · exact h2 c hc
          · exact h4 c hc
      | err msg =>
        rw [runBuilds_cons_err e dir appName opts service rest buildCache st st1 msg hr]
        exact ⟨new, h1, h2⟩
      | panic msg =>
        rw [runBuilds_cons_panic e dir appName opts service rest buildCache st st1 msg hr]
        exact ⟨new, h1, h2⟩

theorem runPulls_calls_ext (e : Env) (opts : BuildOptions) (pulls : GoMap (List String))
    (st : State) :
    ∃ new, (runPulls e opts pulls st).1.calls = st.calls ++ new ∧
      ∀ c ∈ new, ∃ kv ∈ pulls, c = inspectCall kv.1 ∨ c = pullCall kv.1 ∨
        ∃ t ∈ kv.2, c = tagCall kv.1 t := by
  induction pulls generalizing st with
  | nil => exact ⟨[], by simp [runPulls], by simp⟩
  | cons kv rest ih =>
    obtain ⟨image, tags⟩ := kv
    obtain ⟨new, h1, h2⟩ := pullImage_calls_ext e opts image tags st
    have hseg : ∀ c ∈ inspectCall image ::
        ((if pullDue e opts st.calls image then [pullCall image] else []) ++ new),
        ∃ kv ∈ (image, tags) :: rest, c = inspectCall kv.1 ∨ c = pullCall kv.1 ∨
          ∃ t ∈ kv.2, c = tagCall kv.1 t := by
      intro c hc
      refine ⟨(image, tags), List.mem_cons_self _ _, ?_⟩
      rcases List.mem_cons.mp hc with rfl | hc
      · exact Or.inl rfl
      · rcases List.mem_append.mp hc with hc | hc
        · right; left
          split at hc
          · simpa using hc
          · simp at hc
        · exact Or.inr (Or.inr (h1 c hc))
    generalize inspectCall image ::
      ((if pullDue e opts st.calls image then [pullCall image] else []) ++ new) = seg
      at h2 hseg
    cases hr : pullImage e opts image tags st with
    | mk st1 r =>
      rw [hr] at h2
      dsimp only at h2
      cases r with
      | ok u =>
        rw [runPulls_cons_ok e opts image tags rest st st1 u hr]
        obtain ⟨new1, h3, h4⟩ := ih st1
        refine ⟨seg ++ new1, ?_, ?_⟩
        · rw [h3, h2, List.append_assoc]
        · intro c hc
          rcases List.mem_append.mp hc with hc | hc
          · exact hseg c hc
          · obtain ⟨kv, hkv, h5⟩ := h4 c hc
            exact ⟨kv, List.mem_cons_of_mem _ hkv, h5⟩
      | err msg =>
        rw [runPulls_cons_not_ok e opts image tags rest st st1 _ hr (by simp)]
        exact ⟨seg, h2, hseg⟩
      | panic msg =>
        rw [runPulls_cons_not_ok e opts image tags rest st st1 _ hr (by simp)]
        exact ⟨seg, h2, hseg⟩

/-! ## One build per signature (C2) -/

theorem not_AllOk_snoc_failed (e : Env) (l : List Call) (args : List String) (err : String)
    (hrun : e.Run l args = some err) : ¬ AllOk e (l ++ [⟨.Run, args⟩]) := by
  intro h
  have h1 := h l ⟨.Run, args⟩ [] rfl
  simp [failed, hrun] at h1

theorem find?_hash_snoc_of_some (e : Env) (earlier : List Service) (s first : Service)
    (h : String)
    (hfirst : earlier.find? (fun t => decide (e.Hash t.Build = h)) = some first) :
    (earlier ++ [s]).find? (fun t => decide (e.Hash t.Build = h)) = some first := by
  rw [List.find?_append, hfirst]
  rfl

theorem find?_hash_snoc_of_none (e : Env) (earlier : List Service) (s : Service) (h : String)
    (hnone : earlier.find? (fun t => decide (e.Hash t.Build = h)) = none) :
    (earlier ++ [s]).find? (fun t => decide (e.Hash t.Build = h))
      = if e.Hash s.Build = h then some s else none := by
  rw [List.find?_append, hnone]
  by_cases hs : e.Hash s.Build = h <;> simp [hs]

theorem runBuilds_eq_spec (e : Env) (dir appName : String) (opts : BuildOptions)
    (builds earlier : List Service) (buildCache : GoMap String) (st : State)
    (hinv : ∀ h, buildCache.get? h
      = (earlier.find? (fun t => decide (e.Hash t.Build = h))).map (fun t => e.Tag t appName))
    (hread : ∀ pre s post, builds = pre ++ s :: post →
      (∀ t ∈ earlier ++ pre, e.Hash t.Build ≠ e.Hash s.Build) →
      ∃ bargs, buildArgs e.ReadFile (buildDockerfile e dir s) = .ok bargs)
    (hok : AllOk e (runBuilds e dir appName opts builds buildCache st).1.calls) :
    (runBuilds e dir appName opts builds buildCache st).1.calls
        = st.calls ++ specBuildCallsFrom e dir appName opts earlier builds ∧
      ∃ u, (runBuilds e dir appName opts builds buildCache st).2 = .ok u := by
  induction builds generalizing earlier buildCache st with
  | nil => exact ⟨by simp [runBuilds, specBuildCallsFrom], (), rfl⟩
  | cons s rest ih =>
    have hread1 : ∀ pre s1 post, rest = pre ++ s1 :: post →
        (∀ t ∈ (earlier ++ [s]) ++ pre, e.Hash t.Build ≠ e.Hash s1.Build) →
        ∃ bargs, buildArgs e.ReadFile (buildDockerfile e dir s1) = .ok bargs := by
      intro pre s1 post hrest hne
      refine hread (s :: pre) s1 post (by rw [hrest]; rfl) ?_
      intro t ht
      exact hne t (by simpa [List.append_assoc] using ht)
    have hnone : buildCache.get? (e.Hash s.Build) = none →
        earlier.find? (fun t => decide (e.Hash t.Build = e.Hash s.Build)) = none := by
      intro hc
      have h1 := hinv (e.Hash s.Build)
      rw [hc] at h1
      cases hf : earlier.find? (fun t => decide (e.Hash t.Build = e.Hash s.Build)) with
      | none => rfl
      | some t => rw [hf] at h1; simp at h1
    have hreadable : buildCache.get? (e.Hash s.Build) = none →
        ∃ bargs, buildArgs e.ReadFile (buildDockerfile e dir s) = .ok bargs := by
      intro hc
      refine hread [] s rest rfl ?_
      intro t ht
      have h1 := List.find?_eq_none.mp (hnone hc) t (by simpa using ht)
      simpa using h1
    rcases buildService_cases e dir appName opts s buildCache st with
      ⟨bc, err, _, hrun, h⟩ | ⟨bc, hc, _, h⟩ | ⟨msg, st1, hc, hb, _, h⟩ |
      ⟨msg, st1, hc, hb, _, h⟩ | ⟨bargs, err, st1, _, _, hrun, hst1, h⟩ |
      ⟨bargs, st1, hc, hb, _, hst1, h⟩
    · rw [runBuilds_cons_err e dir appName opts s rest buildCache st _ _ h] at hok
      exact absurd hok (not_AllOk_snoc_failed e _ _ err hrun)
    · rw [runBuilds_cons_ok e dir appName opts s rest buildCache _ st _ h] at hok ⊢
      obtain ⟨first, hfirst, hbc⟩ : ∃ first,
          earlier.find? (fun t => decide (e.Hash t.Build = e.Hash s.Build)) = some first ∧
          e.Tag first appName = bc := by
        have h1 := hinv (e.Hash s.Build)
        rw [hc] at h1
        cases hf : earlier.find? (fun t => decide (e.Hash t.Build = e.Hash s.Build)) with
        | none => rw [hf] at h1; simp at h1
        | some t =>
          rw [hf] at h1
          exact ⟨t, rfl, by simpa using h1.symm⟩
      have hinv1 : ∀ h, buildCache.get? h
          = ((earlier ++ [s]).find? (fun t => decide (e.Hash t.Build = h))).map
              (fun t => e.Tag t appName) := by
        intro h1
        cases hf : earlier.find? (fun t => decide (e.Hash t.Build = h1)) with
        | some t => rw [find?_hash_snoc_of_some e earlier s t h1 hf, hinv h1, hf]
        | none =>
          have h2 : e.Hash s.Build ≠ h1 := by
            intro h3
            have h4 := hinv h1
            rw [hf, ← h3, hc] at h4
            simp at h4
          rw [find?_hash_snoc_of_none e earlier s h1 hf, hinv h1, hf]
          simp [h2]
      obtain ⟨h1, h2⟩ := ih (earlier ++ [s]) buildCache _ hinv1 hread1 hok
      refine ⟨?_, h2⟩
      rw [h1, State_call_calls, specBuildCallsFrom, hfirst]
      simp [tagCall, hbc]
    · obtain ⟨bargs, hb1⟩ := hreadable hc
      rw [hb] at hb1
      simp at hb1
    · obtain ⟨bargs, hb1⟩ := hreadable hc
      rw [hb] at hb1
      simp at hb1
    · rw [runBuilds_cons_err e dir appName opts s rest buildCache st _ _ h, hst1] at hok
      exact absurd hok (not_AllOk_snoc_failed e _ _ err hrun)
    · rw [runBuilds_cons_ok e dir appName opts s rest buildCache _ st _ h] at hok ⊢
      have hfirst := hnone hc
      have hinv1 : ∀ h, (buildCache.set (e.Hash s.Build) (e.Tag s appName)).get? h
          = ((earlier ++ [s]).find? (fun t => decide (e.Hash t.Build = h))).map
              (fun t => e.Tag t appName) := by
        intro h1
        by_cases h2 : e.Hash s.Build = h1
        · subst h2
          rw [GoMap_get?_set_self, find?_hash_snoc_of_none e earlier s _ hfirst]
          simp
        · rw [GoMap_get?_set_ne _ _ _ _ h2, hinv h1]
          cases hf : earlier.find? (fun t => decide (e.Hash t.Build = h1)) with
          | some t => rw [find?_hash_snoc_of_some e earlier s t h1 hf]
          | none =>
            rw [find?_hash_snoc_of_none e earlier s h1 hf]
            simp [h2]
      obtain ⟨h1, h2⟩ := ih (earlier ++ [s]) _ st1 hinv1 hread1 hok
      refine ⟨?_, h2⟩
      have hd : declaredArgs e dir s = bargs := by
        unfold declaredArgs
        rw [hb]
      rw [h1, hst1, specBuildCallsFrom, hfirst, hd]
      simp

theorem isBuildCall_buildCommand (e : Env) (dir appName : String) (opts : BuildOptions)
    (service : Service) (bargs : List String) :
    isBuildCall ⟨.Run, buildCommand e dir appName opts service bargs⟩ = true := by
  unfold isBuildCall
  rw [buildCommand_eq]
  rfl

theorem specBuildCallsFrom_count (e : Env) (dir appName : String) (opts : BuildOptions)
    (builds earlier : List Service) :
    ((specBuildCallsFrom e dir appName opts earlier builds).filter isBuildCall).length
      = ((builds.map (fun s => e.Hash s.Build)).toFinset
          \ (earlier.map (fun s => e.Hash s.Build)).toFinset).card := by
  induction builds generalizing earlier with
  | nil => simp [specBuildCallsFrom]
  | cons s rest ih =>
    rw [specBuildCallsFrom, List.filter_cons]
    have hih := ih (earlier ++ [s])
    cases hf : earlier.find? (fun t => decide (e.Hash t.Build = e.Hash s.Build)) with
    | some first =>
      have hmem : e.Hash s.Build ∈ (earlier.map (fun s => e.Hash s.Build)).toFinset := by
        have h1 := List.find?_some hf
        have h2 := List.mem_of_find?_eq_some hf
        simp only [List.mem_toFinset, List.mem_map]
        exact ⟨first, h2, by simpa using h1⟩
      have htag : isBuildCall (tagCall (e.Tag first appName) (e.Tag s appName)) = false := by
        simp [isBuildCall, tagCall]
      simp only [htag, Bool.false_eq_true, if_false, hih]
      congr 1
      ext x
      simp only [List.map_append, List.map_cons, List.map_nil, List.toFinset_append,
        List.toFinset_cons, List.toFinset_nil, Finset.mem_sdiff, Finset.mem_union,
        Finset.mem_insert, List.mem_toFinset, Finset.not_mem_empty, or_false,
        insert_emptyc_eq, Finset.mem_singleton] at hmem ⊢
      constructor
      · rintro ⟨h1, h2⟩
        exact ⟨Or.inr h1, fun h3 => h2 (Or.inl h3)⟩
      · rintro ⟨h1 | h1, h2⟩
        · rw [h1] at h2
          exact absurd hmem h2
        · refine ⟨h1, ?_⟩
          rintro (h3 | h3)
          · exact h2 h3
          · rw [h3] at h2
            exact h2 hmem
    | none =>
      have hnot : e.Hash s.Build ∉ (earlier.map (fun s => e.Hash s.Build)).toFinset := by
        simp only [List.mem_toFinset, List.mem_map, not_exists, not_and]
        intro t ht h1
        have h2 := List.find?_eq_none.mp hf t ht
        simp [h1] at h2
      simp only [isBuildCall_buildCommand, if_true, List.length_cons, hih]
      have hset : (List.map (fun s => e.Hash s.Build) (s :: rest)).toFinset
            \ (List.map (fun s => e.Hash s.Build) earlier).toFinset
          = insert (e.Hash s.Build)
              ((List.map (fun s => e.Hash s.Build) rest).toFinset
                \ (List.map (fun s => e.Hash s.Build) (earlier ++ [s])).toFinset) := by
        ext x
        simp only [List.map_append, List.map_cons, List.map_nil, List.toFinset_append,
          List.toFinset_cons, List.toFinset_nil, Finset.mem_sdiff, Finset.mem_union,
          Finset.mem_insert, List.mem_toFinset, Finset.not_mem_empty, or_false,
          insert_emptyc_eq, Finset.mem_singleton] at hnot ⊢
        constructor
        · rintro ⟨h1 | h1, h2⟩
          · exact Or.inl h1
          · by_cases h3 : x = e.Hash s.Build
            · exact Or.inl h3
            · exact Or.inr ⟨h1, fun h4 => h4.elim h2 h3⟩
        · rintro (h1 | ⟨h1, h2⟩)
          · rw [h1]
            exact ⟨Or.inl rfl, hnot⟩
          · exact ⟨Or.inr h1, fun h3 => h2 (Or.inl h3)⟩
      rw [hset, Finset.card_insert_of_not_mem]
      simp

theorem Build_of_runBuilds_ok (m : Manifest) (e : Env) (dir appName : String)
    (opts : BuildOptions) (services : List Service) (st : State) (u : Unit)
    (horder : m.runOrder opts.Service = .ok services)
    (hr : runBuilds e dir appName opts (classify e appName services).2 [] ⟨[], []⟩
      = (st, .ok u)) :
    m.Build e dir appName opts
      = runPulls e opts (e.rangeOrder (classify e appName services).1) st := by
  simp [Manifest.Build, horder, hr]

theorem Build_of_runBuilds_not_ok (m : Manifest) (e : Env) (dir appName : String)
    (opts : BuildOptions) (services : List Service) (st : State) (r : Outcome Unit)
    (horder : m.runOrder opts.Service = .ok services)
    (hr : runBuilds e dir appName opts (classify e appName services).2 [] ⟨[], []⟩ = (st, r))
    (hnot : ∀ u, r ≠ .ok u) :
    m.Build e dir appName opts = (st, r) := by
  cases r with
  | ok u => exact absurd rfl (hnot u)
  | err msg => simp [Manifest.Build, horder, hr]
  | panic msg => simp [Manifest.Build, horder, hr]

theorem AllOk_of_append (e : Env) (a b : List Call) (h : AllOk e (a ++ b)) : AllOk e a := by
  intro pre c post hc
  exact h pre c (post ++ b) (by rw [hc]; simp)

/-- C2, amended: in a run in which no runner call fails and `buildArgs` reads
the dockerfile of every build service whose signature is not that of an
earlier one, the trace of `Build` starts with one command per build service,
in order: its build command if no earlier build service has its signature,
and otherwise `tag <tag of the first build service with that signature> <its
own tag>`; no later command is a build, and the number of `build` commands is
the number of distinct signatures of the build list. -/
theorem Build_one_build_per_signature (m : Manifest) (e : Env) (dir appName : String)
    (opts : BuildOptions) (services : List Service)
    (horder : m.runOrder opts.Service = .ok services)
    (hok : AllOk e (m.Build e dir appName opts).1.calls)
    (hread : ∀ pre s post, (classify e appName services).2 = pre ++ s :: post →
      (∀ t ∈ pre, e.Hash t.Build ≠ e.Hash s.Build) →
      ∃ bargs, buildArgs e.ReadFile (buildDockerfile e dir s) = .ok bargs) :
    (∃ rest, (m.Build e dir appName opts).1.calls
        = specBuildCalls e dir appName opts (classify e appName services).2 ++ rest ∧
      ∀ c ∈ rest, isBuildCall c = false) ∧
    ((m.Build e dir appName opts).1.calls.filter isBuildCall).length
      = (((classify e appName services).2.map (fun s => e.Hash s.Build)).dedup).length := by
  have hcount : ((specBuildCalls e dir appName opts (classify e appName services).2).filter
      isBuildCall).length
      = (((classify e appName services).2.map (fun s => e.Hash s.Build)).dedup).length := by
    rw [specBuildCalls, specBuildCallsFrom_count, ← List.card_toFinset]
    simp
  have hmain : ∃ rest, (m.Build e dir appName opts).1.calls
      = specBuildCalls e dir appName opts (classify e appName services).2 ++ rest ∧
      ∀ c ∈ rest, isBuildCall c = false := by
    have hspec := runBuilds_eq_spec e dir appName opts (classify e appName services).2 [] []
      ⟨[], []⟩ (by intro h; rfl) (by simpa using hread)
    cases hr : runBuilds e dir appName opts (classify e appName services).2 [] ⟨[], []⟩ with
    | mk st r =>
      rw [hr] at hspec
      cases r with
      | ok u =>
        rw [Build_of_runBuilds_ok m e dir appName opts services st u horder hr] at hok ⊢
        obtain ⟨new, h1, h2⟩ := runPulls_calls_ext e opts
          (e.rangeOrder (classify e appName services).1) st
        rw [h1] at hok ⊢
        obtain ⟨h3, _⟩ := hspec (AllOk_of_append e _ _ hok)
        refine ⟨new, ?_, ?_⟩
        · dsimp only at h3
          rw [h3]
          simp [specBuildCalls]
        · intro c hc
          obtain ⟨kv, _, h4 | h4 | ⟨t, _, h4⟩⟩ := h2 c hc <;> rw [h4] <;>
            simp [isBuildCall, inspectCall, pullCall, tagCall]
      | err msg =>
        rw [Build_of_runBuilds_not_ok m e dir appName opts services st _ horder hr
          (by simp)] at hok
        obtain ⟨_, u, h3⟩ := hspec hok
        simp at h3
      | panic msg =>
        rw [Build_of_runBuilds_not_ok m e dir appName opts services st _ horder hr
          (by simp)] at hok
        obtain ⟨_, u, h3⟩ := hspec hok
        simp at h3
  refine ⟨hmain, ?_⟩
  obtain ⟨rest, h1, h2⟩ := hmain
  rw [h1, List.filter_append, List.length_append, hcount]
  have h3 : rest.filter isBuildCall = [] := by
    rw [List.filter_eq_nil_iff]
    intro c hc
    simp [h2 c hc]
  rw [h3]
  rfl

theorem AllOk_exampleArgEnv (calls : List Call) : AllOk exampleArgEnv calls := by
  intro pre c post _
  obtain ⟨via, args⟩ := c
  cases via <;> rfl

theorem buildArgs_exampleArgEnv (dockerfile : String) :
    buildArgs exampleArgEnv.ReadFile dockerfile = .ok ["VERSION", "TOKEN"] := by
  have h : buildArgs exampleArgEnv.ReadFile dockerfile
      = buildArgsLoop (bufio.Scan "ARG VERSION=1.0\nARG TOKEN\n".data) [] := rfl
  rw [h]
  decide

/-- C2, the example of the claim: the services `a` and `b` have the same
signature; `a` is built once and `b` gets `tag app/a app/b`. -/
theorem Build_one_build_per_signature_witness :
    ((exampleManifest [exampleBuilt "a" ".", exampleBuilt "b" "."]).Build exampleArgEnv
        "/src" "app" (exampleOpts true (fun _ => none))).1.calls
      = [⟨.Run, ["build", "-f", "/src/Dockerfile", "-t", "app/a", "/src"]⟩,
          tagCall "app/a" "app/b"] ∧
    specBuildCalls exampleArgEnv "/src" "app" (exampleOpts true (fun _ => none))
        [exampleBuilt "a" ".", exampleBuilt "b" "."]
      = [⟨.Run, ["build", "-f", "/src/Dockerfile", "-t", "app/a", "/src"]⟩,
          tagCall "app/a" "app/b"] ∧
    ((∃ rest, ((exampleManifest [exampleBuilt "a" ".", exampleBuilt "b" "."]).Build
          exampleArgEnv "/src" "app" (exampleOpts true (fun _ => none))).1.calls
        = specBuildCalls exampleArgEnv "/src" "app" (exampleOpts true (fun _ => none))
            (classify exampleArgEnv "app" [exampleBuilt "a" ".", exampleBuilt "b" "."]).2
          ++ rest ∧
        ∀ c ∈ rest, isBuildCall c = false) ∧
      (((exampleManifest [exampleBuilt "a" ".", exampleBuilt "b" "."]).Build exampleArgEnv
          "/src" "app" (exampleOpts true (fun _ => none))).1.calls.filter isBuildCall).length
        = (((classify exampleArgEnv "app" [exampleBuilt "a" ".", exampleBuilt "b" "."]).2.map
            (fun s => exampleArgEnv.Hash s.Build)).dedup).length) :=
  ⟨by decide, by decide,
    Build_one_build_per_signature (exampleManifest [exampleBuilt "a" ".", exampleBuilt "b" "."])
      exampleArgEnv "/src" "app" (exampleOpts true (fun _ => none))
      [exampleBuilt "a" ".", exampleBuilt "b" "."] rfl (AllOk_exampleArgEnv _)
      (fun _ s _ _ _ => ⟨["VERSION", "TOKEN"], buildArgs_exampleArgEnv _⟩)⟩

/-- C2, counterexample: one build service whose dockerfile cannot be read.  No
runner call fails (none is made), the build list has one signature, and
`Build` issues no `build` command: it returns the error of the read. -/
theorem Build_unreadable_dockerfile_counterexample :
    ((exampleManifest [exampleBuilt "a" "."]).Build
        (exampleEnv (fun _ => .error "open /src/Dockerfile: no such file or directory")
          (fun _ _ => none) (fun _ _ => .ok ""))
        "/src" "app" (exampleOpts true (fun _ => none)))
      = (⟨[], ["context = /src\n", "dockerFile = /src/Dockerfile\n"]⟩,
          .err "open /src/Dockerfile: no such file or directory") ∧
    (([exampleBuilt "a" "."].map
      (fun s => (exampleEnv (fun _ => .error "open /src/Dockerfile: no such file or directory")
        (fun _ _ => none) (fun _ _ => .ok "")).Hash s.Build)).dedup).length = 1 ∧
    ((((exampleManifest [exampleBuilt "a" "."]).Build
        (exampleEnv (fun _ => .error "open /src/Dockerfile: no such file or directory")
          (fun _ _ => none) (fun _ _ => .ok ""))
        "/src" "app" (exampleOpts true (fun _ => none))).1.calls.filter isBuildCall).length
      = 0) := by
  decide

/-! ## Inspection and pull of the external images (C3) -/

theorem split_at_head {α : Type} (x : α) (a b pre post : List α)
    (h : x :: a ++ b = pre ++ x :: post) (ha : x ∉ a) (hb : x ∉ b) :
    pre = [] ∧ post = a ++ b := by
  cases pre with
  | nil =>
    simp only [List.nil_append, List.cons_append, List.cons.injEq, true_and] at h
    exact ⟨rfl, h.symm⟩
  | cons y ys =>
    exfalso
    simp only [List.cons_append, List.cons.injEq] at h
    have hmem : x ∈ a ++ b := by
      rw [h.2]
      simp
    rcases List.mem_append.mp hmem with h1 | h1
    · exact ha h1
    · exact hb h1

theorem split_after {α : Type} (x : α) (s b pre post : List α)
    (h : s ++ b = pre ++ x :: post) (hs : x ∉ s) :
    ∃ pre1, pre = s ++ pre1 ∧ b = pre1 ++ x :: post := by
  rcases List.append_eq_append_iff.mp h with ⟨a1, h1, h2⟩ | ⟨c1, h1, h2⟩
  · exact ⟨a1, h1, h2⟩
  · cases c1 with
    | nil =>
      refine ⟨[], by simpa using h1.symm, ?_⟩
      simpa using h2.symm
    | cons y ys =>
      exfalso
      simp only [List.cons_append, List.cons.injEq] at h2
      apply hs
      rw [h1, h2.1]
      simp

theorem inspectCall_ne_pullCall (a b : String) : inspectCall a ≠ pullCall b := by
  simp [inspectCall, pullCall]

theorem inspectCall_ne_tagCall (a b c : String) : inspectCall a ≠ tagCall b c := by
  simp [inspectCall, tagCall]

theorem pullCall_ne_tagCall (a b c : String) : pullCall a ≠ tagCall b c := by
  simp [pullCall, tagCall]

theorem inspectCall_inj (a b : String) : inspectCall a = inspectCall b ↔ a = b := by
  simp [inspectCall]

theorem pullCall_inj (a b : String) : pullCall a = pullCall b ↔ a = b := by
  simp [pullCall]

/-- The counts of inspections and pulls in the calls of one pass of the third
loop. -/
theorem segment_counts (k : String) (due : Bool) (tagCalls : List Call) (tags : List String)
    (htags : ∀ c ∈ tagCalls, ∃ t ∈ tags, c = tagCall k t) (image : String) :
    (inspectCall k :: ((if due then [pullCall k] else []) ++ tagCalls)).count
        (inspectCall image) = (if image = k then 1 else 0) ∧
    (inspectCall k :: ((if due then [pullCall k] else []) ++ tagCalls)).count
        (pullCall image) = (if image = k ∧ due = true then 1 else 0) := by
  have h1 : tagCalls.count (inspectCall image) = 0 := by
    rw [List.count_eq_zero]
    intro h
    obtain ⟨t, _, h2⟩ := htags _ h
    exact inspectCall_ne_tagCall _ _ _ h2
  have h2 : tagCalls.count (pullCall image) = 0 := by
    rw [List.count_eq_zero]
    intro h
    obtain ⟨t, _, h2⟩ := htags _ h
    exact pullCall_ne_tagCall _ _ _ h2
  constructor
  · rw [List.count_cons, List.count_append, h1]
    have h3 : (if due then [pullCall k] else []).count (inspectCall image) = 0 := by
      cases due
      · simp
      · simp [List.count_cons, (inspectCall_ne_pullCall image k).symm]
    rw [h3]
    by_cases hk : image = k
    · simp [hk]
    · have : ¬ inspectCall k = inspectCall image := fun h => hk ((inspectCall_inj _ _).mp h).symm
      simp [hk, this]
  · rw [List.count_cons, List.count_append, h2]
    have h3 : ¬ (inspectCall k == pullCall image) = true := by
      simpa using inspectCall_ne_pullCall k image
    cases due
    · simp [h3]
    · by_cases hk : image = k
      · subst hk
        simp [h3, List.count_cons, inspectCall_ne_pullCall]
      · have : ¬ pullCall k = pullCall image := fun h => hk ((pullCall_inj _ _).mp h).symm
        simp [hk, h3, this, List.count_cons]

theorem PullTrace_nil (e : Env) (opts : BuildOptions) (keys : List String)
    (base : List Call) (complete : Prop) (h : complete → keys = []) :
    PullTrace e opts keys base [] complete := by
  refine ⟨by simp, by simp, ?_, ?_⟩
  · intro hc image himage
    rw [h hc] at himage
    simp at himage
  · intro pre post image h1
    simp at h1

theorem PullTrace_cons (e : Env) (opts : BuildOptions) (k : String) (keys : List String)
    (base tagCalls rest : List Call) (tags : List String) (complete : Prop)
    (hk : k ∉ keys) (htags : ∀ c ∈ tagCalls, ∃ t ∈ tags, c = tagCall k t)
    (hrest : PullTrace e opts keys
      (base ++ inspectCall k ::
        ((if pullDue e opts base k then [pullCall k] else []) ++ tagCalls)) rest complete) :
    PullTrace e opts (k :: keys) base
      (inspectCall k :: ((if pullDue e opts base k then [pullCall k] else []) ++ tagCalls)
        ++ rest) complete := by
  obtain ⟨r1, r2, r3, r4⟩ := hrest
  have hseg := segment_counts k (pullDue e opts base k) tagCalls tags htags
  generalize hsegdef : inspectCall k ::
    ((if pullDue e opts base k then [pullCall k] else []) ++ tagCalls) = seg at *
  have hkrest := r1 k hk
  refine ⟨?_, ?_, ?_, ?_⟩
  · intro image himage
    have h1 : image ≠ k := fun h => himage (by simp [h])
    have h2 : image ∉ keys := fun h => himage (List.mem_cons_of_mem _ h)
    obtain ⟨h3, h4⟩ := r1 image h2
    obtain ⟨h5, h6⟩ := hseg image
    rw [List.count_append, List.count_append, h3, h4, h5, h6]
    simp [h1]
  · intro image
    rw [List.count_append, (hseg image).1]
    by_cases h1 : image = k
    · subst h1
      simp [hkrest.1]
    · have := r2 image
      simp [h1, this]
  · intro hc image himage
    rw [List.count_append, (hseg image).1]
    rcases List.mem_cons.mp himage with h1 | h1
    · subst h1
      simp [hkrest.1]
    · have h2 : image ≠ k := fun h => hk (h ▸ h1)
      simp [h2, r3 hc image h1]
  · intro pre post image hsplit
    by_cases h1 : image = k
    · subst h1
      have hnotrest : inspectCall image ∉ rest := by
        rw [← List.count_eq_zero]
        exact hkrest.1
      rw [← hsegdef] at hsplit ⊢
      have hnota : inspectCall image ∉
          (if pullDue e opts base image then [pullCall image] else []) ++ tagCalls := by
        intro h
        rcases List.mem_append.mp h with h | h
        · split at h
          · simp at h
            exact inspectCall_ne_pullCall _ _ h
          · simp at h
        · obtain ⟨t, _, h2⟩ := htags _ h
          exact inspectCall_ne_tagCall _ _ _ h2
      obtain ⟨hpre, hpost⟩ := split_at_head _ _ _ _ _ hsplit hnota hnotrest
      subst hpre
      rw [List.append_nil, hsegdef, List.count_append, (hseg image).2, hkrest.2]
      refine ⟨by simp, ?_⟩
      intro hdue
      rw [hpost, hdue]
      rfl
    · have hnotseg : inspectCall image ∉ seg := by
        rw [← List.count_eq_zero, (hseg image).1]
        simp [h1]
      obtain ⟨pre1, hpre, hrestsplit⟩ := split_after _ _ _ _ _ hsplit hnotseg
      obtain ⟨h2, h3⟩ := r4 pre1 post image hrestsplit
      rw [hpre, ← List.append_assoc, List.count_append, (hseg image).2, h2]
      exact ⟨by simp [h1], h3⟩

theorem runPulls_PullTrace (e : Env) (opts : BuildOptions) (pulls : GoMap (List String))
    (hnodup : (pulls.map Prod.fst).Nodup) (st : State) :
    ∃ new, (runPulls e opts pulls st).1.calls = st.calls ++ new ∧
      PullTrace e opts (pulls.map Prod.fst) st.calls new
        (∃ u, (runPulls e opts pulls st).2 = .ok u) := by
  induction pulls generalizing st with
  | nil => exact ⟨[], by simp [runPulls], PullTrace_nil e opts _ _ _ (fun _ => rfl)⟩
  | cons kv rest ih =>
    obtain ⟨image, tags⟩ := kv
    have hk : image ∉ rest.map Prod.fst := (List.nodup_cons.mp hnodup).1
    have hrestnodup : (rest.map Prod.fst).Nodup := (List.nodup_cons.mp hnodup).2
    obtain ⟨tagCalls, h1, h2⟩ := pullImage_calls_ext e opts image tags st
    cases hr : pullImage e opts image tags st with
    | mk st1 r =>
      rw [hr] at h2
      dsimp only at h2
      cases r with
      | ok u =>
        rw [runPulls_cons_ok e opts image tags rest st st1 u hr]
        obtain ⟨new1, h3, h4⟩ := ih hrestnodup st1
        rw [h2] at h3 h4
        refine ⟨_ ++ new1, ?_, PullTrace_cons e opts image _ st.calls tagCalls new1 tags _
          hk h1 h4⟩
        rw [h3]
        simp
      | err msg =>
        rw [runPulls_cons_not_ok e opts image tags rest st st1 _ hr (by simp)]
        refine ⟨_ ++ [], ?_, PullTrace_cons e opts image _ st.calls tagCalls [] tags _
          hk h1 (PullTrace_nil e opts _ _ _ (fun h => by simp at h))⟩
        rw [h2]
        simp
      | panic msg =>
        rw [runPulls_cons_not_ok e opts image tags rest st st1 _ hr (by simp)]
        refine ⟨_ ++ [], ?_, PullTrace_cons e opts image _ st.calls tagCalls [] tags _
          hk h1 (PullTrace_nil e opts _ _ _ (fun h => by simp at h))⟩
        rw [h2]
        simp

theorem GoMap_mem_keys_set {α : Type} (m : GoMap α) (k x : String) (v : α)
    (h : x ∈ (m.set k v).map Prod.fst) : x = k ∨ x ∈ m.map Prod.fst := by
  induction m with
  | nil => simpa [GoMap.set] using h
  | cons kv m ih =>
    obtain ⟨k1, v1⟩ := kv
    by_cases hk : k1 = k
    · simp only [GoMap.set, hk, if_true, List.map_cons, List.mem_cons] at h ⊢
      rcases h with h | h
      · exact Or.inl h
      · exact Or.inr (Or.inr h)
    · simp only [GoMap.set, hk, if_false, List.map_cons, List.mem_cons] at h ⊢
      rcases h with h | h
      · exact Or.inr (Or.inl h)
      · rcases ih h with h1 | h1
        · exact Or.inl h1
        · exact Or.inr (Or.inr h1)

theorem GoMap_set_keys_nodup {α : Type} (m : GoMap α) (k : String) (v : α)
    (h : (m.map Prod.fst).Nodup) : ((m.set k v).map Prod.fst).Nodup := by
  induction m with
  | nil => simp [GoMap.set]
  | cons kv m ih =>
    obtain ⟨k1, v1⟩ := kv
    obtain ⟨h1, h2⟩ := List.nodup_cons.mp h
    by_cases hk : k1 = k
    · subst hk
      simpa [GoMap.set] using h
    · simp only [GoMap.set, hk, if_false, List.map_cons]
      refine List.nodup_cons.mpr ⟨?_, ih h2⟩
      intro h3
      rcases GoMap_mem_keys_set m k k1 v h3 with h4 | h4
      · exact hk h4
      · exact h1 h4

theorem classify_keys_nodup (e : Env) (appName : String) (services : List Service) :
    ((classify e appName services).1.map Prod.fst).Nodup := by
  have h : ∀ acc : GoMap (List String) × List Service, (acc.1.map Prod.fst).Nodup →
      (((services.foldl (classifyStep e appName) acc).1).map Prod.fst).Nodup := by
    induction services with
    | nil => intro acc hacc; exact hacc
    | cons s rest ih =>
      intro acc hacc
      rw [List.foldl_cons]
      apply ih
      unfold classifyStep
      split
      · exact GoMap_set_keys_nodup _ _ _ hacc
      · exact hacc
  exact h ([], []) (by simp)

/-- C3, amended: an image of the pull aggregation is inspected at most once
in a run, and exactly once unless the run ends without success before the
image is reached; and when an inspection of the image has succeeded with
output `output`, then `pull <image>` is issued, once and right after the
inspection, if `opts.Cache` is false or the output is empty, and is not
issued at all otherwise. -/
theorem Build_inspects_and_pulls (m : Manifest) (e : Env) (dir appName : String)
    (opts : BuildOptions) (services : List Service)
    (horder : m.runOrder opts.Service = .ok services) (image : String)
    (himage : image ∈ (classify e appName services).1.map Prod.fst) :
    ((m.Build e dir appName opts).1.calls.count (inspectCall image) = 1 ∨
      ((m.Build e dir appName opts).1.calls.count (inspectCall image) = 0 ∧
        ∀ u, (m.Build e dir appName opts).2 ≠ .ok u)) ∧
    ∀ pre post output, (m.Build e dir appName opts).1.calls = pre ++ inspectCall image :: post →
      e.CombinedOutput pre ["images", "-q", image] = .ok output →
      ((opts.Cache = false ∨ output.length = 0) →
        post.head? = some (pullCall image) ∧
        (m.Build e dir appName opts).1.calls.count (pullCall image) = 1) ∧
      (¬ (opts.Cache = false ∨ output.length = 0) →
        (m.Build e dir appName opts).1.calls.count (pullCall image) = 0) := by
  obtain ⟨newB, hB, hBcalls⟩ := runBuilds_calls_ext e dir appName opts
    (classify e appName services).2 [] ⟨[], []⟩
  have hBinspect : inspectCall image ∉ newB := by
    intro h
    have h1 := (hBcalls _ h).1
    simp [inspectCall] at h1
  have hBpull : newB.count (pullCall image) = 0 := by
    rw [List.count_eq_zero]
    intro h
    have h1 := (hBcalls _ h).2
    simp [pullCall] at h1
  cases hr : runBuilds e dir appName opts (classify e appName services).2 [] ⟨[], []⟩ with
  | mk st r =>
    rw [hr] at hB
    simp only [List.nil_append] at hB
    by_cases hrok : ∃ u, r = .ok u
    swap
    · have hnot : ∀ u, r ≠ .ok u := fun u h => hrok ⟨u, h⟩
      rw [Build_of_runBuilds_not_ok m e dir appName opts services st r horder hr hnot]
      dsimp only
      rw [hB]
      refine ⟨Or.inr ⟨List.count_eq_zero.mpr hBinspect, hnot⟩, ?_⟩
      intro pre post output hsplit
      exfalso
      apply hBinspect
      rw [hsplit]
      simp
    obtain ⟨u, hu⟩ := hrok
    subst hu
    · rw [Build_of_runBuilds_ok m e dir appName opts services st u horder hr]
      have hperm := e.rangeOrder_perm (classify e appName services).1
      have hkeys := hperm.map Prod.fst
      obtain ⟨new, h1, r1, r2, r3, r4⟩ := runPulls_PullTrace e opts
        (e.rangeOrder (classify e appName services).1)
        (hkeys.nodup_iff.mpr (classify_keys_nodup e appName services)) st
      have himage2 : image ∈ (e.rangeOrder (classify e appName services).1).map Prod.fst :=
        hkeys.mem_iff.mpr himage
      rw [h1, hB]
      refine ⟨?_, ?_⟩
      · rw [List.count_append, List.count_eq_zero.mpr hBinspect, Nat.zero_add]
        by_cases h2 : new.count (inspectCall image) = 1
        · exact Or.inl h2
        · refine Or.inr ⟨?_, ?_⟩
          · have := r2 image
            omega
          · intro u1 h3
            exact h2 (r3 ⟨u1, h3⟩ image himage2)
      · intro pre post output hsplit hout
        obtain ⟨pre1, hpre, hnew⟩ := split_after _ _ _ _ _ hsplit hBinspect
        obtain ⟨h2, h3⟩ := r4 pre1 post image hnew
        rw [hB, ← hpre] at h2 h3
        rw [List.count_append, hBpull, Nat.zero_add, h2]
        constructor
        · intro hc
          have hdue : pullDue e opts pre image = true := by
            rcases hc with hc | hc <;> simp [pullDue, hout, hc]
          exact ⟨h3 hdue, by simp [hdue]⟩
        · intro hc
          have hdue : pullDue e opts pre image = false := by
            have h4 : opts.Cache = true := by
              cases h5 : opts.Cache
              · exact absurd (Or.inl h5) hc
              · rfl
            have h6 : output.length ≠ 0 := fun h7 => hc (Or.inr h7)
            simp [pullDue, hout, h4, h6]
          simp [hdue]

/-- C3 on an example: with `Cache` true, `nginx:latest` is present locally and
`redis:latest` is not; each is inspected once, only `redis:latest` is pulled;
with `Cache` false both are pulled. -/
theorem Build_inspects_and_pulls_witness :
    "nginx:latest" ∈ (classify
        (exampleEnv (fun _ => .ok "") (fun _ _ => none) exampleLocalNginx) "app"
        [exampleExternal "web" "nginx", exampleExternal "db" "redis"]).1.map Prod.fst ∧
    ((exampleManifest [exampleExternal "web" "nginx", exampleExternal "db" "redis"]).Build
        (exampleEnv (fun _ => .ok "") (fun _ _ => none) exampleLocalNginx)
        "/src" "app" (exampleOpts true (fun _ => none))).1.calls
      = [inspectCall "nginx:latest", tagCall "nginx:latest" "app/web",
          inspectCall "redis:latest", pullCall "redis:latest",
          tagCall "redis:latest" "app/db"] ∧
    ((exampleManifest [exampleExternal "web" "nginx", exampleExternal "db" "redis"]).Build
        (exampleEnv (fun _ => .ok "") (fun _ _ => none) exampleLocalNginx)
        "/src" "app" (exampleOpts false (fun _ => none))).1.calls
      = [inspectCall "nginx:latest", pullCall "nginx:latest",
          tagCall "nginx:latest" "app/web", inspectCall "redis:latest",
          pullCall "redis:latest", tagCall "redis:latest" "app/db"] ∧
    (((exampleManifest [exampleExternal "web" "nginx", exampleExternal "db" "redis"]).Build
          (exampleEnv (fun _ => .ok "") (fun _ _ => none) exampleLocalNginx)
          "/src" "app" (exampleOpts true (fun _ => none))).1.calls.count
          (inspectCall "nginx:latest") = 1 ∨
      (((exampleManifest [exampleExternal "web" "nginx", exampleExternal "db" "redis"]).Build
          (exampleEnv (fun _ => .ok "") (fun _ _ => none) exampleLocalNginx)
          "/src" "app" (exampleOpts true (fun _ => none))).1.calls.count
          (inspectCall "nginx:latest") = 0 ∧
        ∀ u, ((exampleManifest [exampleExternal "web" "nginx",
            exampleExternal "db" "redis"]).Build
          (exampleEnv (fun _ => .ok "") (fun _ _ => none) exampleLocalNginx)
          "/src" "app" (exampleOpts true (fun _ => none))).2 ≠ .ok u)) :=
  ⟨by decide, by decide, by decide,
    (Build_inspects_and_pulls
      (exampleManifest [exampleExternal "web" "nginx", exampleExternal "db" "redis"])
      (exampleEnv (fun _ => .ok "") (fun _ _ => none) exampleLocalNginx)
      "/src" "app" (exampleOpts true (fun _ => none))
      [exampleExternal "web" "nginx", exampleExternal "db" "redis"] rfl "nginx:latest"
      (by decide)).1⟩

/-- C3, counterexample: two external images and a runner whose inspection
fails.  `redis:latest` is in the pull aggregation, but the run ends at the
failed inspection of `nginx:latest` and `redis:latest` is never inspected. -/
theorem Build_uninspected_image_counterexample :
    "redis:latest" ∈ (classify
        (exampleEnv (fun _ => .ok "") (fun _ _ => none) (fun _ _ => .error "exit status 1"))
        "app" [exampleExternal "web" "nginx", exampleExternal "db" "redis"]).1.map Prod.fst ∧
    ((exampleManifest [exampleExternal "web" "nginx", exampleExternal "db" "redis"]).Build
        (exampleEnv (fun _ => .ok "") (fun _ _ => none) (fun _ _ => .error "exit status 1"))
        "/src" "app" (exampleOpts true (fun _ => none)))
      = (⟨[inspectCall "nginx:latest"], []⟩, .err "exit status 1") ∧
    ((exampleManifest [exampleExternal "web" "nginx", exampleExternal "db" "redis"]).Build
        (exampleEnv (fun _ => .ok "") (fun _ _ => none) (fun _ _ => .error "exit status 1"))
        "/src" "app" (exampleOpts true (fun _ => none))).1.calls.count
        (inspectCall "redis:latest") = 0 := by
  decide

/-! ## The recorded destination tags (C11) -/

theorem GoMap_mem_keys_iff {α : Type} (m : GoMap α) (k : String) :
    k ∈ m.map Prod.fst ↔ (m.get? k).isSome = true := by
  induction m with
  | nil => simp [GoMap.get?]
  | cons kv m ih =>
    obtain ⟨k1, v1⟩ := kv
    by_cases h : k1 = k
    · simp [GoMap.get?, h]
    · have h2 : ¬ k = k1 := fun h3 => h h3.symm
      simp [GoMap.get?, h, h2, ih]

theorem classify_foldl_get? (e : Env) (appName : String) (services : List Service)
    (acc : GoMap (List String) × List Service) (key : String) :
    (services.foldl (classifyStep e appName) acc).1.get? key
      = if specTagsFor e appName services key = [] then acc.1.get? key
        else some ((acc.1.get? key).getD [] ++ specTagsFor e appName services key) := by
  induction services generalizing acc with
  | nil => simp [specTagsFor]
  | cons s rest ih =>
    rw [List.foldl_cons, ih]
    by_cases himage : s.Image = ""
    · have h1 : specTagsFor e appName (s :: rest) key = specTagsFor e appName rest key := by
        simp [specTagsFor, List.filter_cons, himage]
      simp [h1, classifyStep, himage]
    · by_cases hkey : normalizeImage s.Image = key
      · have h1 : specTagsFor e appName (s :: rest) key
            = e.Tag s appName :: specTagsFor e appName rest key := by
          simp [specTagsFor, List.filter_cons, himage, hkey]
        have h2 : (classifyStep e appName acc s).1.get? key
            = some ((acc.1.get? key).getD [] ++ [e.Tag s appName]) := by
          simp [classifyStep, himage, hkey, GoMap_get?_set_self]
        rw [h1, h2]
        by_cases h3 : specTagsFor e appName rest key = []
        · simp [h3]
        · simp [h3]
      · have h1 : specTagsFor e appName (s :: rest) key = specTagsFor e appName rest key := by
          simp [specTagsFor, List.filter_cons, himage, hkey]
        have h2 : (classifyStep e appName acc s).1.get? key = acc.1.get? key := by
          simp [classifyStep, himage, GoMap_get?_set_ne _ _ _ _ hkey]
        rw [h1, h2]

theorem classify_get? (e : Env) (appName : String) (services : List Service) (key : String) :
    (classify e appName services).1.get? key
      = if specTagsFor e appName services key = [] then none
        else some (specTagsFor e appName services key) := by
  have h := classify_foldl_get? e appName services ([], []) key
  simpa [classify, GoMap.get?] using h

theorem specTagsFor_ne_nil_iff (e : Env) (appName : String) (services : List Service)
    (key : String) :
    specTagsFor e appName services key ≠ []
      ↔ ∃ s ∈ services, s.Image ≠ "" ∧ normalizeImage s.Image = key := by
  unfold specTagsFor
  rw [Ne, List.map_eq_nil_iff, List.filter_eq_nil_iff]
  simp

/-- C11: after classification the map `pulls` has, under each key, exactly the
destination tags of the resolved services whose image normalizes to that key,
in resolved order, one entry per such service; a key is present exactly when
some resolved service carries an image that normalizes to it, and no key is
present twice. -/
theorem classify_recorded_tags (e : Env) (appName : String) (services : List Service)
    (key : String) :
    (classify e appName services).1.get? key
      = (if specTagsFor e appName services key = [] then none
          else some (specTagsFor e appName services key)) ∧
    (specTagsFor e appName services key).length
      = (services.filter
          (fun s => decide (s.Image ≠ "" ∧ normalizeImage s.Image = key))).length ∧
    (key ∈ (classify e appName services).1.map Prod.fst
      ↔ ∃ s ∈ services, s.Image ≠ "" ∧ normalizeImage s.Image = key) ∧
    ((classify e appName services).1.map Prod.fst).Nodup := by
  refine ⟨classify_get? e appName services key, by simp [specTagsFor], ?_,
    classify_keys_nodup e appName services⟩
  rw [GoMap_mem_keys_iff, classify_get?, ← specTagsFor_ne_nil_iff e appName services key]
  by_cases h : specTagsFor e appName services key = [] <;> simp [h]

/-- C11 on an example: `web` and `proxy` run `nginx` and `nginx:latest`, `db`
runs `redis:7`, `api` is built; the two tags of `nginx:latest` are recorded in
resolved order and `redis:7` has one. -/
theorem classify_recorded_tags_witness :
    (classify exampleArgEnv "app"
        [exampleExternal "web" "nginx", exampleExternal "db" "redis:7",
          exampleBuilt "api" ".", exampleExternal "proxy" "nginx:latest"]).1
      = [("nginx:latest", ["app/web", "app/proxy"]), ("redis:7", ["app/db"])] ∧
    (classify exampleArgEnv "app"
        [exampleExternal "web" "nginx", exampleExternal "db" "redis:7",
          exampleBuilt "api" ".", exampleExternal "proxy" "nginx:latest"]).1.get? "nginx:latest"
      = (if specTagsFor exampleArgEnv "app"
            [exampleExternal "web" "nginx", exampleExternal "db" "redis:7",
              exampleBuilt "api" ".", exampleExternal "proxy" "nginx:latest"] "nginx:latest" = []
          then none
          else some (specTagsFor exampleArgEnv "app"
            [exampleExternal "web" "nginx", exampleExternal "db" "redis:7",
              exampleBuilt "api" ".", exampleExternal "proxy" "nginx:latest"] "nginx:latest")) :=
  ⟨by decide,
    (classify_recorded_tags exampleArgEnv "app"
      [exampleExternal "web" "nginx", exampleExternal "db" "redis:7",
        exampleBuilt "api" ".", exampleExternal "proxy" "nginx:latest"] "nginx:latest").1⟩

/-! ## Repeated declarations (C16) -/

theorem count_filterMap_eq_length_filter {α : Type} (f : α → Option String) (l : List α)
    (x : String) :
    (l.filterMap f).count x = (l.filter (fun a => decide (f a = some x))).length := by
  induction l with
  | nil => rfl
  | cons a rest ih =>
    rw [List.filterMap_cons, List.filter_cons]
    cases h : f a with
    | none => simpa using ih
    | some y =>
      by_cases hy : y = x
      · subst hy
        simp [List.count_cons, ih]
      · have hy2 : ¬ (y == x) = true := by simpa using hy
        simp [List.count_cons, ih, hy, hy2]

theorem flatMap_buildArgFlag_eq_pairs (e : Env) (opts : BuildOptions) (l : List String) :
    l.flatMap (fun ba =>
        match opts.Environment ba with
        | some v => ["--build-arg", ba ++ "=" ++ e.Quote v]
        | none => [])
      = (l.filterMap (fun ba => (opts.Environment ba).map (fun v => (ba, v)))).flatMap
          (fun p => ["--build-arg", p.1 ++ "=" ++ e.Quote p.2]) := by
  induction l with
  | nil => rfl
  | cons ba rest ih =>
    rw [List.flatMap_cons, ih, List.filterMap_cons]
    cases opts.Environment ba <;> simp

theorem count_passed_eq_count (opts : BuildOptions) (l : List String) (name v : String)
    (hv : opts.Environment name = some v) :
    (l.filterMap (fun ba => (opts.Environment ba).map (fun v => (ba, v)))).count (name, v)
      = l.count name := by
  induction l with
  | nil => rfl
  | cons ba rest ih =>
    rw [List.filterMap_cons]
    by_cases hba : ba = name
    · subst hba
      simp [hv, List.count_cons, ih]
    · have hba2 : ¬ (ba == name) = true := by simpa using hba
      cases h : opts.Environment ba with
      | none => simp [List.count_cons, ih, hba2]
      | some w =>
        have hne : ¬ ((ba, w) == (name, v)) = true := by
          intro h2
          apply hba
          have h3 : (ba, w) = (name, v) := by simpa using h2
          exact congrArg Prod.fst h3
        simp only [Option.map_some', List.count_cons, ih, hne, hba2, if_false]

theorem buildService_build_calls (e : Env) (dir appName : String) (opts : BuildOptions)
    (service : Service) (buildCache : GoMap String) (st : State) (bargs : List String)
    (hmiss : buildCache.get? (e.Hash service.Build) = none)
    (hb : buildArgs e.ReadFile (buildDockerfile e dir service) = .ok bargs) :
    (buildService e dir appName opts service buildCache st).1.calls
      = st.calls ++ [⟨.Run, buildCommand e dir appName opts service bargs⟩] := by
  unfold buildService
  rw [hmiss]
  simp only [hb]
  cases e.Run
      ((st.print ("context = " ++ buildContext e dir service ++ "\n")).print
        ("dockerFile = " ++ buildDockerfile e dir service ++ "\n")).calls
      (buildCommand e dir appName opts service bargs) <;> rfl

/-- C16, amended: for a service whose build file is readable, has fewer than
`bufio.MaxScanTokenSize` bytes on every line as the Scanner reads it (the
bytes before the line feed, a carriage return that precedes the line feed
counted: `bufio.rawLines`) and has a second token on every line whose first
token is `ARG`, `buildArgs` returns each declared name once per line that
declares it, so the result is free of repetitions exactly when no name is
declared on two lines; and the build command that the loop body issues for
the service, when its signature is not in the build cache, carries between
`build` (with `--no-cache` or not) and `-f` one pair `--build-arg`,
`NAME=` quoted value per returned name that has an entry in
`opts.Environment`: a name with an entry gives as many pairs as there are
lines that declare it, a name without entry gives none. -/
theorem buildArgs_counts_declarations (e : Env) (dir appName : String) (opts : BuildOptions)
    (service : Service) (buildCache : GoMap String) (st : State) (data : String)
    (hread : e.ReadFile (buildDockerfile e dir service) = .ok data)
    (hfit : ∀ l ∈ bufio.rawLines data.data, bufio.byteLen l < bufio.MaxScanTokenSize)
    (htok : ∀ l ∈ specLines data,
      (strings.Fields l).head? = some "ARG".data → 2 ≤ (strings.Fields l).length)
    (hmiss : buildCache.get? (e.Hash service.Build) = none) :
    ∃ names passed, buildArgs e.ReadFile (buildDockerfile e dir service) = .ok names ∧
      (∀ name, names.count name
        = ((specLines data).filter
            (fun l => decide (specDeclaredName l = some name))).length) ∧
      (names.Nodup ↔ ∀ name, ((specLines data).filter
        (fun l => decide (specDeclaredName l = some name))).length ≤ 1) ∧
      (buildService e dir appName opts service buildCache st).1.calls
        = st.calls ++ [⟨.Run, ["build"] ++ (if opts.Cache = false then ["--no-cache"] else [])
            ++ passed.flatMap (fun p => ["--build-arg", p.1 ++ "=" ++ e.Quote p.2])
            ++ ["-f", buildDockerfile e dir service, "-t", e.Tag service appName,
                buildContext e dir service]⟩] ∧
      passed = names.filterMap (fun ba => (opts.Environment ba).map (fun v => (ba, v))) ∧
      (∀ name v, opts.Environment name = some v →
        passed.count (name, v)
          = ((specLines data).filter
              (fun l => decide (specDeclaredName l = some name))).length) ∧
      (∀ name, opts.Environment name = none → ∀ v, (name, v) ∉ passed) := by
  have hcount : ∀ name, ((specLines data).filterMap specDeclaredName).count name
      = ((specLines data).filter
          (fun l => decide (specDeclaredName l = some name))).length :=
    count_filterMap_eq_length_filter specDeclaredName (specLines data)
  have hb : buildArgs e.ReadFile (buildDockerfile e dir service)
      = .ok ((specLines data).filterMap specDeclaredName) := by
    unfold buildArgs
    rw [hread]
    simp only [bufio_Scan_eq_specLines data hfit]
    simpa using buildArgsLoop_eq_spec (specLines data) [] htok
  refine ⟨(specLines data).filterMap specDeclaredName, _, hb, hcount, ?_, ?_, rfl, ?_, ?_⟩
  · rw [List.nodup_iff_count_le_one]
    constructor
    · intro h name
      rw [← hcount]
      exact h name
    · intro h name
      rw [hcount]
      exact h name
  · rw [buildService_build_calls e dir appName opts service buildCache st _ hmiss hb,
      buildCommand_eq, flatMap_buildArgFlag_eq_pairs]
  · intro name v hv
    rw [count_passed_eq_count opts _ name v hv]
    exact hcount name
  · intro name hnone v hmem
    simp only [List.mem_filterMap, Option.map_eq_some'] at hmem
    obtain ⟨ba, _, w, hw, heq⟩ := hmem
    have h1 : ba = name := congrArg Prod.fst heq
    rw [h1, hnone] at hw
    exact Option.noConfusion hw

/-- C16 on an example: `A` is declared on the first and on the third line, `B`
on the second, and the environment has an entry for `A` only.  `buildArgs`
returns `A` twice, and the build command of the service carries
`--build-arg A="1"` twice and nothing for `B`. -/
theorem buildArgs_counts_declarations_witness :
    buildArgs exampleRepeatEnv.ReadFile "/src/Dockerfile" = .ok ["A", "B", "A"] ∧
    ((specLines "ARG A=1\nARG B\nARG A=2\n").filter
      (fun l => decide (specDeclaredName l = some "A"))).length = 2 ∧
    ((exampleManifest [exampleBuilt "a" "."]).Build exampleRepeatEnv "/src" "app"
        (exampleOpts true exampleOnlyA)).1.calls
      = [⟨.Run, ["build", "--build-arg", "A=\"1\"", "--build-arg", "A=\"1\"", "-f",
          "/src/Dockerfile", "-t", "app/a", "/src"]⟩] ∧
    ∃ names passed,
      buildArgs exampleRepeatEnv.ReadFile
          (buildDockerfile exampleRepeatEnv "/src" (exampleBuilt "a" ".")) = .ok names ∧
      (∀ name, names.count name
        = ((specLines "ARG A=1\nARG B\nARG A=2\n").filter
            (fun l => decide (specDeclaredName l = some name))).length) ∧
      (names.Nodup ↔ ∀ name, ((specLines "ARG A=1\nARG B\nARG A=2\n").filter
        (fun l => decide (specDeclaredName l = some name))).length ≤ 1) ∧
      (buildService exampleRepeatEnv "/src" "app" (exampleOpts true exampleOnlyA)
          (exampleBuilt "a" ".") [] ⟨[], []⟩).1.calls
        = (⟨[], []⟩ : State).calls ++ [⟨.Run, ["build"]
            ++ (if (exampleOpts true exampleOnlyA).Cache = false then ["--no-cache"] else [])
            ++ passed.flatMap
                (fun p => ["--build-arg", p.1 ++ "=" ++ exampleRepeatEnv.Quote p.2])
            ++ ["-f", buildDockerfile exampleRepeatEnv "/src" (exampleBuilt "a" "."), "-t",
                exampleRepeatEnv.Tag (exampleBuilt "a" ".") "app",
                buildContext exampleRepeatEnv "/src" (exampleBuilt "a" ".")]⟩] ∧
      passed = names.filterMap
        (fun ba => ((exampleOpts true exampleOnlyA).Environment ba).map (fun v => (ba, v))) ∧
      (∀ name v, (exampleOpts true exampleOnlyA).Environment name = some v →
        passed.count (name, v)
          = ((specLines "ARG A=1\nARG B\nARG A=2\n").filter
              (fun l => decide (specDeclaredName l = some name))).length) ∧
      (∀ name, (exampleOpts true exampleOnlyA).Environment name = none →
        ∀ v, (name, v) ∉ passed) :=
  ⟨by decide, by decide, by decide,
    buildArgs_counts_declarations exampleRepeatEnv "/src" "app"
      (exampleOpts true exampleOnlyA) (exampleBuilt "a" ".") [] ⟨[], []⟩
      "ARG A=1\nARG B\nARG A=2\n" rfl (by decide) (by decide) rfl⟩

/-- C16, counterexample: the build file declares `A` on two lines; `buildArgs`
returns `A` twice, and with `A` in the environment the build command carries
`--build-arg A="1"` twice. -/
theorem buildArgs_repeated_name_counterexample :
    buildArgs (fun _ => .ok "ARG A\nARG A\n") "Dockerfile" = .ok ["A", "A"] ∧
    ¬ (["A", "A"] : List String).Nodup ∧
    ((exampleManifest [exampleBuilt "a" "."]).Build
        (exampleEnv (fun _ => .ok "ARG A\nARG A\n") (fun _ _ => none) (fun _ _ => .ok ""))
        "/src" "app" (exampleOpts true (fun k => if k = "A" then some "1" else none))).1.calls
      = [⟨.Run, ["build", "--build-arg", "A=\"1\"", "--build-arg", "A=\"1\"", "-f",
          "/src/Dockerfile", "-t", "app/a", "/src"]⟩] := by
  decide

/-! ## The two parts of a trace -/

theorem runPulls_pull_le_inspect (e : Env) (opts : BuildOptions)
    (pulls : GoMap (List String)) (st : State) (new : List Call)
    (hnew : (runPulls e opts pulls st).1.calls = st.calls ++ new) (image : String) :
    new.count (pullCall image) ≤ new.count (inspectCall image) := by
  induction pulls generalizing st new with
  | nil =>
    have h : new = [] := by
      have h1 : st.calls ++ new = st.calls ++ [] := by simpa [runPulls] using hnew.symm
      exact List.append_cancel_left h1
    simp [h]
  | cons kv rest ih =>
    obtain ⟨k, tags⟩ := kv
    obtain ⟨tagCalls, h1, h2⟩ := pullImage_calls_ext e opts k tags st
    have hseg := segment_counts k (pullDue e opts st.calls k) tagCalls tags h1 image
    have hle : (inspectCall k ::
          ((if pullDue e opts st.calls k then [pullCall k] else []) ++ tagCalls)).count
          (pullCall image)
        ≤ (inspectCall k ::
          ((if pullDue e opts st.calls k then [pullCall k] else []) ++ tagCalls)).count
          (inspectCall image) := by
      rw [hseg.1, hseg.2]
      by_cases hk : image = k <;> simp [hk]
      split <;> simp
    generalize inspectCall k ::
      ((if pullDue e opts st.calls k then [pullCall k] else []) ++ tagCalls) = seg at h2 hle
    cases hr : pullImage e opts k tags st with
    | mk st1 r =>
      rw [hr] at h2
      dsimp only at h2
      have hstop : (∀ u, r ≠ .ok u) →
          new.count (pullCall image) ≤ new.count (inspectCall image) := by
        intro hnot
        rw [runPulls_cons_not_ok e opts k tags rest st st1 r hr hnot] at hnew
        dsimp only at hnew
        rw [h2] at hnew
        rw [← List.append_cancel_left hnew]
        exact hle
      cases r with
      | ok u =>
        rw [runPulls_cons_ok e opts k tags rest st st1 u hr] at hnew
        obtain ⟨new1, h3, _⟩ := runPulls_calls_ext e opts rest st1
        have h4 := ih st1 new1 h3
        rw [h3, h2, List.append_assoc] at hnew
        rw [← List.append_cancel_left hnew, List.count_append, List.count_append]
        omega
      | err msg => exact hstop (by simp)
      | panic msg => exact hstop (by simp)

/-- A trace of `Build` is the calls of the build path followed by the calls of
the pull path; the second part is empty when the build path does not end
well. -/
theorem Build_phases (m : Manifest) (e : Env) (dir appName : String) (opts : BuildOptions)
    (services : List Service) (horder : m.runOrder opts.Service = .ok services) :
    ∃ newP, (m.Build e dir appName opts).1.calls
        = (runBuilds e dir appName opts (classify e appName services).2 [] ⟨[], []⟩).1.calls
          ++ newP ∧
      PullTrace e opts ((e.rangeOrder (classify e appName services).1).map Prod.fst)
        (runBuilds e dir appName opts (classify e appName services).2 [] ⟨[], []⟩).1.calls
        newP (∃ u, (m.Build e dir appName opts).2 = .ok u) ∧
      (∀ image, newP.count (pullCall image) ≤ newP.count (inspectCall image)) ∧
      (∀ c ∈ newP, ∃ kv ∈ e.rangeOrder (classify e appName services).1,
        c = inspectCall kv.1 ∨ c = pullCall kv.1 ∨ ∃ t ∈ kv.2, c = tagCall kv.1 t) ∧
      ((∀ u, (runBuilds e dir appName opts (classify e appName services).2 []
          ⟨[], []⟩).2 ≠ .ok u) →
        newP = [] ∧ (m.Build e dir appName opts).2
          = (runBuilds e dir appName opts (classify e appName services).2 [] ⟨[], []⟩).2) := by
  cases hr : runBuilds e dir appName opts (classify e appName services).2 [] ⟨[], []⟩ with
  | mk st r =>
    by_cases hrok : ∃ u, r = .ok u
    · obtain ⟨u, hu⟩ := hrok
      subst hu
      rw [Build_of_runBuilds_ok m e dir appName opts services st u horder hr]
      have hkeys := (e.rangeOrder_perm (classify e appName services).1).map Prod.fst
      obtain ⟨new, h1, hPT⟩ := runPulls_PullTrace e opts
        (e.rangeOrder (classify e appName services).1)
        (hkeys.nodup_iff.mpr (classify_keys_nodup e appName services)) st
      obtain ⟨new2, h2, hforms⟩ := runPulls_calls_ext e opts
        (e.rangeOrder (classify e appName services).1) st
      have heq : new2 = new := List.append_cancel_left (h2.symm.trans h1)
      subst heq
      exact ⟨new2, h1, hPT,
        runPulls_pull_le_inspect e opts _ st new2 h1, hforms, fun h => absurd rfl (h u)⟩
    · have hnot : ∀ u, r ≠ .ok u := fun u h => hrok ⟨u, h⟩
      rw [Build_of_runBuilds_not_ok m e dir appName opts services st r horder hr hnot]
      refine ⟨[], by simp, PullTrace_nil e opts _ _ _ ?_, by simp, by simp, fun _ => ⟨rfl, rfl⟩⟩
      rintro ⟨u, hu⟩
      exact absurd hu (hnot u)

theorem Build_buildPath_no_inspect_pull (e : Env) (dir appName : String)
    (opts : BuildOptions) (builds : List Service) (image : String) :
    (runBuilds e dir appName opts builds [] ⟨[], []⟩).1.calls.count (inspectCall image) = 0 ∧
    (runBuilds e dir appName opts builds [] ⟨[], []⟩).1.calls.count (pullCall image) = 0 := by
  obtain ⟨newB, hB, hBcalls⟩ := runBuilds_calls_ext e dir appName opts builds [] ⟨[], []⟩
  rw [hB]
  simp only [List.nil_append]
  constructor
  · rw [List.count_eq_zero]
    intro h
    have h1 := (hBcalls _ h).1
    simp [inspectCall] at h1
  · rw [List.count_eq_zero]
    intro h
    have h1 := (hBcalls _ h).2
    simp [pullCall] at h1

theorem Build_inspect_pull_le_one (m : Manifest) (e : Env) (dir appName : String)
    (opts : BuildOptions) (services : List Service)
    (horder : m.runOrder opts.Service = .ok services) (image : String) :
    (m.Build e dir appName opts).1.calls.count (inspectCall image) ≤ 1 ∧
    (m.Build e dir appName opts).1.calls.count (pullCall image) ≤ 1 := by
  obtain ⟨newP, h1, ⟨_, r2, _, _⟩, hle, _, _⟩ := Build_phases m e dir appName opts services horder
  obtain ⟨hB1, hB2⟩ := Build_buildPath_no_inspect_pull e dir appName opts
    (classify e appName services).2 image
  rw [h1, List.count_append, List.count_append, hB1, hB2]
  have h3 := r2 image
  have h4 := hle image
  omega

/-! ## Normalization is idempotent (C19) -/

theorem normalizeImage_append_latest (r : String) (p seg : List Char)
    (hsplit : r.data = p ++ seg) (hseg : '/' ∉ seg)
    (hp : p = [] ∨ p.getLast? = some '/') :
    normalizeImage (r ++ ":latest") = r ++ ":latest" := by
  have h1 : (r ++ ":latest").data = p ++ (seg ++ ":latest".data) := by
    rw [String.data_append, hsplit, List.append_assoc]
  have h2 : '/' ∉ seg ++ ":latest".data := by
    intro h
    rcases List.mem_append.mp h with h | h
    · exact hseg h
    · exact absurd h (by decide)
  have h3 : ':' ∈ seg ++ ":latest".data :=
    List.mem_append_right _ (by decide)
  rw [normalizeImage_eq (r ++ ":latest") p (seg ++ ":latest".data) h1 h2 hp, if_pos h3]

theorem normalizeImage_normalizeImage (r : String) :
    normalizeImage (normalizeImage r) = normalizeImage r := by
  obtain ⟨p, hsplit, hseg, hp⟩ := strings_Split_getLastD '/' r.data
  have h := normalizeImage_eq r p _ hsplit hseg hp
  by_cases hc : ':' ∈ (strings.Split '/' r.data).getLastD []
  · rw [if_pos hc] at h
    rw [h, h]
  · rw [if_neg hc] at h
    rw [h]
    exact normalizeImage_append_latest r p _ hsplit hseg hp

theorem normalizeImage_has_tag (r : String) (p seg : List Char)
    (hsplit : (normalizeImage r).data = p ++ seg) (hseg : '/' ∉ seg)
    (hp : p = [] ∨ p.getLast? = some '/') : ':' ∈ seg := by
  have h1 := normalizeImage_eq (normalizeImage r) p seg hsplit hseg hp
  rw [normalizeImage_normalizeImage] at h1
  by_contra hc
  rw [if_neg hc] at h1
  have h2 := congrArg (fun s : String => s.data.length) h1
  simp [String.data_append] at h2

theorem append_latest_ne_empty (r : String) : r ++ ":latest" ≠ "" := by
  intro h
  have h2 := congrArg (fun s : String => s.data.length) h
  simp [String.data_append] at h2

/-- C19: normalization is idempotent for every non-empty reference `r`, and
the segment after the last "/" of a normalized reference contains ":"; when
the last segment of `r` has no ":", a service with image `r` and a service
with image `r` followed by ":latest" are recorded under the one key `r`
followed by ":latest", and in every run that key is inspected at most once
(once when the run returns without error) and pulled at most once. -/
theorem normalizeImage_idempotent (r : String) (hr : r ≠ "") :
    normalizeImage (normalizeImage r) = normalizeImage r ∧
    (∀ p seg, (normalizeImage r).data = p ++ seg → '/' ∉ seg →
      (p = [] ∨ p.getLast? = some '/') → ':' ∈ seg) ∧
    ∀ p seg, r.data = p ++ seg → '/' ∉ seg → (p = [] ∨ p.getLast? = some '/') → ':' ∉ seg →
      ∀ (m : Manifest) (e : Env) (dir appName : String) (opts : BuildOptions)
        (services : List Service) (s1 s2 : Service),
        m.runOrder opts.Service = .ok services → s1 ∈ services → s2 ∈ services →
        s1.Image = r → s2.Image = r ++ ":latest" →
        normalizeImage s1.Image = r ++ ":latest" ∧
        normalizeImage s2.Image = r ++ ":latest" ∧
        (∃ tags, (classify e appName services).1.get? (r ++ ":latest") = some tags ∧
          e.Tag s1 appName ∈ tags ∧ e.Tag s2 appName ∈ tags) ∧
        (m.Build e dir appName opts).1.calls.count (inspectCall (r ++ ":latest")) ≤ 1 ∧
        (m.Build e dir appName opts).1.calls.count (pullCall (r ++ ":latest")) ≤ 1 ∧
        ((∃ u, (m.Build e dir appName opts).2 = .ok u) →
          (m.Build e dir appName opts).1.calls.count (inspectCall (r ++ ":latest")) = 1) := by
  refine ⟨normalizeImage_normalizeImage r, normalizeImage_has_tag r, ?_⟩
  intro p seg hsplit hseg hp hnotag m e dir appName opts services s1 s2 horder hs1 hs2 h1 h2
  have hn1 : normalizeImage s1.Image = r ++ ":latest" := by
    rw [h1, normalizeImage_eq r p seg hsplit hseg hp, if_neg hnotag]
  have hn2 : normalizeImage s2.Image = r ++ ":latest" := by
    rw [h2]
    exact normalizeImage_append_latest r p seg hsplit hseg hp
  obtain ⟨tags1, ht1, hmem1⟩ := classify_foldl_recorded e appName services ([], []) s1 hs1
    (by rw [h1]; exact hr)
  obtain ⟨tags2, ht2, hmem2⟩ := classify_foldl_recorded e appName services ([], []) s2 hs2
    (by rw [h2]; exact append_latest_ne_empty r)
  rw [hn1] at ht1
  rw [hn2] at ht2
  have htags : tags2 = tags1 := by
    rw [ht1] at ht2
    exact (Option.some.inj ht2).symm
  obtain ⟨hle1, hle2⟩ := Build_inspect_pull_le_one m e dir appName opts services horder
    (r ++ ":latest")
  refine ⟨hn1, hn2, ⟨tags1, ht1, hmem1, htags ▸ hmem2⟩, hle1, hle2, ?_⟩
  intro hok
  obtain ⟨newP, hcalls, ⟨_, _, r3, _⟩, _, _, _⟩ :=
    Build_phases m e dir appName opts services horder
  have hkey : r ++ ":latest" ∈ (e.rangeOrder (classify e appName services).1).map Prod.fst := by
    rw [((e.rangeOrder_perm (classify e appName services).1).map Prod.fst).mem_iff,
      GoMap_mem_keys_iff]
    have : (classify e appName services).1.get? (r ++ ":latest") = some tags1 := ht1
    rw [this]
    rfl
  rw [hcalls, List.count_append,
    (Build_buildPath_no_inspect_pull e dir appName opts _ _).1, Nat.zero_add]
  exact r3 hok _ hkey

/-- C19 on an example: `web` runs `nginx` and `proxy` runs `nginx:latest`; one
key, one inspection, one pull, two tags. -/
theorem normalizeImage_idempotent_witness :
    ("nginx" : String) ≠ "" ∧
    ((exampleManifest [exampleExternal "web" "nginx",
        exampleExternal "proxy" "nginx:latest"]).Build exampleArgEnv "/src" "app"
        (exampleOpts true (fun _ => none))).1.calls
      = [inspectCall "nginx:latest", pullCall "nginx:latest",
          tagCall "nginx:latest" "app/web", tagCall "nginx:latest" "app/proxy"] ∧
    normalizeImage (normalizeImage "nginx") = normalizeImage "nginx" ∧
    normalizeImage (normalizeImage "localhost:5000/app") = "localhost:5000/app:latest" ∧
    (normalizeImage (exampleExternal "web" "nginx").Image = "nginx" ++ ":latest" ∧
      normalizeImage (exampleExternal "proxy" "nginx:latest").Image = "nginx" ++ ":latest" ∧
      (∃ tags, (classify exampleArgEnv "app" [exampleExternal "web" "nginx",
          exampleExternal "proxy" "nginx:latest"]).1.get? ("nginx" ++ ":latest") = some tags ∧
        exampleArgEnv.Tag (exampleExternal "web" "nginx") "app" ∈ tags ∧
        exampleArgEnv.Tag (exampleExternal "proxy" "nginx:latest") "app" ∈ tags) ∧
      ((exampleManifest [exampleExternal "web" "nginx",
          exampleExternal "proxy" "nginx:latest"]).Build exampleArgEnv "/src" "app"
          (exampleOpts true (fun _ => none))).1.calls.count
          (inspectCall ("nginx" ++ ":latest")) ≤ 1 ∧
      ((exampleManifest [exampleExternal "web" "nginx",
          exampleExternal "proxy" "nginx:latest"]).Build exampleArgEnv "/src" "app"
          (exampleOpts true (fun _ => none))).1.calls.count
          (pullCall ("nginx" ++ ":latest")) ≤ 1 ∧
      ((∃ u, ((exampleManifest [exampleExternal "web" "nginx",
          exampleExternal "proxy" "nginx:latest"]).Build exampleArgEnv "/src" "app"
          (exampleOpts true (fun _ => none))).2 = .ok u) →
        ((exampleManifest [exampleExternal "web" "nginx",
          exampleExternal "proxy" "nginx:latest"]).Build exampleArgEnv "/src" "app"
          (exampleOpts true (fun _ => none))).1.calls.count
          (inspectCall ("nginx" ++ ":latest")) = 1)) :=
  ⟨by decide, by decide,
    (normalizeImage_idempotent "nginx" (by decide)).1, by decide,
    (normalizeImage_idempotent "nginx" (by decide)).2.2 [] "nginx".data rfl (by decide)
      (Or.inl rfl) (by decide)
      (exampleManifest [exampleExternal "web" "nginx", exampleExternal "proxy" "nginx:latest"])
      exampleArgEnv "/src" "app" (exampleOpts true (fun _ => none))
      [exampleExternal "web" "nginx", exampleExternal "proxy" "nginx:latest"]
      (exampleExternal "web" "nginx") (exampleExternal "proxy" "nginx:latest")
      rfl (by decide) (by decide) rfl (by decide)⟩

/-! ## Build path before pull path (C18) -/

/-- C18: the trace of a run is the commands of the build path (the builds and
re-tags of services of the build list) followed by the commands of the pull
path (inspections, pulls and tags of images of the pull aggregation); when
the build path ends in an error or a panic, or one of its commands fails, no
command of the pull path is issued. -/
theorem Build_two_phases (m : Manifest) (e : Env) (dir appName : String)
    (opts : BuildOptions) (services : List Service)
    (horder : m.runOrder opts.Service = .ok services) :
    ∃ buildPath pullPath,
      (m.Build e dir appName opts).1.calls = buildPath ++ pullPath ∧
      buildPath
        = (runBuilds e dir appName opts (classify e appName services).2 [] ⟨[], []⟩).1.calls ∧
      (∀ c ∈ buildPath,
        (∃ service ∈ (classify e appName services).2, ∃ bc,
          c = tagCall bc (e.Tag service appName)) ∨
        ∃ service ∈ (classify e appName services).2, ∃ bargs,
          buildArgs e.ReadFile (buildDockerfile e dir service) = .ok bargs ∧
          c = ⟨.Run, buildCommand e dir appName opts service bargs⟩) ∧
      (∀ c ∈ pullPath, ∃ kv ∈ (classify e appName services).1,
        c = inspectCall kv.1 ∨ c = pullCall kv.1 ∨ ∃ t ∈ kv.2, c = tagCall kv.1 t) ∧
      ((∀ u, (runBuilds e dir appName opts (classify e appName services).2 []
          ⟨[], []⟩).2 ≠ .ok u) →
        pullPath = [] ∧ (m.Build e dir appName opts).2
          = (runBuilds e dir appName opts (classify e appName services).2 [] ⟨[], []⟩).2) ∧
      (∀ pre c post, buildPath = pre ++ c :: post → failed e pre c = true →
        pullPath = []) := by
  obtain ⟨newP, hcalls, _, _, hforms, hstop⟩ :=
    Build_phases m e dir appName opts services horder
  refine ⟨_, newP, hcalls, rfl, ?_, ?_, hstop, ?_⟩
  · intro c hc
    exact (runBuilds_calls_mem e dir appName opts _ [] ⟨[], []⟩ c hc).resolve_left (by simp)
  · intro c hc
    obtain ⟨kv, hkv, h⟩ := hforms c hc
    exact ⟨kv, (e.rangeOrder_perm (classify e appName services).1).mem_iff.mp hkv, h⟩
  · intro pre c post hsplit hfailed
    have h := (Build_Sound m e dir appName opts).1 pre c (post ++ newP)
      (by rw [hcalls, hsplit]; simp) hfailed
    exact (List.append_eq_nil.mp h.1).2

/-- C18 on an example: `w` runs an external image and comes first, `a` is
built and its build fails; the trace is the one build command, nothing is
inspected, pulled or tagged. -/
theorem Build_two_phases_witness :
    ((exampleManifest [exampleExternal "w" "nginx", exampleBuilt "a" "."]).Build
        (exampleEnv (fun _ => .ok "FROM scratch\n") (exampleFailOn "build") (fun _ _ => .ok ""))
        "/src" "app" (exampleOpts true (fun _ => none)))
      = (⟨[⟨.Run, ["build", "-f", "/src/Dockerfile", "-t", "app/a", "/src"]⟩],
          ["context = /src\n", "dockerFile = /src/Dockerfile\n"]⟩,
          .err "build error: exit status 1") ∧
    ∃ buildPath pullPath,
      ((exampleManifest [exampleExternal "w" "nginx", exampleBuilt "a" "."]).Build
        (exampleEnv (fun _ => .ok "FROM scratch\n") (exampleFailOn "build") (fun _ _ => .ok ""))
        "/src" "app" (exampleOpts true (fun _ => none))).1.calls = buildPath ++ pullPath ∧
      ((∀ u, (runBuilds
          (exampleEnv (fun _ => .ok "FROM scratch\n") (exampleFailOn "build")
            (fun _ _ => .ok ""))
          "/src" "app" (exampleOpts true (fun _ => none))
          (classify (exampleEnv (fun _ => .ok "FROM scratch\n") (exampleFailOn "build")
            (fun _ _ => .ok "")) "app"
            [exampleExternal "w" "nginx", exampleBuilt "a" "."]).2 [] ⟨[], []⟩).2 ≠ .ok u) →
        pullPath = []) := by
  refine ⟨by decide, ?_⟩
  obtain ⟨buildPath, pullPath, h1, _, _, _, h5, _⟩ := Build_two_phases
    (exampleManifest [exampleExternal "w" "nginx", exampleBuilt "a" "."])
    (exampleEnv (fun _ => .ok "FROM scratch\n") (exampleFailOn "build") (fun _ _ => .ok ""))
    "/src" "app" (exampleOpts true (fun _ => none))
    [exampleExternal "w" "nginx", exampleBuilt "a" "."] rfl
  exact ⟨buildPath, pullPath, h1, fun h => (h5 h).1⟩

/-! ## The order of the commands (C14) -/

theorem runBuilds_calls_ordered (e : Env) (dir appName : String) (opts : BuildOptions)
    (builds : List Service) (buildCache : GoMap String) (st : State) :
    ∃ new n, n ≤ builds.length ∧
      (runBuilds e dir appName opts builds buildCache st).1.calls = st.calls ++ new ∧
      List.Forall₂ (CommandOf e dir appName opts) new (builds.take n) := by
  induction builds generalizing buildCache st with
  | nil => exact ⟨[], 0, by simp, by simp [runBuilds], by simp⟩
  | cons s rest ih =>
    have hgo : ∀ (c : Call) (cache1 : GoMap String) (st1 : State),
        CommandOf e dir appName opts c s → st1.calls = st.calls ++ [c] →
        buildService e dir appName opts s buildCache st = (st1, .ok cache1) →
        ∃ new n, n ≤ (s :: rest).length ∧
          (runBuilds e dir appName opts (s :: rest) buildCache st).1.calls = st.calls ++ new ∧
          List.Forall₂ (CommandOf e dir appName opts) new ((s :: rest).take n) := by
      intro c cache1 st1 hc hst1 h
      obtain ⟨new1, n1, hn1, h1, h2⟩ := ih cache1 st1
      refine ⟨c :: new1, n1 + 1, by simpa using hn1, ?_, ?_⟩
      · rw [runBuilds_cons_ok e dir appName opts s rest buildCache cache1 st st1 h, h1, hst1]
        simp
      · rw [List.take_succ_cons]
        exact List.Forall₂.cons hc h2
    have hstop : ∀ (c : Call) (st1 : State) (msg : String),
        CommandOf e dir appName opts c s → st1.calls = st.calls ++ [c] →
        buildService e dir appName opts s buildCache st = (st1, .err msg) →
        ∃ new n, n ≤ (s :: rest).length ∧
          (runBuilds e dir appName opts (s :: rest) buildCache st).1.calls = st.calls ++ new ∧
          List.Forall₂ (CommandOf e dir appName opts) new ((s :: rest).take n) := by
      intro c st1 msg hc hst1 h
      refine ⟨[c], 1, by simp, ?_, ?_⟩
      · rw [runBuilds_cons_err e dir appName opts s rest buildCache st st1 msg h, hst1]
      · simpa using hc
    rcases buildService_cases e dir appName opts s buildCache st with
      ⟨bc, err, _, _, h⟩ | ⟨bc, _, _, h⟩ | ⟨msg, st1, _, _, hst1, h⟩ |
      ⟨msg, st1, _, _, hst1, h⟩ | ⟨bargs, err, st1, _, hb, _, hst1, h⟩ |
      ⟨bargs, st1, _, hb, _, hst1, h⟩
    · exact hstop _ _ _ (Or.inl ⟨bc, rfl⟩) rfl h
    · exact hgo _ _ _ (Or.inl ⟨bc, rfl⟩) rfl h
    · refine ⟨[], 0, by simp, ?_, by simp⟩
      rw [runBuilds_cons_err e dir appName opts s rest buildCache st st1 msg h]
      simpa using hst1
    · refine ⟨[], 0, by simp, ?_, by simp⟩
      rw [runBuilds_cons_panic e dir appName opts s rest buildCache st st1 msg h]
      simpa using hst1
    · exact hstop _ _ _ (Or.inr ⟨bargs, hb, rfl⟩) hst1 h
    · exact hgo _ _ _ (Or.inr ⟨bargs, hb, rfl⟩) hst1 h

theorem GoMap_get?_of_mem {α : Type} (m : GoMap α) (k : String) (v : α)
    (hnodup : (m.map Prod.fst).Nodup) (hmem : (k, v) ∈ m) : m.get? k = some v := by
  induction m with
  | nil => simp at hmem
  | cons kv m ih =>
    obtain ⟨k1, v1⟩ := kv
    obtain ⟨h1, h2⟩ := List.nodup_cons.mp hnodup
    rcases List.mem_cons.mp hmem with h | h
    · simp only [Prod.mk.injEq] at h
      simp [GoMap.get?, h.1, h.2]
    · have hk : k1 ≠ k := by
        intro h3
        apply h1
        rw [h3]
        exact List.mem_map.mpr ⟨(k, v), h, rfl⟩
      simp [GoMap.get?, hk, ih h2 h]

theorem classify_mem_pulls (e : Env) (appName : String) (services : List Service)
    (kv : String × List String) (hkv : kv ∈ (classify e appName services).1) :
    kv.2 = specTagsFor e appName services kv.1 ∧
      specTagsFor e appName services kv.1 ≠ [] := by
  have h := GoMap_get?_of_mem (classify e appName services).1 kv.1 kv.2
    (classify_keys_nodup e appName services) hkv
  rw [classify_get?] at h
  by_cases h1 : specTagsFor e appName services kv.1 = []
  · simp [h1] at h
  · simp only [h1, if_false, Option.some.injEq] at h
    exact ⟨h.symm, h1⟩

/-- C14, amended: the build path issues one command per build service, for
the build services in resolved order (the i-th command of the trace is the
build or re-tag of the i-th resolved service without image, up to where the
build path ends), and every command for an external image comes after all of
them, whatever the place of its service in the resolved order. -/
theorem Build_order (m : Manifest) (e : Env) (dir appName : String) (opts : BuildOptions)
    (services : List Service) (horder : m.runOrder opts.Service = .ok services) :
    ∃ n buildPath pullPath,
      (m.Build e dir appName opts).1.calls = buildPath ++ pullPath ∧
      n ≤ (services.filter (fun s => decide (s.Image = ""))).length ∧
      List.Forall₂ (CommandOf e dir appName opts) buildPath
        ((services.filter (fun s => decide (s.Image = ""))).take n) ∧
      ∀ c ∈ pullPath, ∃ s ∈ services, s.Image ≠ "" ∧
        (c = inspectCall (normalizeImage s.Image) ∨ c = pullCall (normalizeImage s.Image) ∨
          c = tagCall (normalizeImage s.Image) (e.Tag s appName)) := by
  obtain ⟨newP, hcalls, _, _, hforms, _⟩ := Build_phases m e dir appName opts services horder
  obtain ⟨new, n, hn, h1, h2⟩ := runBuilds_calls_ordered e dir appName opts
    (classify e appName services).2 [] ⟨[], []⟩
  have hb : (classify e appName services).2
      = services.filter (fun s => decide (s.Image = "")) := by
    simpa [classify] using classify_foldl_builds e appName services ([], [])
  rw [hb] at hn h2
  refine ⟨n, new, newP, ?_, hn, h2, ?_⟩
  · rw [hcalls, h1]
    rfl
  · intro c hc
    obtain ⟨kv, hkv, h⟩ := hforms c hc
    have hkv2 : kv ∈ (classify e appName services).1 :=
      (e.rangeOrder_perm (classify e appName services).1).mem_iff.mp hkv
    obtain ⟨htags, hne⟩ := classify_mem_pulls e appName services kv hkv2
    obtain ⟨s0, hs0, himage0, hkey0⟩ :=
      (specTagsFor_ne_nil_iff e appName services kv.1).mp hne
    rcases h with h | h | ⟨t, ht, h⟩
    · exact ⟨s0, hs0, himage0, Or.inl (by rw [hkey0]; exact h)⟩
    · exact ⟨s0, hs0, himage0, Or.inr (Or.inl (by rw [hkey0]; exact h))⟩
    · rw [htags] at ht
      simp only [specTagsFor, List.mem_map, List.mem_filter, decide_eq_true_eq] at ht
      obtain ⟨s1, ⟨hs1, himage1, hkey1⟩, htag⟩ := ht
      exact ⟨s1, hs1, himage1, Or.inr (Or.inr (by rw [hkey1, htag]; exact h))⟩

/-- C14 on an example: `a` and `b` are built in resolved order, and the
commands of the image of `w`, which is first in the resolved order, come
last. -/
theorem Build_order_witness :
    ((exampleManifest [exampleExternal "w" "nginx", exampleBuilt "a" ".",
        exampleBuilt "b" "sub"]).Build exampleArgEnv "/src" "app"
        (exampleOpts true (fun _ => none))).1.calls
      = [⟨.Run, ["build", "-f", "/src/Dockerfile", "-t", "app/a", "/src"]⟩,
          ⟨.Run, ["build", "-f", "/src/sub/Dockerfile", "-t", "app/b", "/src/sub"]⟩,
          inspectCall "nginx:latest", pullCall "nginx:latest",
          tagCall "nginx:latest" "app/w"] ∧
    ∃ n buildPath pullPath,
      ((exampleManifest [exampleExternal "w" "nginx", exampleBuilt "a" ".",
        exampleBuilt "b" "sub"]).Build exampleArgEnv "/src" "app"
        (exampleOpts true (fun _ => none))).1.calls = buildPath ++ pullPath ∧
      n ≤ ([exampleExternal "w" "nginx", exampleBuilt "a" ".",
        exampleBuilt "b" "sub"].filter (fun s => decide (s.Image = ""))).length ∧
      List.Forall₂ (CommandOf exampleArgEnv "/src" "app" (exampleOpts true (fun _ => none)))
        buildPath
        (([exampleExternal "w" "nginx", exampleBuilt "a" ".",
          exampleBuilt "b" "sub"].filter (fun s => decide (s.Image = ""))).take n) ∧
      ∀ c ∈ pullPath, ∃ s ∈ [exampleExternal "w" "nginx", exampleBuilt "a" ".",
          exampleBuilt "b" "sub"], s.Image ≠ "" ∧
        (c = inspectCall (normalizeImage s.Image) ∨ c = pullCall (normalizeImage s.Image) ∨
          c = tagCall (normalizeImage s.Image) (exampleArgEnv.Tag s "app")) :=
  ⟨by decide,
    Build_order (exampleManifest [exampleExternal "w" "nginx", exampleBuilt "a" ".",
      exampleBuilt "b" "sub"]) exampleArgEnv "/src" "app" (exampleOpts true (fun _ => none))
      [exampleExternal "w" "nginx", exampleBuilt "a" ".", exampleBuilt "b" "sub"] rfl⟩

/-- C14, counterexample: the resolved order is `w`, then `a`; `w` runs an
external image and `a` is built.  The build command of `a` is issued before
the three commands for `w`. -/
theorem Build_build_before_pull_counterexample :
    (exampleManifest [exampleExternal "w" "nginx", exampleBuilt "a" "."]).runOrder ""
      = .ok [exampleExternal "w" "nginx", exampleBuilt "a" "."] ∧
    ((exampleManifest [exampleExternal "w" "nginx", exampleBuilt "a" "."]).Build
        exampleArgEnv "/src" "app" (exampleOpts true (fun _ => none))).1.calls
      = [⟨.Run, ["build", "-f", "/src/Dockerfile", "-t", "app/a", "/src"]⟩,
          inspectCall "nginx:latest", pullCall "nginx:latest",
          tagCall "nginx:latest" "app/w"] :=
  ⟨rfl, by decide⟩

/-! ## The returned error (C13) -/

theorem Reported_of_AllOk {α : Type} (e : Env) (l : List Call) (r : Outcome α)
    (hl : AllOk e l) : Reported e l r := by
  refine ⟨?_, fun _ _ => hl⟩
  intro pre c post h hf
  rw [hl pre c post h] at hf
  exact absurd hf (by simp)

theorem Reported_snoc_err {α : Type} (e : Env) (l : List Call) (c : Call) (msg : String)
    (hl : AllOk e l) (hmsg : msg = failureMessage e l c) :
    Reported e (l ++ [c]) (Outcome.err msg : Outcome α) := by
  refine ⟨?_, fun v hv => by simp at hv⟩
  intro pre x post h hf
  rcases append_singleton_eq_append_cons l pre post c x h with ⟨hp, rfl, rfl⟩ | ⟨post1, _, h2⟩
  · exact ⟨hp, by rw [hmsg]⟩
  · rw [hl pre x post1 h2] at hf
    exact absurd hf (by simp)

theorem failureMessage_Run (e : Env) (l : List Call) (args : List String) (err : String)
    (h : e.Run l args = some err) :
    "build error: " ++ err = failureMessage e l ⟨.Run, args⟩ := by
  simp [failureMessage, h]

theorem tagAll_Reported (e : Env) (image : String) (tags : List String) (st : State)
    (hst : AllOk e st.calls) :
    Reported e (tagAll e image tags st).1.calls (tagAll e image tags st).2 := by
  induction tags generalizing st with
  | nil => exact Reported_of_AllOk e _ _ hst
  | cons tag rest ih =>
    rcases tagAll_cons_cases e image tag rest st with ⟨err, hrun, h⟩ | ⟨hrun, h⟩
    · rw [h]
      exact Reported_snoc_err e _ _ _ hst (failureMessage_Run e _ _ err hrun)
    · rw [h]
      exact ih _ (AllOk_snoc e _ _ hst (failed_Run_none e _ _ hrun))

theorem pullImage_Reported (e : Env) (opts : BuildOptions) (image : String)
    (tags : List String) (st : State) (hst : AllOk e st.calls) :
    Reported e (pullImage e opts image tags st).1.calls (pullImage e opts image tags st).2 := by
  have hinspect : ∀ output, e.CombinedOutput st.calls ["images", "-q", image] = .ok output →
      AllOk e (st.call .CombinedOutput ["images", "-q", image]).calls := by
    intro output h
    exact AllOk_snoc e _ _ hst (by simp [failed, h])
  rcases pullImage_cases e opts image tags st with
    ⟨err, hout, h⟩ | ⟨output, err, hout, _, hrun, h⟩ | ⟨output, hout, _, hrun, h⟩ |
    ⟨output, hout, _, h⟩
  · rw [h]
    exact Reported_snoc_err e _ _ _ hst (by simp [failureMessage, hout])
  · rw [h]
    exact Reported_snoc_err e _ _ _ (hinspect output hout)
      (failureMessage_Run e _ _ err hrun)
  · rw [h]
    exact tagAll_Reported e image tags _
      (AllOk_snoc e _ _ (hinspect output hout) (failed_Run_none e _ _ hrun))
  · rw [h]
    exact tagAll_Reported e image tags _ (hinspect output hout)

theorem runPulls_Reported (e : Env) (opts : BuildOptions) (pulls : GoMap (List String))
    (st : State) (hst : AllOk e st.calls) :
    Reported e (runPulls e opts pulls st).1.calls (runPulls e opts pulls st).2 := by
  induction pulls generalizing st with
  | nil => exact Reported_of_AllOk e _ _ hst
  | cons kv rest ih =>
    obtain ⟨image, tags⟩ := kv
    have h := pullImage_Reported e opts image tags st hst
    cases hr : pullImage e opts image tags st with
    | mk st1 r =>
      rw [hr] at h
      cases r with
      | ok u =>
        rw [runPulls_cons_ok e opts image tags rest st st1 u hr]
        exact ih st1 (h.2 u rfl)
      | err msg =>
        rw [runPulls_cons_not_ok e opts image tags rest st st1 _ hr (by simp)]
        exact h
      | panic msg =>
        rw [runPulls_cons_not_ok e opts image tags rest st st1 _ hr (by simp)]
        exact h

theorem buildService_Reported (e : Env) (dir appName : String) (opts : BuildOptions)
    (service : Service) (buildCache : GoMap String) (st : State) (hst : AllOk e st.calls) :
    Reported e (buildService e dir appName opts service buildCache st).1.calls
      (buildService e dir appName opts service buildCache st).2 := by
  rcases buildService_cases e dir appName opts service buildCache st with
    ⟨bc, err, _, hrun, h⟩ | ⟨bc, _, hrun, h⟩ | ⟨msg, st1, _, _, hst1, h⟩ |
    ⟨msg, st1, _, _, hst1, h⟩ | ⟨bargs, err, st1, _, _, hrun, hst1, h⟩ |
    ⟨bargs, st1, _, _, hrun, hst1, h⟩
  · rw [h]
    exact Reported_snoc_err e _ _ _ hst (failureMessage_Run e _ _ err hrun)
  · rw [h]
    exact Reported_of_AllOk e _ _ (AllOk_snoc e _ _ hst (failed_Run_none e _ _ hrun))
  · rw [h]
    exact Reported_of_AllOk e _ _ (hst1 ▸ hst)
  · rw [h]
    exact Reported_of_AllOk e _ _ (hst1 ▸ hst)
  · rw [h]
    dsimp only
    rw [hst1]
    exact Reported_snoc_err e _ _ _ hst (failureMessage_Run e _ _ err hrun)
  · rw [h]
    dsimp only
    rw [hst1]
    exact Reported_of_AllOk e _ _ (AllOk_snoc e _ _ hst (failed_Run_none e _ _ hrun))

theorem runBuilds_Reported (e : Env) (dir appName : String) (opts : BuildOptions)
    (builds : List Service) (buildCache : GoMap String) (st : State)
    (hst : AllOk e st.calls) :
    Reported e (runBuilds e dir appName opts builds buildCache st).1.calls
      (runBuilds e dir appName opts builds buildCache st).2 := by
  induction builds generalizing buildCache st with
  | nil => exact Reported_of_AllOk e _ _ hst
  | cons service rest ih =>
    have h := buildService_Reported e dir appName opts service buildCache st hst
    cases hr : buildService e dir appName opts service buildCache st with
    | mk st1 r =>
      rw [hr] at h
      cases r with
      | ok cache1 =>
        rw [runBuilds_cons_ok e dir appName opts service rest buildCache cache1 st st1 hr]
        exact ih cache1 st1 (h.2 cache1 rfl)
      | err msg =>
        rw [runBuilds_cons_err e dir appName opts service rest buildCache st st1 msg hr]
        exact ⟨fun pre c post hc hf => by
          obtain ⟨h1, h2⟩ := h.1 pre c post hc hf
          exact ⟨h1, by simpa using h2⟩, fun v hv => by simp at hv⟩
      | panic msg =>
        rw [runBuilds_cons_panic e dir appName opts service rest buildCache st st1 msg hr]
        exact ⟨fun pre c post hc hf => by
          obtain ⟨_, h2⟩ := h.1 pre c post hc hf
          simp at h2, fun v hv => by simp at hv⟩

theorem Build_Reported (m : Manifest) (e : Env) (dir appName : String) (opts : BuildOptions) :
    Reported e (m.Build e dir appName opts).1.calls (m.Build e dir appName opts).2 := by
  cases horder : m.runOrder opts.Service with
  | error err =>
    have h : m.Build e dir appName opts = (⟨[], []⟩, .err err) := by
      simp [Manifest.Build, horder]
    rw [h]
    exact Reported_of_AllOk e _ _ (AllOk_nil e)
  | ok services =>
    have h := runBuilds_Reported e dir appName opts (classify e appName services).2 []
      ⟨[], []⟩ (AllOk_nil e)
    cases hr : runBuilds e dir appName opts (classify e appName services).2 [] ⟨[], []⟩ with
    | mk st r =>
      rw [hr] at h
      by_cases hrok : ∃ u, r = .ok u
      · obtain ⟨u, hu⟩ := hrok
        subst hu
        rw [Build_of_runBuilds_ok m e dir appName opts services st u horder hr]
        exact runPulls_Reported e opts _ st (h.2 u rfl)
      · rw [Build_of_runBuilds_not_ok m e dir appName opts services st r horder hr
          (fun u hu => hrok ⟨u, hu⟩)]
        exact h

/-- C13, amended: when a call of the runner fails, the error `Build` returns
is, for a call through `Run` (a build, a re-tag, a pull or a tag alike), the
text "build error: " followed by the runner's error, and for the inspection
the runner's error unchanged; neither names the operation or its target. -/
theorem Build_error_message (m : Manifest) (e : Env) (dir appName : String)
    (opts : BuildOptions) (pre post : List Call) (c : Call)
    (hcalls : (m.Build e dir appName opts).1.calls = pre ++ c :: post)
    (hfailed : failed e pre c = true) :
    (c.via = .Run → ∃ err, e.Run pre c.args = some err ∧
      (m.Build e dir appName opts).2 = .err ("build error: " ++ err)) ∧
    (c.via = .CombinedOutput → ∃ err, e.CombinedOutput pre c.args = .error err ∧
      (m.Build e dir appName opts).2 = .err err) := by
  obtain ⟨_, hret⟩ := (Build_Reported m e dir appName opts).1 pre c post hcalls hfailed
  rw [hret]
  obtain ⟨via, args⟩ := c
  constructor
  · intro hvia
    dsimp only at hvia
    subst hvia
    cases hrun : e.Run pre args with
    | none => simp [failed, hrun] at hfailed
    | some err => exact ⟨err, rfl, by simp [failureMessage, hrun]⟩
  · intro hvia
    dsimp only at hvia
    subst hvia
    cases hout : e.CombinedOutput pre args with
    | ok output => simp [failed, hout] at hfailed
    | error err => exact ⟨err, rfl, by simp [failureMessage, hout]⟩

/-- C13 on an example: the pull of `nginx:latest` fails with the runner's
error `exit status 1`; `Build` returns `build error: exit status 1`. -/
theorem Build_error_message_witness :
    ((exampleManifest [exampleExternal "w" "nginx"]).Build
        (exampleEnv (fun _ => .ok "") (exampleFailOn "pull") (fun _ _ => .ok ""))
        "/src" "app" (exampleOpts true (fun _ => none))).1.calls
      = [inspectCall "nginx:latest"] ++ pullCall "nginx:latest" :: [] ∧
    failed (exampleEnv (fun _ => .ok "") (exampleFailOn "pull") (fun _ _ => .ok ""))
      [inspectCall "nginx:latest"] (pullCall "nginx:latest") = true ∧
    ((pullCall "nginx:latest").via = .Run →
      ∃ err, (exampleEnv (fun _ => .ok "") (exampleFailOn "pull") (fun _ _ => .ok "")).Run
          [inspectCall "nginx:latest"] (pullCall "nginx:latest").args = some err ∧
        ((exampleManifest [exampleExternal "w" "nginx"]).Build
          (exampleEnv (fun _ => .ok "") (exampleFailOn "pull") (fun _ _ => .ok ""))
          "/src" "app" (exampleOpts true (fun _ => none))).2
          = .err ("build error: " ++ err)) :=
  ⟨by decide, by decide,
    (Build_error_message (exampleManifest [exampleExternal "w" "nginx"])
      (exampleEnv (fun _ => .ok "") (exampleFailOn "pull") (fun _ _ => .ok ""))
      "/src" "app" (exampleOpts true (fun _ => none))
      [inspectCall "nginx:latest"] [] (pullCall "nginx:latest") (by decide) (by decide)).1⟩

/-- C13, counterexample: a failed build, a failed pull and a failed tag, each
with the runner's error `exit status 1`, make `Build` return the same error
`build error: exit status 1`, which names neither the operation nor the image
or tag; and a failed inspection makes it return the runner's bare error
`exit status 1`. -/
theorem Build_error_names_nothing_counterexample :
    ((exampleManifest [exampleBuilt "a" "."]).Build
        (exampleEnv (fun _ => .ok "") (exampleFailOn "build") (fun _ _ => .ok ""))
        "/src" "app" (exampleOpts true (fun _ => none))).2
      = .err "build error: exit status 1" ∧
    ((exampleManifest [exampleExternal "w" "nginx"]).Build
        (exampleEnv (fun _ => .ok "") (exampleFailOn "pull") (fun _ _ => .ok ""))
        "/src" "app" (exampleOpts true (fun _ => none)))
      = (⟨[inspectCall "nginx:latest", pullCall "nginx:latest"], []⟩,
          .err "build error: exit status 1") ∧
    ((exampleManifest [exampleExternal "w" "nginx"]).Build
        (exampleEnv (fun _ => .ok "") (exampleFailOn "tag") (fun _ _ => .ok ""))
        "/src" "app" (exampleOpts true (fun _ => none)))
      = (⟨[inspectCall "nginx:latest", pullCall "nginx:latest",
            tagCall "nginx:latest" "app/w"], []⟩,
          .err "build error: exit status 1") ∧
    ((exampleManifest [exampleExternal "w" "nginx"]).Build
        (exampleEnv (fun _ => .ok "") (fun _ _ => none) (fun _ _ => .error "exit status 1"))
        "/src" "app" (exampleOpts true (fun _ => none)))
      = (⟨[inspectCall "nginx:latest"], []⟩, .err "exit status 1") := by
  decide

/-! ## Two runs on the same inputs (C15) -/

theorem classify_withRange (e : Env) (order : GoMap (List String) → GoMap (List String))
    (horder : ∀ m, (order m).Perm m) (appName : String) (services : List Service) :
    classify (e.withRange order horder) appName services = classify e appName services := by
  have h : classifyStep (e.withRange order horder) appName = classifyStep e appName := rfl
  unfold classify
  rw [h]

theorem buildService_withRange (e : Env) (order : GoMap (List String) → GoMap (List String))
    (horder : ∀ m, (order m).Perm m) (dir appName : String) (opts : BuildOptions)
    (service : Service) (buildCache : GoMap String) (st : State) :
    buildService (e.withRange order horder) dir appName opts service buildCache st
      = buildService e dir appName opts service buildCache st := rfl

theorem runBuilds_withRange (e : Env) (order : GoMap (List String) → GoMap (List String))
    (horder : ∀ m, (order m).Perm m) (dir appName : String) (opts : BuildOptions)
    (builds : List Service) (buildCache : GoMap String) (st : State) :
    runBuilds (e.withRange order horder) dir appName opts builds buildCache st
      = runBuilds e dir appName opts builds buildCache st := by
  induction builds generalizing buildCache st with
  | nil => rfl
  | cons s rest ih =>
    unfold runBuilds
    rw [buildService_withRange]
    cases buildService e dir appName opts s buildCache st with
    | mk st1 r =>
      cases r with
      | ok cache1 => exact ih cache1 st1
      | err msg => rfl
      | panic msg => rfl

theorem tagAll_withRange (e : Env) (order : GoMap (List String) → GoMap (List String))
    (horder : ∀ m, (order m).Perm m) (image : String) (tags : List String) (st : State) :
    tagAll (e.withRange order horder) image tags st = tagAll e image tags st := by
  induction tags generalizing st with
  | nil => rfl
  | cons tag rest ih =>
    unfold tagAll
    have h : (e.withRange order horder).Run = e.Run := rfl
    simp only [h]
    cases e.Run st.calls ["tag", image, tag] with
    | some err => rfl
    | none => exact ih _

theorem pullImage_withRange (e : Env) (order : GoMap (List String) → GoMap (List String))
    (horder : ∀ m, (order m).Perm m) (opts : BuildOptions) (image : String)
    (tags : List String) (st : State) :
    pullImage (e.withRange order horder) opts image tags st
      = pullImage e opts image tags st := by
  unfold pullImage
  have h1 : (e.withRange order horder).Run = e.Run := rfl
  have h2 : (e.withRange order horder).CombinedOutput = e.CombinedOutput := rfl
  simp only [h1, h2, tagAll_withRange]

theorem runPulls_withRange (e : Env) (order : GoMap (List String) → GoMap (List String))
    (horder : ∀ m, (order m).Perm m) (opts : BuildOptions) (pulls : GoMap (List String))
    (st : State) :
    runPulls (e.withRange order horder) opts pulls st = runPulls e opts pulls st := by
  induction pulls generalizing st with
  | nil => rfl
  | cons kv rest ih =>
    obtain ⟨image, tags⟩ := kv
    unfold runPulls
    rw [pullImage_withRange]
    cases pullImage e opts image tags st with
    | mk st1 r =>
      cases r with
      | ok u => exact ih st1
      | err msg => rfl
      | panic msg => rfl

theorem Build_withRange (m : Manifest) (e : Env)
    (order : GoMap (List String) → GoMap (List String)) (horder : ∀ m, (order m).Perm m)
    (dir appName : String) (opts : BuildOptions) (services : List Service)
    (hservices : m.runOrder opts.Service = .ok services)
    (hsame : order (classify e appName services).1 = e.rangeOrder (classify e appName services).1) :
    m.Build (e.withRange order horder) dir appName opts = m.Build e dir appName opts := by
  have h : (e.withRange order horder).rangeOrder = order := rfl
  unfold Manifest.Build
  rw [hservices]
  simp only [classify_withRange, runBuilds_withRange, runPulls_withRange, h, hsame]

/-- C15, amended: two runs on the same resolved services, options, files and
runner that differ in the order in which `range` visits the map `pulls` issue
the same commands on the build path, each followed by commands of the pull
path; they issue exactly the same sequence of commands when the map is
visited in the same order, as it is when it has at most one image. -/
theorem Build_deterministic_up_to_range (m : Manifest) (e : Env)
    (order : GoMap (List String) → GoMap (List String)) (horder : ∀ m, (order m).Perm m)
    (dir appName : String) (opts : BuildOptions) (services : List Service)
    (hservices : m.runOrder opts.Service = .ok services) :
    (∃ buildPath pullPath1 pullPath2,
      (m.Build e dir appName opts).1.calls = buildPath ++ pullPath1 ∧
      (m.Build (e.withRange order horder) dir appName opts).1.calls = buildPath ++ pullPath2 ∧
      buildPath
        = (runBuilds e dir appName opts (classify e appName services).2 [] ⟨[], []⟩).1.calls) ∧
    (order (classify e appName services).1 = e.rangeOrder (classify e appName services).1 →
      m.Build (e.withRange order horder) dir appName opts = m.Build e dir appName opts) ∧
    ((classify e appName services).1.length ≤ 1 →
      m.Build (e.withRange order horder) dir appName opts = m.Build e dir appName opts) := by
  refine ⟨?_, Build_withRange m e order horder dir appName opts services hservices, ?_⟩
  · obtain ⟨p1, h1, _⟩ := Build_phases m e dir appName opts services hservices
    obtain ⟨p2, h2, _⟩ := Build_phases m (e.withRange order horder) dir appName opts services
      hservices
    rw [classify_withRange, runBuilds_withRange] at h2
    exact ⟨_, p1, p2, h1, h2, rfl⟩
  · intro hlen
    apply Build_withRange m e order horder dir appName opts services hservices
    have hp1 := horder (classify e appName services).1
    have hp2 := e.rangeOrder_perm (classify e appName services).1
    generalize (classify e appName services).1 = pulls at hlen hp1 hp2
    match pulls, hlen with
    | [], _ => rw [List.perm_nil.mp hp1, List.perm_nil.mp hp2]
    | [kv], _ => rw [List.perm_singleton.mp hp1, List.perm_singleton.mp hp2]

/-- C15 on an example: with one external image a run that visits the map in
reverse order issues the same commands. -/
theorem Build_deterministic_up_to_range_witness :
    (exampleManifest [exampleBuilt "a" ".", exampleExternal "w" "nginx"]).runOrder
        (exampleOpts true (fun _ => none)).Service
      = .ok [exampleBuilt "a" ".", exampleExternal "w" "nginx"] ∧
    (classify exampleArgEnv "app"
      [exampleBuilt "a" ".", exampleExternal "w" "nginx"]).1.length ≤ 1 ∧
    (exampleManifest [exampleBuilt "a" ".", exampleExternal "w" "nginx"]).Build
        (exampleArgEnv.withRange List.reverse (fun m => List.reverse_perm m))
        "/src" "app" (exampleOpts true (fun _ => none))
      = (exampleManifest [exampleBuilt "a" ".", exampleExternal "w" "nginx"]).Build
        exampleArgEnv "/src" "app" (exampleOpts true (fun _ => none)) :=
  ⟨rfl, by decide,
    (Build_deterministic_up_to_range
      (exampleManifest [exampleBuilt "a" ".", exampleExternal "w" "nginx"]) exampleArgEnv
      List.reverse (fun m => List.reverse_perm m) "/src" "app"
      (exampleOpts true (fun _ => none))
      [exampleBuilt "a" ".", exampleExternal "w" "nginx"] rfl).2.2 (by decide)⟩

/-- C15, counterexample: two runs on the same services, options, files and
runner; in the first `range` visits `nginx:latest` before `redis:latest`, in
the second after it.  The two sequences of commands differ. -/
theorem Build_range_order_counterexample :
    ((exampleManifest [exampleExternal "web" "nginx", exampleExternal "db" "redis"]).Build
        exampleArgEnv "/src" "app" (exampleOpts true (fun _ => none))).1.calls
      = [inspectCall "nginx:latest", pullCall "nginx:latest",
          tagCall "nginx:latest" "app/web", inspectCall "redis:latest",
          pullCall "redis:latest", tagCall "redis:latest" "app/db"] ∧
    ((exampleManifest [exampleExternal "web" "nginx", exampleExternal "db" "redis"]).Build
        (exampleArgEnv.withRange List.reverse (fun m => List.reverse_perm m))
        "/src" "app" (exampleOpts true (fun _ => none))).1.calls
      = [inspectCall "redis:latest", pullCall "redis:latest",
          tagCall "redis:latest" "app/db", inspectCall "nginx:latest",
          pullCall "nginx:latest", tagCall "nginx:latest" "app/web"] ∧
    ((exampleManifest [exampleExternal "web" "nginx", exampleExternal "db" "redis"]).Build
        exampleArgEnv "/src" "app" (exampleOpts true (fun _ => none))).1.calls
      ≠ ((exampleManifest [exampleExternal "web" "nginx", exampleExternal "db" "redis"]).Build
        (exampleArgEnv.withRange List.reverse (fun m => List.reverse_perm m))
        "/src" "app" (exampleOpts true (fun _ => none))).1.calls := by
  decide

/-! ## Re-tagging from the cache (C17) -/

/-- Two services with the same signature, the signature being injective: the
contexts of their builds are equal, and so are the dockerfiles when the build
spec names one or the service-level overrides agree. -/
theorem same_signature_paths (e : Env) (dir : String) (s t : Service)
    (hinj : Function.Injective e.Hash) (hhash : e.Hash s.Build = e.Hash t.Build) :
    buildContext e dir s = buildContext e dir t ∧
    (s.Build.Dockerfile ≠ "" ∨ s.Dockerfile = t.Dockerfile →
      buildDockerfile e dir s = buildDockerfile e dir t) := by
  have hb : s.Build = t.Build := hinj hhash
  refine ⟨by simp [buildContext, hb], ?_⟩
  intro h
  rcases h with h | h
  · have h2 : t.Build.Dockerfile ≠ "" := hb ▸ h
    simp [buildDockerfile, buildContext, coalesce, hb, h2]
  · simp [buildDockerfile, buildContext, hb, h]

/-- C17: the services `a` and `b` have the same build spec, hence the same
signature under any `Hash`, and service-level dockerfiles `Dockerfile.a` and
`Dockerfile.b`.  `a` is built from `/src/Dockerfile.a` and `b` is re-tagged
from the image of `a`, although its own dockerfile is `/src/Dockerfile.b`. -/
theorem Build_retags_other_dockerfile :
    (⟨"a", "", "Dockerfile.a", ⟨".", ""⟩⟩ : Service).Build
      = (⟨"b", "", "Dockerfile.b", ⟨".", ""⟩⟩ : Service).Build ∧
    ((exampleManifest [⟨"a", "", "Dockerfile.a", ⟨".", ""⟩⟩,
        ⟨"b", "", "Dockerfile.b", ⟨".", ""⟩⟩]).Build exampleArgEnv "/src" "app"
        (exampleOpts true (fun _ => none))).1.calls
      = [⟨.Run, ["build", "-f", "/src/Dockerfile.a", "-t", "app/a", "/src"]⟩,
          tagCall "app/a" "app/b"] ∧
    buildDockerfile exampleArgEnv "/src" ⟨"a", "", "Dockerfile.a", ⟨".", ""⟩⟩
      = "/src/Dockerfile.a" ∧
    buildDockerfile exampleArgEnv "/src" ⟨"b", "", "Dockerfile.b", ⟨".", ""⟩⟩
      = "/src/Dockerfile.b" := by
  decide

/-! ## The tags of an external image (C12) -/

/-- The calls of the loop of lines 104-108: a tag for every destination, or
the tags up to one that fails. -/
theorem tagAll_calls_shape (e : Env) (image : String) (tags : List String) (st : State) :
    (tagAll e image tags st).1.calls = st.calls ++ tags.map (tagCall image) ∨
    ∃ done t rest, tags = done ++ t :: rest ∧
      (tagAll e image tags st).1.calls = st.calls ++ (done ++ [t]).map (tagCall image) ∧
      (∃ err, e.Run (st.calls ++ done.map (tagCall image)) ["tag", image, t] = some err) ∧
      ∀ u, (tagAll e image tags st).2 ≠ .ok u := by
  induction tags generalizing st with
  | nil => exact Or.inl (by simp [tagAll])
  | cons tag rest ih =>
    rcases tagAll_cons_cases e image tag rest st with ⟨err, hrun, h⟩ | ⟨_, h⟩
    · right
      refine ⟨[], tag, rest, rfl, ?_, ⟨err, by simpa using hrun⟩, ?_⟩
      · rw [h]
        rfl
      · rw [h]
        simp
    · rw [h]
      rcases ih (st.call .Run ["tag", image, tag]) with h1 | ⟨done, t, rest1, h1, h2, h3, h4⟩
      · left
        rw [h1, State_call_calls]
        simp [tagCall]
      · right
        refine ⟨tag :: done, t, rest1, by rw [h1]; rfl, ?_, ?_, h4⟩
        · rw [h2, State_call_calls]
          simp [tagCall]
        · obtain ⟨err, herr⟩ := h3
          refine ⟨err, ?_⟩
          rw [← herr, State_call_calls]
          simp [tagCall]

/-- The calls of one pass of the third loop when the inspection succeeds and
the pull, if it is made, succeeds. -/
theorem pullImage_calls_shape (e : Env) (opts : BuildOptions) (image : String)
    (tags : List String) (st : State) (output : String)
    (hout : e.CombinedOutput st.calls ["images", "-q", image] = .ok output)
    (hpull : (opts.Cache = false ∨ output.length = 0) →
      e.Run (st.calls ++ [inspectCall image]) ["pull", image] = none) :
    (pullImage e opts image tags st).1.calls
        = st.calls ++ inspectCall image ::
          ((if opts.Cache = false ∨ output.length = 0 then [pullCall image] else [])
            ++ tags.map (tagCall image)) ∨
    ∃ done t rest, tags = done ++ t :: rest ∧
      (pullImage e opts image tags st).1.calls
        = st.calls ++ inspectCall image ::
          ((if opts.Cache = false ∨ output.length = 0 then [pullCall image] else [])
            ++ (done ++ [t]).map (tagCall image)) ∧
      (∃ err, e.Run (st.calls ++ inspectCall image ::
          ((if opts.Cache = false ∨ output.length = 0 then [pullCall image] else [])
            ++ done.map (tagCall image))) ["tag", image, t] = some err) ∧
      ∀ u, (pullImage e opts image tags st).2 ≠ .ok u := by
  rcases pullImage_cases e opts image tags st with
    ⟨err, hout1, _⟩ | ⟨output1, err, hout1, hc, hrun, _⟩ | ⟨output1, hout1, hc, _, h⟩ |
    ⟨output1, hout1, hc, h⟩
  · rw [hout] at hout1
    simp at hout1
  · rw [hout] at hout1
    have ho : output = output1 := by simpa using hout1
    subst ho
    rw [hpull hc] at hrun
    simp at hrun
  · rw [hout] at hout1
    have ho : output = output1 := by simpa using hout1
    subst ho
    rw [h, if_pos hc]
    rcases tagAll_calls_shape e image tags
        ((st.call .CombinedOutput ["images", "-q", image]).call .Run ["pull", image]) with
      h1 | ⟨done, t, rest, h1, h2, ⟨err, h3⟩, h4⟩
    · left
      rw [h1]
      simp [State_call_calls, inspectCall, pullCall]
    · right
      refine ⟨done, t, rest, h1, ?_, ⟨err, ?_⟩, h4⟩
      · rw [h2]
        simp [State_call_calls, inspectCall, pullCall]
      · rw [← h3]
        simp [State_call_calls, inspectCall, pullCall]
  · rw [hout] at hout1
    have ho : output = output1 := by simpa using hout1
    subst ho
    rw [h, if_neg hc]
    rcases tagAll_calls_shape e image tags
        (st.call .CombinedOutput ["images", "-q", image]) with
      h1 | ⟨done, t, rest, h1, h2, ⟨err, h3⟩, h4⟩
    · left
      rw [h1]
      simp [State_call_calls, inspectCall]
    · right
      refine ⟨done, t, rest, h1, ?_, ⟨err, ?_⟩, h4⟩
      · rw [h2]
        simp [State_call_calls, inspectCall]
      · rw [← h3]
        simp [State_call_calls, inspectCall]

theorem GoMap_mem_of_get? {α : Type} (m : GoMap α) (k : String) (v : α)
    (h : m.get? k = some v) : (k, v) ∈ m := by
  induction m with
  | nil => simp [GoMap.get?] at h
  | cons kv m ih =>
    obtain ⟨k1, v1⟩ := kv
    by_cases hk : k1 = k
    · simp only [GoMap.get?, hk, if_true, Option.some.injEq] at h
      simp [hk, h]
    · simp only [GoMap.get?, hk, if_false] at h
      exact List.mem_cons_of_mem _ (ih h)

/-- The pass of the third loop that inspects `image`: it starts where the
inspection stands in the trace, and the trace goes on after it only when it
ends well. -/
theorem runPulls_segment (e : Env) (opts : BuildOptions) (pulls : GoMap (List String))
    (hnodup : (pulls.map Prod.fst).Nodup) (st : State) (pre1 post : List Call)
    (image : String) (tags : List String) (hmem : (image, tags) ∈ pulls)
    (hsplit : (runPulls e opts pulls st).1.calls
      = st.calls ++ (pre1 ++ inspectCall image :: post)) :
    ∃ st0 later, st0.calls = st.calls ++ pre1 ∧
      (runPulls e opts pulls st).1.calls
        = (pullImage e opts image tags st0).1.calls ++ later ∧
      ((∀ u, (pullImage e opts image tags st0).2 ≠ .ok u) → later = []) := by
  induction pulls generalizing st pre1 with
  | nil => simp at hmem
  | cons kv rest ih =>
    obtain ⟨k, tagsk⟩ := kv
    have hk : k ∉ rest.map Prod.fst := (List.nodup_cons.mp hnodup).1
    have hrestnodup : (rest.map Prod.fst).Nodup := (List.nodup_cons.mp hnodup).2
    obtain ⟨tagCalls, h1, h2⟩ := pullImage_calls_ext e opts k tagsk st
    have hseg := segment_counts k (pullDue e opts st.calls k) tagCalls tagsk h1
    have hnota : inspectCall k ∉
        (if pullDue e opts st.calls k then [pullCall k] else []) ++ tagCalls := by
      intro h
      rcases List.mem_append.mp h with h | h
      · split at h
        · simp at h
          exact inspectCall_ne_pullCall _ _ h
        · simp at h
      · obtain ⟨t, _, h3⟩ := h1 _ h
        exact inspectCall_ne_tagCall _ _ _ h3
    cases hr : pullImage e opts k tagsk st with
    | mk st1 r =>
      rw [hr] at h2
      dsimp only at h2
      by_cases hik : image = k
      · subst hik
        have htags : tags = tagsk := by
          rcases List.mem_cons.mp hmem with h | h
          · simpa using h
          · exact absurd (List.mem_map.mpr ⟨(image, tags), h, rfl⟩) hk
        subst htags
        by_cases hrok : ∃ u, r = .ok u
        · obtain ⟨u, hu⟩ := hrok
          subst hu
          rw [runPulls_cons_ok e opts image tags rest st st1 u hr] at hsplit ⊢
          obtain ⟨new1, h3, hPT⟩ := runPulls_PullTrace e opts rest hrestnodup st1
          have hnotnew : inspectCall image ∉ new1 := by
            rw [← List.count_eq_zero]
            exact (hPT.1 image hk).1
          rw [h3, h2, List.append_assoc] at hsplit
          have h4 := List.append_cancel_left hsplit
          obtain ⟨hpre, _⟩ := split_at_head _ _ _ _ _ h4 hnota hnotnew
          refine ⟨st, new1, by simp [hpre], ?_, ?_⟩
          · rw [hr, h3]
          · intro hnot
            rw [hr] at hnot
            exact absurd rfl (hnot u)
        · have hnot : ∀ u, r ≠ .ok u := fun u hu => hrok ⟨u, hu⟩
          rw [runPulls_cons_not_ok e opts image tags rest st st1 r hr hnot] at hsplit ⊢
          dsimp only at hsplit ⊢
          rw [h2] at hsplit
          have h4 := List.append_cancel_left hsplit
          have h5 : inspectCall image ::
              ((if pullDue e opts st.calls image then [pullCall image] else []) ++ tagCalls)
              ++ [] = pre1 ++ inspectCall image :: post := by
            simpa using h4
          obtain ⟨hpre, _⟩ := split_at_head _ _ _ _ _ h5 hnota (by simp)
          exact ⟨st, [], by simp [hpre], by rw [hr]; simp, fun _ => rfl⟩
      · have hmemrest : (image, tags) ∈ rest := by
          rcases List.mem_cons.mp hmem with h | h
          · simp only [Prod.mk.injEq] at h
            exact absurd h.1 hik
          · exact h
        have hnotseg : inspectCall image ∉ inspectCall k ::
            ((if pullDue e opts st.calls k then [pullCall k] else []) ++ tagCalls) := by
          rw [← List.count_eq_zero, (hseg image).1]
          simp [hik]
        by_cases hrok : ∃ u, r = .ok u
        · obtain ⟨u, hu⟩ := hrok
          subst hu
          rw [runPulls_cons_ok e opts k tagsk rest st st1 u hr] at hsplit ⊢
          obtain ⟨new1, h3, _⟩ := runPulls_calls_ext e opts rest st1
          have h3b := h3
          rw [h2, List.append_assoc] at h3b
          rw [h3b] at hsplit
          have h4 := List.append_cancel_left hsplit
          obtain ⟨pre2, hpre, hnew1⟩ := split_after _ _ _ _ _ h4 hnotseg
          obtain ⟨st0, later, h5, h6, h7⟩ := ih hrestnodup st1 pre2 hmemrest
            (by rw [h3, hnew1])
          refine ⟨st0, later, ?_, h6, h7⟩
          rw [h5, h2, hpre, List.append_assoc]
        · exfalso
          have hnot : ∀ u, r ≠ .ok u := fun u hu => hrok ⟨u, hu⟩
          rw [runPulls_cons_not_ok e opts k tagsk rest st st1 r hr hnot] at hsplit
          dsimp only at hsplit
          rw [h2] at hsplit
          have h4 := List.append_cancel_left hsplit
          apply hnotseg
          rw [h4]
          simp

/-- C12: when the inspection of an image of the pull aggregation has
succeeded with output `output`, and the pull that follows it when
`opts.Cache` is false or the output is empty has succeeded, then what follows
the inspection in the trace is that pull (if it is made) and then `tag <image>
<t>` for the recorded destination tags `t` of the image, in recording order:
for all of them, or for those up to one whose tag fails, after which nothing
follows.  With `Cache` true and a non-empty output the tags follow the
inspection directly. -/
theorem Build_tags_after_inspection (m : Manifest) (e : Env) (dir appName : String)
    (opts : BuildOptions) (services : List Service)
    (horder : m.runOrder opts.Service = .ok services) (image : String) (tags : List String)
    (hrecorded : (classify e appName services).1.get? image = some tags)
    (pre post : List Call) (output : String)
    (hsplit : (m.Build e dir appName opts).1.calls = pre ++ inspectCall image :: post)
    (hout : e.CombinedOutput pre ["images", "-q", image] = .ok output)
    (hpull : (opts.Cache = false ∨ output.length = 0) →
      e.Run (pre ++ [inspectCall image]) ["pull", image] = none) :
    tags = specTagsFor e appName services image ∧
    ((∃ later, post
        = (if opts.Cache = false ∨ output.length = 0 then [pullCall image] else [])
          ++ tags.map (tagCall image) ++ later) ∨
      ∃ done t rest, tags = done ++ t :: rest ∧
        post = (if opts.Cache = false ∨ output.length = 0 then [pullCall image] else [])
          ++ (done ++ [t]).map (tagCall image) ∧
        ∃ err, e.Run (pre ++ inspectCall image ::
            ((if opts.Cache = false ∨ output.length = 0 then [pullCall image] else [])
              ++ done.map (tagCall image))) ["tag", image, t] = some err) := by
  have hmem : (image, tags) ∈ (classify e appName services).1 :=
    GoMap_mem_of_get? _ _ _ hrecorded
  refine ⟨(classify_mem_pulls e appName services (image, tags) hmem).1, ?_⟩
  have hBinspect : inspectCall image ∉
      (runBuilds e dir appName opts (classify e appName services).2 [] ⟨[], []⟩).1.calls := by
    rw [← List.count_eq_zero]
    exact (Build_buildPath_no_inspect_pull e dir appName opts _ image).1
  cases hr : runBuilds e dir appName opts (classify e appName services).2 [] ⟨[], []⟩ with
  | mk st r =>
    rw [hr] at hBinspect
    dsimp only at hBinspect
    by_cases hrok : ∃ u, r = .ok u
    swap
    · exfalso
      rw [Build_of_runBuilds_not_ok m e dir appName opts services st r horder hr
        (fun u hu => hrok ⟨u, hu⟩)] at hsplit
      apply hBinspect
      dsimp only at hsplit
      rw [hsplit]
      simp
    obtain ⟨u, hu⟩ := hrok
    subst hu
    rw [Build_of_runBuilds_ok m e dir appName opts services st u horder hr] at hsplit
    obtain ⟨new, hnew, _⟩ := runPulls_calls_ext e opts
      (e.rangeOrder (classify e appName services).1) st
    have h1 := hsplit
    rw [hnew] at h1
    obtain ⟨pre1, hpre, hnewsplit⟩ := split_after _ _ _ _ _ h1 hBinspect
    have hkeys := (e.rangeOrder_perm (classify e appName services).1).map Prod.fst
    obtain ⟨st0, later, hst0, hfinal, hlater⟩ := runPulls_segment e opts
      (e.rangeOrder (classify e appName services).1)
      (hkeys.nodup_iff.mpr (classify_keys_nodup e appName services)) st pre1 post image tags
      ((e.rangeOrder_perm (classify e appName services).1).mem_iff.mpr hmem)
      (by rw [hnew, hnewsplit])
    have hst0pre : st0.calls = pre := by rw [hst0, hpre]
    rcases pullImage_calls_shape e opts image tags st0 output (by rw [hst0pre]; exact hout)
        (by rw [hst0pre]; exact hpull) with
      h2 | ⟨done, t, rest, h2, h3, ⟨err, h4⟩, h5⟩
    · left
      refine ⟨later, ?_⟩
      rw [hfinal, h2, hst0pre, List.append_assoc] at hsplit
      have h6 := List.append_cancel_left hsplit
      simp only [List.cons_append, List.cons.injEq, true_and] at h6
      exact h6.symm
    · right
      refine ⟨done, t, rest, h2, ?_, err, by rw [← hst0pre]; exact h4⟩
      rw [hfinal, h3, hst0pre, hlater h5, List.append_nil] at hsplit
      have h6 := List.append_cancel_left hsplit
      simp only [List.cons.injEq, true_and] at h6
      exact h6.symm

/-- C12, the example of the spec: `Cache` is true and `nginx:latest` is
present locally; no pull is made and the two recorded tags are applied in
recording order. -/
theorem Build_tags_after_inspection_witness :
    ((exampleManifest [exampleExternal "web" "nginx",
        exampleExternal "proxy" "nginx:latest"]).Build
        (exampleEnv (fun _ => .ok "") (fun _ _ => none) exampleLocalNginx)
        "/src" "app" (exampleOpts true (fun _ => none))).1.calls
      = [] ++ inspectCall "nginx:latest" ::
          [tagCall "nginx:latest" "app/web", tagCall "nginx:latest" "app/proxy"] ∧
    (classify (exampleEnv (fun _ => .ok "") (fun _ _ => none) exampleLocalNginx) "app"
        [exampleExternal "web" "nginx", exampleExternal "proxy" "nginx:latest"]).1.get?
        "nginx:latest" = some ["app/web", "app/proxy"] ∧
    (["app/web", "app/proxy"]
        = specTagsFor (exampleEnv (fun _ => .ok "") (fun _ _ => none) exampleLocalNginx) "app"
          [exampleExternal "web" "nginx", exampleExternal "proxy" "nginx:latest"]
          "nginx:latest" ∧
      ((∃ later, [tagCall "nginx:latest" "app/web", tagCall "nginx:latest" "app/proxy"]
          = (if (exampleOpts true (fun _ => none)).Cache = false ∨
              ("605c77e624dd\n" : String).length = 0 then [pullCall "nginx:latest"] else [])
            ++ ["app/web", "app/proxy"].map (tagCall "nginx:latest") ++ later) ∨
        ∃ done t rest, ["app/web", "app/proxy"] = done ++ t :: rest ∧
          [tagCall "nginx:latest" "app/web", tagCall "nginx:latest" "app/proxy"]
            = (if (exampleOpts true (fun _ => none)).Cache = false ∨
                ("605c77e624dd\n" : String).length = 0 then [pullCall "nginx:latest"] else [])
              ++ (done ++ [t]).map (tagCall "nginx:latest") ∧
          ∃ err, (exampleEnv (fun _ => .ok "") (fun _ _ => none) exampleLocalNginx).Run
            ([] ++ inspectCall "nginx:latest" ::
              ((if (exampleOpts true (fun _ => none)).Cache = false ∨
                  ("605c77e624dd\n" : String).length = 0 then [pullCall "nginx:latest"]
                else []) ++ done.map (tagCall "nginx:latest")))
            ["tag", "nginx:latest", t] = some err)) :=
  ⟨by decide, by decide,
    Build_tags_after_inspection
      (exampleManifest [exampleExternal "web" "nginx", exampleExternal "proxy" "nginx:latest"])
      (exampleEnv (fun _ => .ok "") (fun _ _ => none) exampleLocalNginx)
      "/src" "app" (exampleOpts true (fun _ => none))
      [exampleExternal "web" "nginx", exampleExternal "proxy" "nginx:latest"] rfl
      "nginx:latest" ["app/web", "app/proxy"] (by decide) []
      [tagCall "nginx:latest" "app/web", tagCall "nginx:latest" "app/proxy"]
      "605c77e624dd\n" (by decide) rfl (fun h => absurd h (by decide))⟩

end manifest
